import Mathlib

/-!
# IPC runtime of the multikernel

Three developments, each in its own namespace, definitions first and
properties after them:

* `ShmServer`: the shared-memory region server
  (`src/servers/shm/shm-server.c`);
* `Mppa`: the barriers and portals of the MPPA-256
  (`src/kernel/arch/mppa/barrier.c`, `src/kernel/arch/mppa256/portal.c`);
* `NameService`: the name service, of which the sources hold only the tests.

# Shared-memory region server (`src/servers/shm/shm-server.c`)

A shallow embedding of the server's request handlers.  The global tables of
the C program (`procs[]`, the region table, the pending-frame buffers) become
one explicit `State` that every operation takes and returns.

Integer conventions: return codes and region identifiers are C `int`s and are
modelled by `Int`; `size_t` is the 32-bit unsigned type of the MPPA-256
target and `off_t` its 32-bit signed type, so sums that mix both wrap modulo
`2 ^ 32`; `uint64_t` wraps modulo `2 ^ 64`.
-/

namespace ShmServer

/-! ## Error numbers (`errno.h`) -/

def EPERM : Int := 1
def ENXIO : Int := 6
def EAGAIN : Int := 11
def ENOMEM : Int := 12
def EACCES : Int := 13
def EBUSY : Int := 16
def EEXIST : Int := 17
def EINVAL : Int := 22
def ENFILE : Int := 23

/-! ## Flags for shared regions (lines 42-44) -/

def SHM_WRITE : Nat := 1 <<< 0
def SHM_SHARED : Nat := 1 <<< 1
def SHM_MAPPED : Nat := 1 <<< 2

/-- Constants of `shm.h` and of the HAL headers, which the server only uses
by name: they are parameters of the development. -/
structure Config where
  SHM_MAX : Nat
  SHM_OPEN_MAX : Nat
  SHM_NAME_MAX : Nat
  RMEM_SIZE : Nat
  HAL_NR_NOC_NODES : Nat
deriving DecidableEq, Repr

/-! ## Data model -/

/-- Modelled from the spec: the region record of the missing `shm.c`,
`{ name, owner_node, mode, base_rmem_offset, size, refcount, flags }` where
the flags encode `used` and `remove-pending`. -/
structure Region where
  name : String
  used : Bool
  remove : Bool
  owner : Int
  refcount : Int
  mode : Nat
  base : Nat
  size : Nat
deriving DecidableEq, Repr

instance : Inhabited Region := ⟨⟨"", false, false, 0, 0, 0, 0, 0⟩⟩

/-- One slot of `procs[node].oregions[]` (lines 60-64). -/
structure ORegion where
  shmid : Int
  flags : Nat
deriving DecidableEq, Repr

instance : Inhabited ORegion := ⟨⟨0, 0⟩⟩

/-- One entry of the table of processes `procs[]` (lines 50-65): the array
`oregions` has `SHM_OPEN_MAX` slots of which the first `nopen` are live. -/
structure Proc where
  nopen : Nat
  oregions : List ORegion
deriving DecidableEq, Repr

instance : Inhabited Proc := ⟨⟨0, []⟩⟩

/-- Operation codes of `shm.h`; `other` stands for every value that is none
of the named ones. -/
inductive Opcode where
  | SHM_OPEN
  | SHM_CREATE
  | SHM_CREATE_EXCL
  | SHM_UNLINK
  | SHM_MAP
  | SHM_UNMAP
  | SHM_TRUNCATE
  | SHM_SUCCESS
  | SHM_FAILURE
  | other (raw : Nat)
deriving DecidableEq, Repr

/-- Request frame `struct shm_message`, with one field for every union
member that the server reads. -/
structure Message where
  opcode : Opcode
  source : Nat
  seq : Nat
  create1_name : String
  create2_mode : Nat
  create2_rw : Int
  unlink_name : String
  map_shmid : Int
  map_size : Nat
  map_writable : Int
  map_shared : Int
  map_off : Int
  unmap_shmid : Int
  truncate_shmid : Int
  truncate_size : Nat
deriving DecidableEq, Repr

/-- The member of the union `op.ret` that a handler writes. -/
inductive Ret where
  | shmid (v : Int)
  | status (v : Int)
  | mapblk (v : Nat)
deriving DecidableEq, Repr

/-- Reply frame: the fields of `response` that the handlers assign. -/
structure Reply where
  opcode : Opcode
  source : Nat
  ret : Ret
deriving DecidableEq, Repr

/-- Server state: the region table, the table of processes and the
per-source slots for the first frame of a two-frame request. -/
structure State where
  regions : List Region
  procs : List Proc
  buffers : List (Option Message)
deriving DecidableEq, Repr

/-! ## Array access -/

def region (s : State) (shmid : Int) : Region :=
  s.regions.getD shmid.toNat default

def proc (s : State) (node : Nat) : Proc :=
  s.procs.getD node default

def oregion (s : State) (node i : Nat) : ORegion :=
  (proc s node).oregions.getD i default

def setRegion (s : State) (shmid : Int) (r : Region) : State :=
  { s with regions := s.regions.set shmid.toNat r }

def setProc (s : State) (node : Nat) (p : Proc) : State :=
  { s with procs := s.procs.set node p }

/-! ## Region pool (`shm.c`, not part of the sources) -/

/-- Modelled from the spec: `shm_is_used` of the missing `shm.c`; a region is
in use when its identifier indexes the fixed region table and its `used` flag
is set. -/
def shm_is_used (s : State) (shmid : Int) : Bool :=
  decide (0 ≤ shmid) && decide (shmid.toNat < s.regions.length) && (region s shmid).used

/-- Modelled from the spec: `shm_is_remove` of the missing `shm.c`, the
`remove-pending` flag of a region. -/
def shm_is_remove (s : State) (shmid : Int) : Bool :=
  (region s shmid).remove

/-- Modelled from the spec: `shm_is_owner` of the missing `shm.c`, whether
`node` is the `owner_node` of the region. -/
def shm_is_owner (s : State) (shmid : Int) (node : Nat) : Bool :=
  decide ((region s shmid).owner = (node : Int))

/-- Modelled from the spec: the `name → id` lookup of the missing `shm.c`:
the index of the first region in use that bears the name. -/
def shm_lookup (name : String) : List Region → Option Nat
  | [] => none
  | r :: rs =>
    if r.used = true ∧ r.name = name then some 0
    else (shm_lookup name rs).map (· + 1)

/-- Modelled from the spec: `shm_get` of the missing `shm.c`; it looks the
name up and takes one reference on the region found ("open increments
refcount"), returning its identifier, or a negative value if there is
none. -/
def shm_get (s : State) (name : String) : State × Int :=
  match shm_lookup name s.regions with
  | some i =>
    (setRegion s i { region s i with refcount := (region s i).refcount + 1 }, (i : Int))
  | none => (s, -1)

/-- Modelled from the spec: `shm_put` of the missing `shm.c`; it drops one
reference ("close decrements") and releases the region when the count
reaches zero while the region is `remove-pending` ("physical release when
last reference drops"). -/
def shm_put (s : State) (shmid : Int) : State :=
  let r := region s shmid
  let n := r.refcount - 1
  if n = 0 ∧ r.remove = true then
    setRegion s shmid { r with refcount := n, used := false, remove := false }
  else
    setRegion s shmid { r with refcount := n }

/-- Index of the first region slot that is not in use. -/
def shm_free_slot : List Region → Option Nat
  | [] => none
  | r :: rs => if r.used = false then some 0 else (shm_free_slot rs).map (· + 1)

/-- Modelled from the spec: `shm_alloc` of the missing `shm.c`; "create
allocates" a slot of the fixed pool, in use and holding the creator's
reference, and fails with a negative value when every slot is in use. -/
def shm_alloc (s : State) : State × Int :=
  match shm_free_slot s.regions with
  | some i =>
    (setRegion s i { region s i with used := true, remove := false, refcount := 1 }, (i : Int))
  | none => (s, -1)

/-- Modelled from the spec: `shm_set_remove` of the missing `shm.c`, which
marks the region `remove-pending`. -/
def shm_set_remove (s : State) (shmid : Int) : State :=
  setRegion s shmid { region s shmid with remove := true }

/-- Modelled from the spec: `shm_set_perm` of the missing `shm.c`, which
records `owner_node` and `mode`. -/
def shm_set_perm (s : State) (shmid : Int) (owner : Nat) (mode : Nat) : State :=
  setRegion s shmid { region s shmid with owner := (owner : Int), mode := mode }

/-- Modelled from the spec: `shm_set_name` of the missing `shm.c`. -/
def shm_set_name (s : State) (shmid : Int) (name : String) : State :=
  setRegion s shmid { region s shmid with name := name }

/-- Modelled from the spec: `shm_set_base` of the missing `shm.c`. -/
def shm_set_base (s : State) (shmid : Int) (base : Nat) : State :=
  setRegion s shmid { region s shmid with base := base }

/-- Modelled from the spec: `shm_set_size` of the missing `shm.c`. -/
def shm_set_size (s : State) (shmid : Int) (size : Nat) : State :=
  setRegion s shmid { region s shmid with size := size }

/-- Modelled from the spec: `shm_get_size` of the missing `shm.c`. -/
def shm_get_size (s : State) (shmid : Int) : Nat :=
  (region s shmid).size

/-- Modelled from the spec: `shm_get_base` of the missing `shm.c`. -/
def shm_get_base (s : State) (shmid : Int) : Nat :=
  (region s shmid).base

/-! ## `shm-server.c` -/

/-- The C function `shm_name_is_valid` (lines 84-90); a `String` is never `NULL`. -/
def shm_name_is_valid (c : Config) (name : String) : Bool :=
  decide (name.utf8ByteSize < c.SHM_NAME_MAX - 1) && decide (name ≠ "")

/-- Position of the first entry with the given `shmid`. -/
def oregion_index (shmid : Int) : List ORegion → Option Nat
  | [] => none
  | o :: os => if o.shmid = shmid then some 0 else (oregion_index shmid os).map (· + 1)

/-- The C function `shm_is_opened` (lines 106-119): the index of the first of the `nopen`
live entries of `node` that holds `shmid`, or `-1`. -/
def shm_is_opened (s : State) (node : Nat) (shmid : Int) : Int :=
  match oregion_index shmid ((proc s node).oregions.take (proc s node).nopen) with
  | some i => (i : Int)
  | none => -1

/-- The statements `i = procs[node].nopen++; oregions[i].shmid = shmid;
oregions[i].flags = flags` shared by `shm_open` and `shm_create`. -/
def push_oregion (s : State) (node : Nat) (shmid : Int) (flags : Nat) : State :=
  let p := proc s node
  setProc s node { nopen := p.nopen + 1, oregions := p.oregions.set p.nopen ⟨shmid, flags⟩ }

/-- The C function `shm_open` (lines 134-168). -/
def shm_open (c : Config) (s : State) (node : Nat) (name : String) : State × Int :=
  if !shm_name_is_valid c name then (s, -EINVAL)
  else
    let (s1, shmid) := shm_get s name
    if shmid < 0 then (s1, -EINVAL)
    else if shm_is_remove s1 shmid then (shm_put s1 shmid, -EAGAIN)
    else if (proc s1 node).nopen ≥ c.SHM_OPEN_MAX then (shm_put s1 shmid, -ENFILE)
    else (push_oregion s1 node shmid SHM_WRITE, shmid)

/-- The C function `shm_create` (lines 186-223). -/
def shm_create (c : Config) (s : State) (owner : Nat) (name : String)
    (writable : Int) (mode : Nat) : State × Int :=
  if !shm_name_is_valid c name then (s, -EINVAL)
  else
    let (s1, shmid) := shm_get s name
    if shmid ≥ 0 then shm_open c (shm_put s1 shmid) owner name
    else if (proc s1 owner).nopen ≥ c.SHM_OPEN_MAX then (s1, -ENFILE)
    else
      let (s2, shmid) := shm_alloc s1
      if shmid < 0 then (s2, -EAGAIN)
      else
        let s3 := shm_set_perm s2 shmid owner mode
        let s4 := shm_set_name s3 shmid name
        let s5 := shm_set_base s4 shmid 0
        let s6 := shm_set_size s5 shmid 0
        (push_oregion s6 owner shmid (if writable ≠ 0 then SHM_WRITE else 0), shmid)

/-- Conversion of a `mode_t` (32-bit unsigned) argument to an `int`
parameter. -/
def int_of_mode_t (mode : Nat) : Int :=
  Int.bmod (mode : Int) (2 ^ 32)

/-- Conversion of an `int` argument to a `mode_t` (32-bit unsigned)
parameter. -/
def mode_t_of_int (x : Int) : Nat :=
  (x % 2 ^ 32).toNat

/-- The C function `shm_create_exclusive` (lines 241-259); the call on line 258 is
`shm_create(owner, name, mode, writable)`. -/
def shm_create_exclusive (c : Config) (s : State) (owner : Nat) (name : String)
    (writable : Int) (mode : Nat) : State × Int :=
  if !shm_name_is_valid c name then (s, -EINVAL)
  else
    let (s1, shmid) := shm_get s name
    if shmid ≥ 0 then (shm_put s1 shmid, -EEXIST)
    else shm_create c s1 owner name (int_of_mode_t mode) (mode_t_of_int writable)

/-- The loop of `shm_close` (lines 294-298), `k` iterations starting at
index `j`: `oregions[j] = oregions[j + 1]`. -/
def close_shift : Nat → Nat → List ORegion → List ORegion
  | 0, _, os => os
  | k + 1, j, os => close_shift k (j + 1) (os.set j (os.getD (j + 1) default))

/-- The C function `shm_close` (lines 274-303). -/
def shm_close (s : State) (node : Nat) (shmid : Int) : State × Int :=
  if !shm_is_used s shmid then (s, -EINVAL)
  else
    let i := shm_is_opened s node shmid
    if i < 0 then (s, -EACCES)
    else
      let p := proc s node
      let nopen := p.nopen - 1
      let s1 := setProc s node
        { nopen := nopen, oregions := close_shift (nopen - i.toNat) i.toNat p.oregions }
      (shm_put s1 shmid, 0)

/-- The C function `shm_unlink` (lines 318-335). -/
def shm_unlink (s : State) (node : Nat) (name : String) : State × Int :=
  let (s1, shmid) := shm_get s name
  if shmid < 0 then (s1, -EINVAL)
  else
    let s2 := shm_put s1 shmid
    if !shm_is_owner s2 shmid node then (s2, -EPERM)
    else shm_close (shm_set_remove s2 shmid) node shmid

/-- The C function `shm_truncate` (lines 352-384). -/
def shm_truncate (c : Config) (s : State) (node : Nat) (shmid : Int) (size : Nat) :
    State × Int :=
  if size > c.RMEM_SIZE then (s, -ENOMEM)
  else if !shm_is_used s shmid then (s, -EINVAL)
  else
    let i := shm_is_opened s node shmid
    if i < 0 then (s, -EACCES)
    else if (oregion s node i.toNat).flags &&& SHM_WRITE = 0 then (s, -EINVAL)
    else if (oregion s node i.toNat).flags &&& SHM_MAPPED ≠ 0 then (s, -EBUSY)
    else (shm_set_size s shmid size, 0)

/-- Result of `shm_map`: the return code and what was stored in `*mapblk`
(nothing on failure). -/
structure MapResult where
  ret : Int
  mapblk : Option Nat
deriving DecidableEq, Repr

/-- The cast `(off_t) x` of a `size_t`. -/
def off_t_of_size_t (x : Nat) : Int :=
  Int.bmod (x : Int) (2 ^ 32)

/-- The sum `off + size` of an `off_t` and a `size_t` of the same rank: the
signed operand is converted to the unsigned type and the sum wraps. -/
def off_plus_size (off : Int) (size : Nat) : Nat :=
  ((off + (size : Int)) % 2 ^ 32).toNat

/-- The C expression `!x` on an `int` that holds flags. -/
def lnot (x : Nat) : Nat :=
  if x = 0 then 1 else 0

/-- The C function `shm_map` (lines 405-455).  The test on line 442 is
`writable && ((!flags & SHM_WRITE))`, in which `!` binds tighter than `&`. -/
def shm_map (s : State) (node : Nat) (shmid : Int) (size : Nat) (writable shared : Int)
    (off : Int) : State × MapResult :=
  if !shm_is_used s shmid then (s, ⟨-EINVAL, none⟩)
  else
    let i := shm_is_opened s node shmid
    if i < 0 then (s, ⟨-EACCES, none⟩)
    else if size > shm_get_size s shmid then (s, ⟨-ENOMEM, none⟩)
    else if off > off_t_of_size_t (shm_get_size s shmid) then (s, ⟨- ENXIO, none⟩)
    else if off_plus_size off size > shm_get_size s shmid then (s, ⟨- ENXIO, none⟩)
    else
      let o := oregion s node i.toNat
      if writable ≠ 0 ∧ lnot o.flags &&& SHM_WRITE ≠ 0 then (s, ⟨-EACCES, none⟩)
      else
        let p := proc s node
        let s1 :=
          if o.flags &&& SHM_MAPPED = 0 then
            setProc s node ⟨p.nopen, p.oregions.set i.toNat
              ⟨o.shmid, (o.flags ||| SHM_MAPPED) ||| (if shared ≠ 0 then SHM_SHARED else 0)⟩⟩
          else s
        (s1, ⟨0, some ((((shm_get_base s shmid : Nat) : Int) + off) % 2 ^ 64).toNat⟩)

/-- The C function `shm_unmap` (lines 470-492). -/
def shm_unmap (s : State) (node : Nat) (shmid : Int) : State × Int :=
  if !shm_is_used s shmid then (s, -EINVAL)
  else
    let i := shm_is_opened s node shmid
    if i < 0 then (s, -EACCES)
    else if (oregion s node i.toNat).flags &&& SHM_MAPPED = 0 then (s, -EINVAL)
    else (s, 0)

/-- The C function `shm_startup` (lines 850-864): `shm_init`, `buffer_init`, and
`procs[i].nopen = 0` for every node; the arrays are static storage. -/
def shm_startup (c : Config) : State :=
  { regions := List.replicate c.SHM_MAX default
    procs := List.replicate c.HAL_NR_NOC_NODES ⟨0, List.replicate c.SHM_OPEN_MAX default⟩
    buffers := List.replicate c.HAL_NR_NOC_NODES none }

/-! ## Pending first frames (`buffer.c`, not part of the sources) -/

/-- Modelled from the spec: `buffer_put` of the missing `buffer.c`; the
server keeps one pending first message per client node, keyed by the source
node, and a first frame whose source already has a pending slot is
rejected. -/
def buffer_put (s : State) (source : Nat) (msg : Message) : State × Int :=
  if source < s.buffers.length ∧ s.buffers.getD source none = none then
    ({ s with buffers := s.buffers.set source (some msg) }, 0)
  else (s, -EINVAL)

/-- Modelled from the spec: `buffer_get` of the missing `buffer.c`; it hands
out the pending first message of the source and consumes the slot, and
fails when the slot is empty. -/
def buffer_get (s : State) (source : Nat) : State × Int × Option Message :=
  match s.buffers.getD source none with
  | some m => ({ s with buffers := s.buffers.set source none }, 0, some m)
  | none => (s, -EINVAL, none)

/-! ## Request handlers -/

/-- Reply of the handlers that test `ret >= 0` (`do_create`,
`do_create_excl`, `do_open`). -/
def reply_shmid (source : Nat) (ret : Int) : Reply :=
  if ret ≥ 0 then ⟨Opcode.SHM_SUCCESS, source, Ret.shmid ret⟩
  else ⟨Opcode.SHM_FAILURE, source, Ret.status (-ret)⟩

/-- Reply of the handlers that test `ret == 0` (`do_unlink`, `do_unmap`,
`do_truncate`). -/
def reply_status (source : Nat) (ret : Int) : Reply :=
  if ret = 0 then ⟨Opcode.SHM_SUCCESS, source, Ret.status 0⟩
  else ⟨Opcode.SHM_FAILURE, source, Ret.status (-ret)⟩

/-- The two-frame protocol shared by `do_create`, `do_create_excl` and
`do_open`: a frame with even `seq` is stored (`assert(buffer_put(...) == 0)`)
and the handler returns 0; otherwise the first frame is fetched
(`assert(buffer_get(...) == 0)`, `assert(msg->seq == (msg1.seq | 1))`) and
`op` runs on both frames.  A failed assertion aborts the server: `none`. -/
def two_frames (s : State) (msg : Message)
    (op : State → Message → State × Int) : Option (State × Option Reply) :=
  if msg.seq &&& 1 = 0 then
    match buffer_put s msg.source msg with
    | (s1, r) => if r = 0 then some (s1, none) else none
  else
    match buffer_get s msg.source with
    | (s1, r, some msg1) =>
      if r = 0 ∧ msg.seq = (msg1.seq ||| 1) then
        match op s1 msg1 with
        | (s2, ret) => some (s2, some (reply_shmid msg.source ret))
      else none
    | (_, _, none) => none

/-- The C function `do_create` (lines 501-537): the call is
`shm_create(msg->source, msg1.op.create1.name, msg->op.create2.mode,
msg->op.create2.rw)` against the parameters `(owner, name, writable, mode)`. -/
def do_create (c : Config) (s : State) (msg : Message) : Option (State × Option Reply) :=
  two_frames s msg fun s1 msg1 =>
    shm_create c s1 msg.source msg1.create1_name
      (int_of_mode_t msg.create2_mode) (mode_t_of_int msg.create2_rw)

/-- The C function `do_create_excl` (lines 546-582). -/
def do_create_excl (c : Config) (s : State) (msg : Message) :
    Option (State × Option Reply) :=
  two_frames s msg fun s1 msg1 =>
    shm_create_exclusive c s1 msg.source msg1.create1_name
      (int_of_mode_t msg.create2_mode) (mode_t_of_int msg.create2_rw)

/-- The C function `do_open` (lines 591-622). -/
def do_open (c : Config) (s : State) (msg : Message) : Option (State × Option Reply) :=
  two_frames s msg fun s1 msg1 => shm_open c s1 msg.source msg1.create1_name

/-- The C function `do_unlink` (lines 631-650). -/
def do_unlink (s : State) (msg : Message) : Option (State × Option Reply) :=
  match shm_unlink s msg.source msg.unlink_name with
  | (s1, ret) => some (s1, some (reply_status msg.source ret))

/-- The C function `do_map` (lines 659-687). -/
def do_map (s : State) (msg : Message) : Option (State × Option Reply) :=
  match shm_map s msg.source msg.map_shmid msg.map_size msg.map_writable msg.map_shared
      msg.map_off with
  | (s1, ⟨ret, mapblk⟩) =>
    some (s1, some (
      if ret = 0 then ⟨Opcode.SHM_SUCCESS, msg.source, Ret.mapblk (mapblk.getD 0)⟩
      else ⟨Opcode.SHM_FAILURE, msg.source, Ret.status (-ret)⟩))

/-- The C function `do_unmap` (lines 696-715). -/
def do_unmap (s : State) (msg : Message) : Option (State × Option Reply) :=
  match shm_unmap s msg.source msg.unmap_shmid with
  | (s1, ret) => some (s1, some (reply_status msg.source ret))

/-- The C function `do_truncate` (lines 724-747). -/
def do_truncate (c : Config) (s : State) (msg : Message) : Option (State × Option Reply) :=
  match shm_truncate c s msg.source msg.truncate_shmid msg.truncate_size with
  | (s1, ret) => some (s1, some (reply_status msg.source ret))

/-- The C function `do_null` (lines 756-763). -/
def do_null (s : State) (msg : Message) : Option (State × Option Reply) :=
  some (s, some ⟨Opcode.SHM_FAILURE, msg.source, Ret.status EINVAL⟩)

/-- One iteration of `shm_loop` (lines 775-836) on the frame read from the
inbox: the new state and the reply written to the mailbox of
`response.source`, if any; `none` when an assertion fails. -/
def shm_loop_iter (c : Config) (s : State) (request : Message) :
    Option (State × Option Reply) :=
  if request.source ≥ c.HAL_NR_NOC_NODES then some (s, none)
  else
    match request.opcode with
    | Opcode.SHM_CREATE => do_create c s request
    | Opcode.SHM_CREATE_EXCL => do_create_excl c s request
    | Opcode.SHM_OPEN => do_open c s request
    | Opcode.SHM_UNLINK => do_unlink s request
    | Opcode.SHM_MAP => do_map s request
    | Opcode.SHM_UNMAP => do_unmap s request
    | Opcode.SHM_TRUNCATE => do_truncate c s request
    | _ => do_null s request

/-! ## Observations and concrete scenarios -/

/-- The live part of the open table of a node: the first `nopen` slots of
`procs[node].oregions`. -/
def open_table (s : State) (node : Nat) : List ORegion :=
  (proc s node).oregions.take (proc s node).nopen

/-- A small instance of the constants, used to run the server on concrete
requests. -/
def cfg0 : Config := ⟨4, 2, 16, 1024, 3⟩

/-- The server right after `shm_startup`, then node 0 creates `"R"`
writable. -/
def s_created : State := (shm_create cfg0 (shm_startup cfg0) 0 "R" 1 384).1

/-- Node 1 opens `"R"` and maps it. -/
def s_mapped_by_1 : State :=
  (shm_map (shm_open cfg0 s_created 1 "R").1 1 0 0 0 1 0).1

/-- Node 0 maps its own region. -/
def s_mapped : State := (shm_map s_created 0 0 0 0 1 0).1

/-- Node 0 creates `"R"` read-only on a fresh server. -/
def s_ro : State := (shm_create cfg0 (shm_startup cfg0) 0 "R" 0 384).1

/-- Node 0 maps its read-only region without asking for write access. -/
def s_ro_mapped : State := (shm_map s_ro 0 0 0 0 0 0).1

/-- First frame of a two-frame request of node 0 for the name `"R"`. -/
def frame1 (op : Opcode) : Message :=
  ⟨op, 0, 0, "R", 0, 0, "", 0, 0, 0, 0, 0, 0, 0, 0⟩

/-- Second frame of a two-frame request of node 0, carrying `(mode, rw)`. -/
def frame2 (op : Opcode) (mode : Nat) (rw : Int) : Message :=
  ⟨op, 0, 1, "", mode, rw, "", 0, 0, 0, 0, 0, 0, 0, 0⟩

/-- The server state after both frames of a request went through
`shm_loop_iter` on a fresh server (the fresh state if an assertion
failed). -/
def after_two_frames (op : Opcode) (mode : Nat) (rw : Int) : State :=
  match shm_loop_iter cfg0 (shm_startup cfg0) (frame1 op) with
  | some (s1, _) =>
    match shm_loop_iter cfg0 s1 (frame2 op mode rw) with
    | some (s2, _) => s2
    | none => shm_startup cfg0
  | none => shm_startup cfg0

/-- An `UNLINK` request for `"R"` sent by node 1. -/
def unlink_by_1 : Message :=
  ⟨Opcode.SHM_UNLINK, 1, 0, "", 0, 0, "R", 0, 0, 0, 0, 0, 0, 0, 0⟩

/-- Return codes of `create(name); close; open(name); close; unlink(name);
unlink(name)`, all issued by `node` to a freshly started server. -/
def round_trip (c : Config) (node : Nat) (name : String) (writable : Int) (mode : Nat) :
    List Int :=
  let r1 := shm_create c (shm_startup c) node name writable mode
  let r2 := shm_close r1.1 node r1.2
  let r3 := shm_open c r2.1 node name
  let r4 := shm_close r3.1 node r3.2
  let r5 := shm_unlink r4.1 node name
  let r6 := shm_unlink r5.1 node name
  [r1.2, r2.2, r3.2, r4.2, r5.2, r6.2]

/-- Return codes of `create(name); close; open(name); unlink(name);
unlink(name)`: the creator unlinks while it still has the region open. -/
def unlink_while_open (c : Config) (node : Nat) (name : String) (writable : Int)
    (mode : Nat) : List Int :=
  let r1 := shm_create c (shm_startup c) node name writable mode
  let r2 := shm_close r1.1 node r1.2
  let r3 := shm_open c r2.1 node name
  let r4 := shm_unlink r3.1 node name
  let r5 := shm_unlink r4.1 node name
  [r1.2, r2.2, r3.2, r4.2, r5.2]

/-- States met on the round trip: region 0 holds `r`, the table of `node` is
`p`, and every other slot is as `shm_startup` left it. -/
def rt_state (c : Config) (node : Nat) (r : Region) (p : Proc) : State :=
  { regions := r :: List.replicate (c.SHM_MAX - 1) default
    procs := (List.replicate c.HAL_NR_NOC_NODES ⟨0, List.replicate c.SHM_OPEN_MAX default⟩).set node p
    buffers := List.replicate c.HAL_NR_NOC_NODES none }

/-- Node 0 created `"R"` and node 1 opened it. -/
def s_shared : State := (shm_open cfg0 s_created 1 "R").1

/-- The owner, node 0, has unlinked `"R"` while node 1 still holds it. -/
def s_unlinked : State := (shm_unlink s_shared 0 "R").1

/-- Node 0 created `"R"` writable and truncated it to 16 bytes. -/
def s_truncated : State := (shm_truncate cfg0 s_created 0 0 16).1

/-- A call of one of the eight operations of the server, with its
arguments. -/
inductive Op where
  | call_open (node : Nat) (name : String)
  | call_create (node : Nat) (name : String) (writable : Int) (mode : Nat)
  | call_create_exclusive (node : Nat) (name : String) (writable : Int) (mode : Nat)
  | call_close (node : Nat) (shmid : Int)
  | call_unlink (node : Nat) (name : String)
  | call_truncate (node : Nat) (shmid : Int) (size : Nat)
  | call_map (node : Nat) (shmid : Int) (size : Nat) (writable shared off : Int)
  | call_unmap (node : Nat) (shmid : Int)
deriving DecidableEq, Repr

/-- The state and the return code after one call. -/
def apply_op (c : Config) (s : State) : Op → State × Int
  | Op.call_open node name => shm_open c s node name
  | Op.call_create node name writable mode => shm_create c s node name writable mode
  | Op.call_create_exclusive node name writable mode =>
    shm_create_exclusive c s node name writable mode
  | Op.call_close node shmid => shm_close s node shmid
  | Op.call_unlink node name => shm_unlink s node name
  | Op.call_truncate node shmid size => shm_truncate c s node shmid size
  | Op.call_map node shmid size writable shared off =>
    ((shm_map s node shmid size writable shared off).1,
      (shm_map s node shmid size writable shared off).2.ret)
  | Op.call_unmap node shmid => shm_unmap s node shmid

/-- The state after a sequence of calls. -/
def run_ops (c : Config) (s : State) (ops : List Op) : State :=
  ops.foldl (fun t op => (apply_op c t op).1) s

/-- The name resolves to region `id`, which is marked `remove-pending`. -/
def RemovePending (name : String) (id : Nat) (s : State) : Prop :=
  shm_lookup name s.regions = some id ∧ (region s id).remove = true

/-! ## Consistency of the tables and reachable states -/

/-- The region identifiers held by the live entries of one table of opened
regions. -/
def proc_ids (p : Proc) : List Int :=
  (p.oregions.take p.nopen).map ORegion.shmid

/-- The region identifiers held by the live entries of all nodes, with
repetitions. -/
def live_ids (s : State) : List Int :=
  s.procs.flatMap proc_ids

/-- The node on whose behalf a call is made. -/
def Op.node : Op → Nat
  | Op.call_open node _ => node
  | Op.call_create node _ _ _ => node
  | Op.call_create_exclusive node _ _ _ => node
  | Op.call_close node _ => node
  | Op.call_unlink node _ => node
  | Op.call_truncate node _ _ => node
  | Op.call_map node _ _ _ _ _ => node
  | Op.call_unmap node _ => node

/-- Consistency of the tables of the server: `procs[]` has one table per
node, each with `SHM_OPEN_MAX` slots of which at most all are live; regions in
use bear valid names; live entries point to regions in use; and the reference
count of a region in use is the number of live entries that hold it. -/
structure Inv (c : Config) (s : State) : Prop where
  procs_len : s.procs.length = c.HAL_NR_NOC_NODES
  room : ∀ p ∈ s.procs, p.oregions.length = c.SHM_OPEN_MAX ∧ p.nopen ≤ c.SHM_OPEN_MAX
  names : ∀ r ∈ s.regions, r.used = true → shm_name_is_valid c r.name = true
  ids : ∀ x ∈ live_ids s, 0 ≤ x ∧ x.toNat < s.regions.length
  refs : ∀ id : Nat, id < s.regions.length →
    ((region s id).used = true →
      (((live_ids s).count (id : Int) : Nat) : Int) = (region s id).refcount) ∧
    ((region s id).used = false → (live_ids s).count (id : Int) = 0)

/-- The states that the server reaches from `shm_startup` by calls made on
behalf of valid nodes (the loop drops requests of other sources). -/
inductive Reachable (c : Config) : State → Prop where
  | start : Reachable c (shm_startup c)
  | step {s : State} (op : Op) :
    Reachable c s → op.node < c.HAL_NR_NOC_NODES → Reachable c (apply_op c s op).1

/-- The region slot that `shm_put` writes. -/
def put_region (r : Region) : Region :=
  if r.refcount - 1 = 0 ∧ r.remove = true then
    { r with refcount := r.refcount - 1, used := false, remove := false }
  else { r with refcount := r.refcount - 1 }

/-! ## Accesses to the open tables -/

/-- The calls that add an entry to the open table of their node when they
succeed: `shm_open`, `shm_create`, `shm_create_exclusive`. -/
def Op.opens : Op → Bool
  | Op.call_open _ _ => true
  | Op.call_create _ _ _ _ => true
  | Op.call_create_exclusive _ _ _ _ => true
  | _ => false

/-- The calls that remove an entry from the open table of their node when
they succeed: `shm_close`, `shm_unlink`. -/
def Op.closes : Op → Bool
  | Op.call_close _ _ => true
  | Op.call_unlink _ _ => true
  | _ => false

/-- The indices `i` of `procs[node].oregions[i]` that `shm_is_opened` reads
(lines 112-116): `0..i` when entry `i` is the first match, `0..nopen-1` when
there is none. -/
def shm_is_opened_accesses (s : State) (node : Nat) (shmid : Int) : List Nat :=
  if shm_is_opened s node shmid < 0 then List.range (proc s node).nopen
  else List.range ((shm_is_opened s node shmid).toNat + 1)

/-- The indices of `procs[node].oregions` that `shm_close` reads or writes
(lines 289-298): those of `shm_is_opened`, then `j` and `j + 1` for every
`j` from `i` to `nopen - 1`, with `nopen` already decremented. -/
def shm_close_accesses (s : State) (node : Nat) (shmid : Int) : List Nat :=
  if !shm_is_used s shmid then []
  else
    shm_is_opened_accesses s node shmid ++
      (if shm_is_opened s node shmid < 0 then []
      else
        (List.range ((proc s node).nopen - 1 - (shm_is_opened s node shmid).toNat)).flatMap
          fun k => [(shm_is_opened s node shmid).toNat + k,
            (shm_is_opened s node shmid).toNat + k + 1])

/-- The indices of `procs[node].oregions` that a call reads or writes.  A
successful `shm_open` or `shm_create` writes the entry `nopen` (lines
163-165, 218-220); `shm_unlink` accesses the table through `shm_close`;
`shm_truncate`, `shm_map` and `shm_unmap` read, and `shm_map` writes, the
entry that `shm_is_opened` found (for `shm_map` the entry is listed also
when one of the guards on size and offset returns before it is read). -/
def oregions_accessed (c : Config) (s : State) : Op → List Nat
  | Op.call_open node name =>
    if (shm_open c s node name).2 ≥ 0 then [(proc s node).nopen] else []
  | Op.call_create node name writable mode =>
    if (shm_create c s node name writable mode).2 ≥ 0 then [(proc s node).nopen] else []
  | Op.call_create_exclusive node name writable mode =>
    if (shm_create_exclusive c s node name writable mode).2 ≥ 0 then [(proc s node).nopen]
    else []
  | Op.call_close node shmid => shm_close_accesses s node shmid
  | Op.call_unlink node name =>
    if (shm_get s name).2 < 0 then []
    else if !shm_is_owner (shm_put (shm_get s name).1 (shm_get s name).2) (shm_get s name).2 node
    then []
    else
      shm_close_accesses
        (shm_set_remove (shm_put (shm_get s name).1 (shm_get s name).2) (shm_get s name).2)
        node (shm_get s name).2
  | Op.call_truncate node shmid size =>
    if size > c.RMEM_SIZE then []
    else if !shm_is_used s shmid then []
    else
      shm_is_opened_accesses s node shmid ++
        (if shm_is_opened s node shmid < 0 then [] else [(shm_is_opened s node shmid).toNat])
  | Op.call_map node shmid _ _ _ _ =>
    if !shm_is_used s shmid then []
    else
      shm_is_opened_accesses s node shmid ++
        (if shm_is_opened s node shmid < 0 then [] else [(shm_is_opened s node shmid).toNat])
  | Op.call_unmap node shmid =>
    if !shm_is_used s shmid then []
    else
      shm_is_opened_accesses s node shmid ++
        (if shm_is_opened s node shmid < 0 then [] else [(shm_is_opened s node shmid).toNat])

end ShmServer

/-! # The NoC primitives of the MPPA-256 (`barrier.c`, `portal.c`) -/

namespace Mppa

/-! ## Error numbers -/

def ENOENT : Int := 2
def EAGAIN : Int := 11
def EINVAL : Int := 22

/-! ## Topology

The header `nanvix/arch/mppa.h` with the cluster numbering is not part of
the sources, so its constants are parameters of the model. -/

/-- The constants of the topology used by `barrier.c` and `portal.c`. -/
structure Topology where
  NR_CCLUSTER : Int
  NR_IOCLUSTER_DMA : Int
  CCLUSTER0 : Int
  CCLUSTER1 : Int
  CCLUSTER15 : Int
  IOCLUSTER0 : Int
  IOCLUSTER1 : Int
  deriving DecidableEq, Repr

/-- Modelled from the spec: the fixed numbering of the node IDs.  Compute
nodes are `0..NR_CCLUSTER-1` (`CCLUSTER15` is the last one), the DMA nodes
of the two I/O clusters come after them in two disjoint blocks of
`NR_IOCLUSTER_DMA` consecutive IDs, each block starting at a multiple of
`NR_IOCLUSTER_DMA`, and every node owns a bit of a positive `int`. -/
def Topology.wf (t : Topology) : Prop :=
  t.CCLUSTER0 = 0 ∧ t.CCLUSTER1 = 1 ∧ t.CCLUSTER15 = t.NR_CCLUSTER - 1
  ∧ 2 ≤ t.NR_CCLUSTER ∧ 0 < t.NR_IOCLUSTER_DMA
  ∧ t.NR_CCLUSTER ≤ t.IOCLUSTER0
  ∧ t.IOCLUSTER0 + t.NR_IOCLUSTER_DMA ≤ t.IOCLUSTER1
  ∧ t.IOCLUSTER0 % t.NR_IOCLUSTER_DMA = 0 ∧ t.IOCLUSTER1 % t.NR_IOCLUSTER_DMA = 0
  ∧ t.NR_CCLUSTER + 2 * t.NR_IOCLUSTER_DMA ≤ 31

instance (t : Topology) : Decidable t.wf := by
  unfold Topology.wf
  infer_instance

/-- Modelled from the spec: the numbering of the MPPA-256, 16 compute
clusters numbered from 0 and two I/O clusters with 4 DMA nodes each,
numbered from 128 and from 192. -/
def mppa256 : Topology :=
  { NR_CCLUSTER := 16, NR_IOCLUSTER_DMA := 4, CCLUSTER0 := 0, CCLUSTER1 := 1,
    CCLUSTER15 := 15, IOCLUSTER0 := 128, IOCLUSTER1 := 192 }

/-- The node IDs of the topology: the compute nodes and the DMA nodes of
both I/O clusters. -/
def Topology.is_node (t : Topology) (nodeid : Int) : Prop :=
  (t.CCLUSTER0 ≤ nodeid ∧ nodeid < t.CCLUSTER0 + t.NR_CCLUSTER)
  ∨ (t.IOCLUSTER0 ≤ nodeid ∧ nodeid < t.IOCLUSTER0 + t.NR_IOCLUSTER_DMA)
  ∨ (t.IOCLUSTER1 ≤ nodeid ∧ nodeid < t.IOCLUSTER1 + t.NR_IOCLUSTER_DMA)

instance (t : Topology) (nodeid : Int) : Decidable (t.is_node nodeid) := by
  unfold Topology.is_node
  infer_instance

/-! ## C arithmetic -/

/-- The C expression `1 << k` on 32-bit `int`.  C defines it for
`0 <= k < 31`; for `k = 31` the model gives `INT_MIN`, for `k > 31` it gives
0 and for `k < 0` it gives 1. -/
def shl1 (k : Int) : Int :=
  Int.bmod (2 ^ k.toNat) (2 ^ 32)

/-- The C expression `~x` on `int`. -/
def int_not (x : Int) : Int :=
  -x - 1

/-- Conversion of an `int` to `uint64_t`. -/
def to_uint64 (x : Int) : Nat :=
  (x % 2 ^ 64).toNat

/-- The C expression `~m` on `uint64_t`. -/
def u64_not (m : Nat) : Nat :=
  2 ^ 64 - 1 - m % 2 ^ 64

/-- Conversion of the `ssize_t` result of a driver call to `size_t`
(32-bit unsigned). -/
def size_t_of_ssize_t (x : Int) : Nat :=
  (x % 2 ^ 32).toNat

/-- Conversion of a `size_t` to the `int` that the function returns. -/
def int_of_size_t (n : Nat) : Int :=
  Int.bmod (n : Int) (2 ^ 32)

/-! ## Calls to the NoC driver

The driver (`mppa_open`, `mppa_ioctl`, ...) is outside the sources.  A
function of the model returns the list of driver calls it made, in order;
the result of each call is given by an environment, a function of the calls
made so far. -/

/-- Access mode of `mppa_open`. -/
inductive OFlag
  | O_RDONLY
  | O_WRONLY
  deriving DecidableEq, Repr

/-- One call to the NoC driver with its arguments; `mppa_ioctl` is split by
request (`MPPA_RX_SET_MATCH`, `MPPA_TX_SET_RX_RANKS`), buffers are named by
their address. -/
inductive NocCall
  | mppa_open (pathname : String) (flags : OFlag)
  | mppa_close (fd : Int)
  | mppa_ioctl_rx_set_match (fd : Int) (mask : Nat)
  | mppa_ioctl_tx_set_rx_ranks (fd : Int) (n : Int) (ranks : List Int)
  | mppa_read (fd : Int) (size : Nat)
  | mppa_write (fd : Int) (mask : Nat) (size : Nat)
  | mppa_pwrite (fd : Int) (buf : Nat) (n : Nat) (off : Int)
  | mppa_aiocb_ctor (fd : Int) (buf : Nat) (n : Nat)
  | mppa_aio_read
  | mppa_aio_wait
  deriving DecidableEq, Repr

/-- The driver: the result of the last call of a history of calls. -/
abbrev Env := List NocCall → Int

/-- Issues the call `c` after the calls `tr`: the result of the call and the
extended history. -/
def noc (env : Env) (tr : List NocCall) (c : NocCall) : Int × List NocCall :=
  (env (tr ++ [c]), tr ++ [c])

/-! ## Barriers (`barrier.c`) -/

def NR_BARRIER : Nat := 3

def BARRIER_USED : Nat := 1 <<< 0
def BARRIER_WRONLY : Nat := 1 <<< 1

/-- The C structure `struct barrier`; the field `local` is called
`local_sync` here, and `flags` is a set of flag bits. -/
structure Barrier where
  local_sync : Int
  remote : Int
  flags : Nat
  deriving DecidableEq, Repr, Inhabited

/-- The loop of `barrier_alloc` (lines 74-82) with `k` iterations left,
starting at index `i`. -/
def barrier_alloc_loop : Nat → Nat → List Barrier → Int × List Barrier
  | 0, _, bs => (-ENOENT, bs)
  | k + 1, i, bs =>
    if (bs.getD i default).flags &&& BARRIER_USED = 0 then
      ((i : Int),
        bs.set i { bs.getD i default with flags := (bs.getD i default).flags ||| BARRIER_USED })
    else barrier_alloc_loop k (i + 1) bs

/-- The C function `barrier_alloc` (lines 71-85) on the table `barriers`. -/
def barrier_alloc (bs : List Barrier) : Int × List Barrier :=
  barrier_alloc_loop NR_BARRIER 0 bs

/-- The C function `barrier_free` (lines 96-103); `none` when an assertion
fails. -/
def barrier_free (bs : List Barrier) (barrierid : Int) : Option (List Barrier) :=
  if ¬ (barrierid ≥ 0 ∧ barrierid < NR_BARRIER) then none
  else if (bs.getD barrierid.toNat default).flags &&& BARRIER_USED = 0 then none
  else some (bs.set barrierid.toNat { bs.getD barrierid.toNat default with flags := 0 })

/-- The C function `barrier_noctag` (lines 114-122). -/
def barrier_noctag (t : Topology) (local_ : Int) : Int :=
  if local_ = t.IOCLUSTER0 ∨ local_ = t.IOCLUSTER1 then 2
  else if local_ = t.CCLUSTER0 then 3
  else 4

/-- The pathname `"/mppa/sync/%d:%d"` built by `snprintf`. -/
def sync_path (node tag : Int) : String :=
  "/mppa/sync/" ++ toString node ++ ":" ++ toString tag

/-- The pathname `"/mppa/sync/[%d..%d]:%d"` built by `snprintf`. -/
def sync_range_path (first last tag : Int) : String :=
  "/mppa/sync/[" ++ toString first ++ ".." ++ toString last ++ "]:" ++ toString tag

/-- The match mask of the master, `mask = ~((1 << (ncclusters - 1)) - 1)`
(line 212): an `int` expression assigned to a `uint64_t`. -/
def master_match_mask (ncclusters : Int) : Nat :=
  to_uint64 (int_not (shl1 (ncclusters - 1) - 1))

/-- The mask a worker signals, `mask = 1 << (local - 1)` (line 307): an
`int` expression assigned to a `uint64_t`. -/
def worker_signal (local_ : Int) : Nat :=
  to_uint64 (shl1 (local_ - 1))

/-- The mask `mask = ~0` (lines 283, 288, 300): the `int` -1 assigned to a
`uint64_t`. -/
def release_mask : Nat :=
  to_uint64 (int_not 0)

/-- The statements that the four branches of `barrier_open` share (lines
150-167, 173-190, 204-226, 230-248): open the local sync read-only, set its
match mask, open the remote sync write-only and, for the master only, set
the ranks of the receivers.  The result is `none` when an assertion
fails. -/
def open_syncs (env : Env) (bs : List Barrier) (barrierid : Int) (local_path : String)
    (mask : Nat) (remote_path : String) (ranks : Option (Int × List Int)) :
    Option Int × List Barrier × List NocCall :=
  let id := barrierid.toNat
  match noc env [] (NocCall.mppa_open local_path OFlag.O_RDONLY) with
  | (fd, tr1) =>
    let bs1 := bs.set id { bs.getD id default with local_sync := fd }
    if fd = -1 then (none, bs1, tr1)
    else
      match noc env tr1 (NocCall.mppa_ioctl_rx_set_match fd mask) with
      | (r, tr2) =>
        if r ≠ 0 then (none, bs1, tr2)
        else
          match noc env tr2 (NocCall.mppa_open remote_path OFlag.O_WRONLY) with
          | (fd2, tr3) =>
            let bs2 := bs1.set id { bs1.getD id default with remote := fd2 }
            if fd2 = -1 then (none, bs2, tr3)
            else
              match ranks with
              | none => (some barrierid, bs2, tr3)
              | some (n, cclusters) =>
                match noc env tr3 (NocCall.mppa_ioctl_tx_set_rx_ranks fd2 n cclusters) with
                | (r2, tr4) =>
                  if r2 ≠ 0 then (none, bs2, tr4) else (some barrierid, bs2, tr4)

/-- The C function `barrier_open` (lines 133-253) on the cluster `local_`
(the result of `k1_get_cluster_id`): the return value (`none` when an
assertion fails), the table of barriers and the driver calls. -/
def barrier_open (t : Topology) (env : Env) (local_ : Int) (bs : List Barrier)
    (ncclusters : Int) : Option Int × List Barrier × List NocCall :=
  match barrier_alloc bs with
  | (barrierid, bs0) =>
    if barrierid < 0 then (some (-ENOENT), bs0, [])
    else if local_ = t.IOCLUSTER0 then
      open_syncs env bs0 barrierid
        (sync_path t.IOCLUSTER0 (barrier_noctag t t.IOCLUSTER0)) 0
        (sync_path t.IOCLUSTER1 (barrier_noctag t t.IOCLUSTER1)) none
    else if local_ = t.IOCLUSTER1 then
      open_syncs env bs0 barrierid
        (sync_path t.IOCLUSTER1 (barrier_noctag t t.IOCLUSTER1)) 0
        (sync_path t.IOCLUSTER0 (barrier_noctag t t.IOCLUSTER0)) none
    else if ncclusters < 2 ∨ ncclusters > t.NR_CCLUSTER then (some (-EINVAL), bs0, [])
    else if local_ = t.CCLUSTER0 then
      open_syncs env bs0 barrierid
        (sync_path t.CCLUSTER0 (barrier_noctag t t.CCLUSTER0))
        (master_match_mask ncclusters)
        (sync_range_path t.CCLUSTER1 (t.CCLUSTER0 + (ncclusters - 1))
          (barrier_noctag t (t.CCLUSTER0 + ncclusters)))
        (some (ncclusters - 1, (List.range (ncclusters - 1).toNat).map Int.ofNat))
    else
      open_syncs env bs0 barrierid
        (sync_range_path t.CCLUSTER1 (t.CCLUSTER0 + (ncclusters - 1))
          (barrier_noctag t (t.CCLUSTER0 + ncclusters))) 0
        (sync_path t.CCLUSTER0 (barrier_noctag t t.CCLUSTER0)) none

/-- The statements `assert(mppa_read(local, &mask, 8) == 8); mask = ...;
assert(mppa_write(remote, &mask, 8) == 8)` of `barrier_wait` (lines 282-284
and 299-301). -/
def read_then_write (env : Env) (b : Barrier) (mask : Nat) : Option Int × List NocCall :=
  match noc env [] (NocCall.mppa_read b.local_sync 8) with
  | (r, tr1) =>
    if r ≠ 8 then (none, tr1)
    else
      match noc env tr1 (NocCall.mppa_write b.remote mask 8) with
      | (w, tr2) => if w ≠ 8 then (none, tr2) else (some 0, tr2)

/-- The statements `mask = ...; assert(mppa_write(remote, &mask, 8) == 8);
assert(mppa_read(local, &mask, 8) == 8)` of `barrier_wait` (lines 288-290
and 307-309). -/
def write_then_read (env : Env) (b : Barrier) (mask : Nat) : Option Int × List NocCall :=
  match noc env [] (NocCall.mppa_write b.remote mask 8) with
  | (w, tr1) =>
    if w ≠ 8 then (none, tr1)
    else
      match noc env tr1 (NocCall.mppa_read b.local_sync 8) with
      | (r, tr2) => if r ≠ 8 then (none, tr2) else (some 0, tr2)

/-- The C function `barrier_wait` (lines 264-314) on the cluster `local_`:
the return value (`none` when an assertion fails) and the driver calls. -/
def barrier_wait (t : Topology) (env : Env) (local_ : Int) (bs : List Barrier)
    (barrierid : Int) : Option Int × List NocCall :=
  if barrierid < 0 ∨ barrierid ≥ NR_BARRIER then (some (-EINVAL), [])
  else if (bs.getD barrierid.toNat default).flags &&& BARRIER_USED = 0 then
    (some (-EINVAL), [])
  else
    let b := bs.getD barrierid.toNat default
    if local_ = t.IOCLUSTER0 then read_then_write env b release_mask
    else if local_ = t.IOCLUSTER1 then write_then_read env b release_mask
    else if local_ = t.CCLUSTER0 then read_then_write env b release_mask
    else write_then_read env b (worker_signal local_)

/-- The bits that the workers of the list `S` have signalled on the sync of
the master: the OR of their masks. -/
def signalled (S : List Int) : Nat :=
  S.foldl (fun acc i => acc ||| worker_signal i) 0

/-! ## Portals (`portal.c`) -/

/-- The C structure `portal_t`; the field `local` is called `local_`
here. -/
structure Portal where
  portal_fd : Int
  sync_fd : Int
  remote : Int
  local_ : Int
  deriving DecidableEq, Repr

/-- The C function `portal_sync` (lines 217-225): an `int` expression
returned as `uint64_t`. -/
def portal_sync (t : Topology) (nodeid : Int) : Nat :=
  if nodeid ≥ t.IOCLUSTER0 ∧ nodeid < t.IOCLUSTER0 + t.NR_IOCLUSTER_DMA then
    to_uint64 (shl1 (t.CCLUSTER15 + 1 + Int.tmod nodeid t.NR_IOCLUSTER_DMA))
  else if nodeid ≥ t.IOCLUSTER1 ∧ nodeid < t.IOCLUSTER1 + t.NR_IOCLUSTER_DMA then
    to_uint64 (shl1 (t.CCLUSTER15 + 1 + t.NR_IOCLUSTER_DMA
      + Int.tmod nodeid t.NR_IOCLUSTER_DMA))
  else to_uint64 (shl1 nodeid)

/-- The C function `hal_portal_read` (lines 241-274); a null pointer is
`none`.  The result is the return value, the handle after the call and the
driver calls. -/
def hal_portal_read (t : Topology) (env : Env) (portal : Option Portal) (buf : Option Nat)
    (n : Nat) : Int × Option Portal × List NocCall :=
  match portal, buf with
  | none, _ => (-EINVAL, none, [])
  | some p, none => (-EINVAL, some p, [])
  | some p, some b =>
    if n < 1 then (-EINVAL, some p, [])
    else
      match noc env [] (NocCall.mppa_aiocb_ctor p.portal_fd b n) with
      | (_, tr1) =>
        match noc env tr1 NocCall.mppa_aio_read with
        | (r, tr2) =>
          if r = -1 then (-EINVAL, some p, tr2)
          else
            match noc env tr2 (NocCall.mppa_write p.sync_fd (portal_sync t p.local_) 8) with
            | (w, tr3) =>
              if w = -1 then (-EAGAIN, some p, tr3)
              else
                match noc env tr3 NocCall.mppa_aio_wait with
                | (nread, tr4) =>
                  match noc env tr4 (NocCall.mppa_close p.sync_fd) with
                  | (_, tr5) => (int_of_size_t (size_t_of_ssize_t nread), some p, tr5)

/-- The C function `hal_portal_write` (lines 290-319); a null pointer is
`none`.  The result is the return value and the driver calls. -/
def hal_portal_write (t : Topology) (env : Env) (portal : Option Portal) (buf : Option Nat)
    (n : Nat) : Int × List NocCall :=
  match portal, buf with
  | none, _ => (-EINVAL, [])
  | some _, none => (-EINVAL, [])
  | some p, some b =>
    if n < 1 then (-EINVAL, [])
    else
      match noc env []
        (NocCall.mppa_ioctl_rx_set_match p.sync_fd (u64_not (portal_sync t p.remote))) with
      | (r, tr1) =>
        if r = -1 then (-EINVAL, tr1)
        else
          match noc env tr1 (NocCall.mppa_read p.sync_fd 8) with
          | (r2, tr2) =>
            if r2 = -1 then (-EAGAIN, tr2)
            else
              match noc env tr2 (NocCall.mppa_pwrite p.portal_fd b n 0) with
              | (nwrite, tr3) => (int_of_size_t (size_t_of_ssize_t nwrite), tr3)

/-- The two conditional calls of `mppa_close` in `hal_portal_close` (lines
339-343). -/
def close_fds (env : Env) (p : Portal) : List NocCall :=
  let tr1 := if p.portal_fd ≠ -1 then (noc env [] (NocCall.mppa_close p.portal_fd)).2 else []
  if p.sync_fd ≠ -1 then (noc env tr1 (NocCall.mppa_close p.sync_fd)).2 else tr1

/-- The C function `hal_portal_close` (lines 333-349); a null pointer is
`none`.  The result is the return value, the handle after the call and the
driver calls. -/
def hal_portal_close (env : Env) (portal : Option Portal) :
    Int × Option Portal × List NocCall :=
  match portal with
  | none => (-EINVAL, none, [])
  | some p => (0, some { p with remote := -1, local_ := -1 }, close_fds env p)

/-- The C function `hal_portal_unlink` (lines 363-377); a null pointer is
`none`. -/
def hal_portal_unlink (env : Env) (portal : Option Portal) :
    Int × Option Portal × List NocCall :=
  match portal with
  | none => (-EINVAL, none, [])
  | some p =>
    (0, some { p with sync_fd := -1, remote := -1, local_ := -1 },
      if p.portal_fd ≠ -1 then (noc env [] (NocCall.mppa_close p.portal_fd)).2 else [])

/-! ## Scenarios -/

/-- A driver whose calls all succeed: `mppa_open` returns the descriptor 3,
reads and writes return the 8 bytes of a mask, every other call returns 0. -/
def env_ok : Env := fun tr =>
  match tr.getLast? with
  | some (NocCall.mppa_open _ _) => 3
  | some (NocCall.mppa_read _ size) => size
  | some (NocCall.mppa_write _ _ size) => size
  | some (NocCall.mppa_pwrite _ _ n _) => n
  | some NocCall.mppa_aio_wait => 128
  | _ => 0

/-- An open portal of node 0 towards node 1 with the descriptors 3 and 4. -/
def portal0 : Portal := ⟨3, 4, 1, 0⟩

/-- A table of barriers whose slots 0 and 1 are in use. -/
def barriers0 : List Barrier := [⟨5, 6, BARRIER_USED⟩, ⟨7, 8, BARRIER_USED⟩, ⟨0, 0, 0⟩]

/-! ## Opening portals (`portal.c`, lines 48-204) -/

/-- The functions of the HAL that `portal.c` calls and that are not part of
the sources; they are parameters of the model. -/
structure Hal where
  noctag_portal : Int → Int
  k1_is_ccluster : Int → Bool
  noc_is_ionode : Int → Bool
  noc_is_cnode : Int → Bool

/-- The pathname `"/mppa/portal/%d:%d"` built by `snprintf`. -/
def portal_path (node tag : Int) : String :=
  "/mppa/portal/" ++ toString node ++ ":" ++ toString tag

/-- The NoC tag of the control-sync of a portal between `remote` and `local_`
(lines 125-126 and 190-191): the portal tag of `tagged` when one of the two
nodes is a compute cluster, 127 otherwise. -/
def sync_tag (hal : Hal) (remote local_ tagged : Int) : Int :=
  if hal.k1_is_ccluster remote || hal.k1_is_ccluster local_ then hal.noctag_portal tagged
  else 127

/-- The C function `hal_portal_create` (lines 48-85) on the node `node_id`
(the result of `hal_get_node_id`); a null pointer is `none`.  The result is
the return value, the handle after the call and the driver calls. -/
def hal_portal_create (hal : Hal) (env : Env) (node_id : Int) (portal : Option Portal)
    (local_ : Int) : Int × Option Portal × List NocCall :=
  match portal with
  | none => (-EINVAL, none, [])
  | some p =>
    if local_ ≠ node_id then (-EINVAL, some p, [])
    else
      match noc env []
        (NocCall.mppa_open (portal_path local_ (hal.noctag_portal local_)) OFlag.O_RDONLY) with
      | (fd, tr1) =>
        if fd = -1 then (-EAGAIN, some p, tr1)
        else (0, some ⟨fd, -1, -1, local_⟩, tr1)

/-- The C function `hal_portal_allow` (lines 100-137) on the node
`node_id`. -/
def hal_portal_allow (hal : Hal) (env : Env) (node_id : Int) (portal : Option Portal)
    (remote : Int) : Int × Option Portal × List NocCall :=
  match portal with
  | none => (-EINVAL, none, [])
  | some p =>
    if !(hal.noc_is_ionode remote || hal.noc_is_cnode remote) then (-EINVAL, some p, [])
    else if remote = node_id then (-EINVAL, some p, [])
    else
      match noc env []
        (NocCall.mppa_open (sync_path remote (sync_tag hal remote node_id p.local_))
          OFlag.O_WRONLY) with
      | (sync_fd, tr1) =>
        if sync_fd = -1 then (-EAGAIN, some p, tr1)
        else (0, some { p with remote := remote, sync_fd := sync_fd }, tr1)

/-- The C function `hal_portal_open` (lines 152-204) on the node
`node_id`. -/
def hal_portal_open (hal : Hal) (env : Env) (node_id : Int) (portal : Option Portal)
    (remote : Int) : Int × Option Portal × List NocCall :=
  match portal with
  | none => (-EINVAL, none, [])
  | some p =>
    if remote < 0 then (-EINVAL, some p, [])
    else if remote = node_id then (-EINVAL, some p, [])
    else
      match noc env []
        (NocCall.mppa_open (portal_path remote (hal.noctag_portal remote)) OFlag.O_WRONLY) with
      | (portal_fd, tr1) =>
        if portal_fd = -1 then (-EAGAIN, some p, tr1)
        else
          match noc env tr1
            (NocCall.mppa_open (sync_path node_id (sync_tag hal remote node_id remote))
              OFlag.O_RDONLY) with
          | (sync_fd, tr2) =>
            if sync_fd = -1 then (-EAGAIN, some p, tr2)
            else (0, some ⟨portal_fd, sync_fd, remote, node_id⟩, tr2)

/-- A HAL for the examples: compute clusters are the nodes below 16, I/O
nodes those from 128 on, and the portal tag of a node is 10 more than its
number. -/
def hal0 : Hal :=
  { noctag_portal := fun n => n + 10
    k1_is_ccluster := fun n => decide (0 ≤ n) && decide (n < 16)
    noc_is_ionode := fun n => decide (128 ≤ n)
    noc_is_cnode := fun n => decide (0 ≤ n) && decide (n < 16) }

/-- The table of barriers before any call: static storage, all slots
free. -/
def barriers_init : List Barrier := [⟨0, 0, 0⟩, ⟨0, 0, 0⟩, ⟨0, 0, 0⟩]

end Mppa

/-! # The name service

The name server and the client stubs `nanvix_name_register`,
`nanvix_name_unregister`, ... are not part of the sources (only their tests
in `ubin/test/name` are); the model follows the specification. -/

namespace NameService

def EPERM : Int := 1
def ENOENT : Int := 2
def EEXIST : Int := 17
def EINVAL : Int := 22

/-- Modelled from the spec: the constants of the name service, the bound
`NANVIX_PROC_NAME_MAX` on the length of a name and the test that a port
number is acceptable. -/
structure Config where
  NANVIX_PROC_NAME_MAX : Nat
  port_is_valid : Int → Bool

/-- Modelled from the spec: an entry of the link table, a
`(name → node)` association. -/
structure Link where
  name : String
  node : Int
  deriving DecidableEq, Repr

/-- Modelled from the spec: an entry of the register table,
`{ name, node, port }`. -/
structure Registration where
  name : String
  node : Int
  port : Int
  deriving DecidableEq, Repr

/-- Modelled from the spec: the two tables of the name server. -/
structure State where
  links : List Link
  regs : List Registration
  deriving DecidableEq, Repr

/-- Modelled from the spec: all operations validate the name, which is
non-null (`none` is the null pointer), non-empty and at most
`NANVIX_PROC_NAME_MAX` characters long. -/
def name_is_valid (c : Config) (name : Option String) : Bool :=
  match name with
  | none => false
  | some n => decide (0 < n.length) && decide (n.length ≤ c.NANVIX_PROC_NAME_MAX)

/-- Modelled from the spec: the name exists in either table. -/
def name_exists (s : State) (name : String) : Bool :=
  s.links.any (fun l => l.name == name) || s.regs.any (fun r => r.name == name)

/-- Modelled from the spec: `link(node, name)` inserts a `(name → node)`
association; names are unique. -/
def nanvix_name_link (c : Config) (s : State) (node : Int) (name : Option String) :
    State × Int :=
  if !name_is_valid c name then (s, -EINVAL)
  else
    match name with
    | none => (s, -EINVAL)
    | some n =>
      if name_exists s n then (s, -EEXIST)
      else ({ s with links := s.links ++ [⟨n, node⟩] }, 0)

/-- Modelled from the spec: `register(name, port)` binds both a node (the
caller's) and a port; it fails if the name already exists in either
table. -/
def nanvix_name_register (c : Config) (s : State) (caller : Int) (name : Option String)
    (port : Int) : State × Int :=
  if !name_is_valid c name then (s, -EINVAL)
  else if !c.port_is_valid port then (s, -EINVAL)
  else
    match name with
    | none => (s, -EINVAL)
    | some n =>
      if name_exists s n then (s, -EEXIST)
      else ({ s with regs := s.regs ++ [⟨n, caller, port⟩] }, 0)

/-- Modelled from the spec: `unlink(name)` removes a linked name; removal is
allowed only by the owning node. -/
def nanvix_name_unlink (c : Config) (s : State) (caller : Int) (name : Option String) :
    State × Int :=
  if !name_is_valid c name then (s, -EINVAL)
  else
    match name with
    | none => (s, -EINVAL)
    | some n =>
      match s.links.find? (fun l => l.name == n) with
      | none => (s, -ENOENT)
      | some l =>
        if l.node ≠ caller then (s, -EPERM)
        else ({ s with links := s.links.filter (fun l => !(l.name == n)) }, 0)

/-- Modelled from the spec: `unregister(name)` removes a registered name;
it requires the caller to be the owner and operates like `unlink`. -/
def nanvix_name_unregister (c : Config) (s : State) (caller : Int) (name : Option String) :
    State × Int :=
  if !name_is_valid c name then (s, -EINVAL)
  else
    match name with
    | none => (s, -EINVAL)
    | some n =>
      match s.regs.find? (fun r => r.name == n) with
      | none => (s, -ENOENT)
      | some r =>
        if r.node ≠ caller then (s, -EPERM)
        else ({ s with regs := s.regs.filter (fun r => !(r.name == n)) }, 0)

/-- Modelled from the spec: `lookup(name)` gives the node of a linked or
registered name. -/
def nanvix_name_lookup (c : Config) (s : State) (name : Option String) : Int :=
  if !name_is_valid c name then -EINVAL
  else
    match name with
    | none => -EINVAL
    | some n =>
      match s.links.find? (fun l => l.name == n) with
      | some l => l.node
      | none =>
        match s.regs.find? (fun r => r.name == n) with
        | some r => r.node
        | none => -ENOENT

/-- Modelled from the spec: `address_lookup(name)` gives `(node, port)` and
succeeds only if the name was registered. -/
def nanvix_name_address_lookup (c : Config) (s : State) (name : Option String) :
    Option (Int × Int) :=
  if !name_is_valid c name then none
  else
    match name with
    | none => none
    | some n => (s.regs.find? (fun r => r.name == n)).map fun r => (r.node, r.port)

/-- A request to the name server, issued by the node `caller`. -/
inductive Op
  | link (caller : Int) (node : Int) (name : Option String)
  | unlink (caller : Int) (name : Option String)
  | register (caller : Int) (name : Option String) (port : Int)
  | unregister (caller : Int) (name : Option String)
  deriving DecidableEq, Repr

/-- The effect of a request on the tables and its return value. -/
def apply_op (c : Config) (s : State) : Op → State × Int
  | Op.link _ node name => nanvix_name_link c s node name
  | Op.unlink caller name => nanvix_name_unlink c s caller name
  | Op.register caller name port => nanvix_name_register c s caller name port
  | Op.unregister caller name => nanvix_name_unregister c s caller name

/-- The tables after a sequence of requests. -/
def run_ops (c : Config) (s : State) (ops : List Op) : State :=
  ops.foldl (fun st op => (apply_op c st op).1) s

/-- No request of the sequence, run from the tables `s`, is an
`unregister(name)` that returns 0. -/
def no_unregister (c : Config) (name : String) : State → List Op → Bool
  | _, [] => true
  | s, op :: ops =>
    (match op with
      | Op.unregister _ n => !(n == some name && (apply_op c s op).2 == 0)
      | _ => true)
    && no_unregister c name (apply_op c s op).1 ops

/-- A configuration for the examples: names of at most 15 characters, ports
0 to 15. -/
def cfg0 : Config := ⟨15, fun p => decide (0 ≤ p) && decide (p < 16)⟩

/-- The empty tables. -/
def s0 : State := ⟨[], []⟩

/-- The tables after node 0 has registered `"cool-name"` with port 0. -/
def s_registered : State := ⟨[], [⟨"cool-name", 0, 0⟩]⟩

end NameService

/-! # The runtime (`libs/ipc/runtime.c`, `libruntime/init.c`) -/

namespace Runtime

def EAGAIN : Int := 11
def EINVAL : Int := 22

/-! ## Setup and cleanup of the runtime of a core (`libs/ipc/runtime.c`) -/

/-- The calls that `runtime.c` makes to code outside the file, with their
arguments. -/
inductive Call
  | pthread_mutex_lock
  | pthread_mutex_unlock
  | initialize_inbox (index : Int)
  | destroy_inbox (index : Int)
  | name_init
  | sem_init
  | printf (msg : String)
  deriving DecidableEq, Repr

/-- The code outside the file: the result of the last call of a history of
calls. -/
abbrev Env := List Call → Int

/-- Issues the call `c` after the calls `tr`: the result of the call and the
extended history. -/
def call (env : Env) (tr : List Call) (c : Call) : Int × List Call :=
  (env (tr ++ [c]), tr ++ [c])

/-- The label `error` of `runtime_setup` (lines 116-119). -/
def setup_error (initialized : List Int) (tr : List Call) : Int × List Int × List Call :=
  (-EAGAIN, initialized,
    tr ++ [Call.pthread_mutex_unlock, Call.printf "[nanvix][libs] failled to setup runtime\n"])

/-- The end of `runtime_setup` (lines 110-114): `initialized[index] = 1`. -/
def setup_done (initialized : List Int) (index : Nat) (tr : List Call) :
    Int × List Int × List Call :=
  (0, initialized.set index 1, tr ++ [Call.pthread_mutex_unlock])

/-- The C function `runtime_setup` (lines 64-120) on the core `index` (the
result of `sys_get_core_id`): the return value, the table `initialized` and
the calls made. -/
def runtime_setup (env : Env) (index : Nat) (initialized : List Int) (level : Int) :
    Int × List Int × List Call :=
  let tr0 := [Call.pthread_mutex_lock]
  if initialized.getD index 0 ≠ 0 then setup_error initialized tr0
  else if level = 0 then
    match call env tr0 (Call.initialize_inbox index) with
    | (r, tr1) =>
      if r ≠ 0 then setup_error initialized tr1 else setup_done initialized index tr1
  else if level = 1 then
    match call env tr0 (Call.initialize_inbox index) with
    | (r, tr1) =>
      if r ≠ 0 then setup_error initialized tr1
      else setup_done initialized index (call env tr1 Call.name_init).2
  else if level = 2 then
    match call env tr0 (Call.initialize_inbox index) with
    | (r, tr1) =>
      if r ≠ 0 then setup_error initialized tr1
      else
        setup_done initialized index
          (call env (call env tr1 Call.name_init).2 Call.sem_init).2
  else setup_done initialized index tr0

/-- The C function `runtime_cleanup` (lines 125-151) on the core `index`. -/
def runtime_cleanup (env : Env) (index : Nat) (initialized : List Int) :
    Int × List Int × List Call :=
  let tr0 := [Call.pthread_mutex_lock]
  if initialized.getD index 0 = 0 then
    (-EAGAIN, initialized,
      tr0 ++ [Call.pthread_mutex_unlock,
        Call.printf "[nanvix][libs] failled to clean runtime\n"])
  else
    match call env tr0 (Call.destroy_inbox index) with
    | (r, tr1) =>
      if r ≠ 0 then
        (-EAGAIN, initialized,
          tr1 ++ [Call.pthread_mutex_unlock,
            Call.printf "[nanvix][libs] failled to clean runtime\n"])
      else (0, initialized.set index 0, tr1 ++ [Call.pthread_mutex_unlock])

/-- Code outside the file whose calls all return 0. -/
def env_zero : Env := fun _ => 0

/-! ## Rings of the runtime (`libruntime/init.c`) -/

/-- The services that `init.c` sets up and cleans up; the functions are
declared in headers outside the sources and their results are not used. -/
inductive Service
  | __stdsync_setup
  | __stdmailbox_setup
  | __stdportal_setup
  | __name_setup
  | __stdportal_cleanup
  | __stdmailbox_cleanup
  | __stdsync_cleanup
  | __name_cleanup
  deriving DecidableEq, Repr

/-- The cleanup function of a service that was set up. -/
def cleanup_of : Service → Option Service
  | Service.__stdsync_setup => some Service.__stdsync_cleanup
  | Service.__stdmailbox_setup => some Service.__stdmailbox_cleanup
  | Service.__stdportal_setup => some Service.__stdportal_cleanup
  | Service.__name_setup => some Service.__name_cleanup
  | _ => none

/-- The C function `__runtime_setup` (lines 39-64): the return value, the
variable `current_ring` and the services called. -/
def __runtime_setup (current_ring : Int) (ring : Int) : Int × Int × List Service :=
  if ring < 0 then (-EINVAL, current_ring, [])
  else if ring < current_ring then (0, current_ring, [])
  else
    let tr1 :=
      if ring - current_ring ≥ 0 then
        [Service.__stdsync_setup, Service.__stdmailbox_setup, Service.__stdportal_setup]
      else []
    let tr2 := if ring - current_ring ≥ 0 then tr1 ++ [Service.__name_setup] else tr1
    (0, ring, tr2)

/-- The C function `__runtime_cleanup` (lines 69-82). -/
def __runtime_cleanup (current_ring : Int) : Int × Int × List Service :=
  let tr1 :=
    [Service.__stdportal_cleanup, Service.__stdmailbox_cleanup, Service.__stdsync_cleanup]
  let tr2 := if current_ring ≥ 1 then tr1 ++ [Service.__name_cleanup] else tr1
  (0, 0, tr2)

end Runtime

/-! # Processes and process groups (`libruntime/pm/proc.c`) -/

namespace Pm

def EPERM : Int := 1
def ESRCH : Int := 3
def EINVAL : Int := 22

def PROC_TABLE_LENGHT : Nat := 64
def GROUP_TABLE_LENGHT : Nat := 64

/-- The C structure `struct group` (`proc.h`, lines 35-38). -/
structure Group where
  gid : Int
  deriving DecidableEq, Repr, Inhabited

/-- The C structure `struct proc` (`proc.h`, lines 43-47). -/
structure Proc where
  pid : Int
  group : Group
  deriving DecidableEq, Repr, Inhabited

/-- The static variables of `proc.c`: `proc_table`, `group_table` and the
running process `proc`. -/
structure State where
  proc_table : List Proc
  group_table : List Group
  proc : Proc
  deriving DecidableEq, Repr

/-- The C function `proc_table_init` (lines 46-56). -/
def proc_table_init (s : State) : State :=
  let t := (List.replicate PROC_TABLE_LENGHT (⟨-1, ⟨-1⟩⟩ : Proc)).set 0 ⟨1, ⟨1⟩⟩
  { s with proc_table := t, proc := t.getD 0 default }

/-- The C function `group_table_init` (lines 61-66). -/
def group_table_init (s : State) : State :=
  { s with group_table := (List.replicate GROUP_TABLE_LENGHT (⟨-1⟩ : Group)).set 0 ⟨1⟩ }

/-- The index of the first entry of `proc_table` whose `pid` is the given
one, searched from index `i` on: the loops on lines 74-82, 98-102 and
148-160. -/
def find_pid (pid : Int) : List Proc → Nat → Option Nat
  | [], _ => none
  | p :: ps, i => if p.pid = pid then some i else find_pid pid ps (i + 1)

/-- The C function `nanvix_setpid` (lines 72-83). -/
def nanvix_setpid (s : State) (pid : Int) : State :=
  match find_pid (-1) s.proc_table 0 with
  | some i =>
    let e : Proc := { s.proc_table.getD i default with pid := pid }
    { s with proc_table := s.proc_table.set i e, proc := e }
  | none => s

/-- The C function `nanvix_getpid` (lines 88-91). -/
def nanvix_getpid (s : State) : Int :=
  s.proc.pid

/-- The C function `nanvix_getpgid` (lines 96-104). -/
def nanvix_getpgid (s : State) (pid : Int) : Int :=
  match find_pid pid s.proc_table 0 with
  | some i => (s.proc_table.getD i default).group.gid
  | none => -EINVAL

/-- How the first loop of `nanvix_setpgid` ends. -/
inductive Scan
  | eperm
  | new_slot (i : Nat)
  | found (g : Group)
  | finished
  deriving DecidableEq, Repr

/-- The first loop of `nanvix_setpgid` (lines 125-142) from index `i` on. -/
def scan_groups (pid pgid : Int) : List Group → Nat → Scan
  | [], _ => Scan.finished
  | g :: gs, i =>
    if g.gid = -1 then
      if pgid ≠ 0 ∧ pid ≠ pgid then Scan.eperm else Scan.new_slot i
    else if g.gid = pgid then Scan.found g
    else scan_groups pid pgid gs (i + 1)

/-- The C function `nanvix_setpgid` (lines 116-162).  The local variable
`group` is not initialised; `garbage` is what it holds when neither branch
of the first loop assigns it. -/
def nanvix_setpgid (garbage : Group) (s : State) (pid pgid : Int) : Int × State :=
  if pgid < 0 then (-EINVAL, s)
  else
    match scan_groups pid pgid s.group_table 0 with
    | Scan.eperm => (-EPERM, s)
    | r =>
      let new : Nat := match r with
        | Scan.new_slot i => i
        | _ => 0
      let group : Group := match r with
        | Scan.found g => g
        | _ => garbage
      let pid1 := if pid = 0 then nanvix_getpid s else pid
      match find_pid pid1 s.proc_table 0 with
      | none => (-ESRCH, s)
      | some i =>
        let group1 : Group := if new ≠ 0 then { group with gid := pid1 } else group
        let gt := if new ≠ 0 then s.group_table.set new group1 else s.group_table
        (0, { s with
          group_table := gt
          proc_table := s.proc_table.set i { s.proc_table.getD i default with group := group1 } })

/-- The tables after `proc_table_init` and `group_table_init`. -/
def init : State :=
  group_table_init (proc_table_init ⟨[], [], default⟩)

/-- A call of `nanvix_setpid` or `nanvix_setpgid`. -/
inductive Op
  | setpid (pid : Int)
  | setpgid (pid pgid : Int)
  deriving DecidableEq, Repr

/-- The return value (0 for `nanvix_setpid`, which returns nothing) and the
tables after a call. -/
def apply_op (garbage : Group) (s : State) : Op → Int × State
  | Op.setpid pid => (0, nanvix_setpid s pid)
  | Op.setpgid pid pgid => nanvix_setpgid garbage s pid pgid

/-- The tables after a sequence of calls. -/
def run_ops (garbage : Group) (s : State) (ops : List Op) : State :=
  ops.foldl (fun st op => (apply_op garbage st op).2) s

/-- Whether `group_table` has a free slot. -/
def has_free_slot (s : State) : Bool :=
  s.group_table.any fun g => g.gid == -1

/-- The tables reached from `init` by calls each made while `group_table`
has a free slot. -/
inductive Reachable (garbage : Group) : State → Prop
  | start : Reachable garbage init
  | step {s : State} (op : Op) :
    Reachable garbage s → has_free_slot s = true → Reachable garbage (apply_op garbage s op).2

/-- The process that `nanvix_setpgid(pid, _)` acts on: the calling process
when `pid` is 0. -/
def target_pid (s : State) (pid : Int) : Int :=
  if pid = 0 then nanvix_getpid s else pid

/-- Consistency of the two tables: slot 0 of `group_table` is allocated, and
the group ID of every process entry is -1 or the ID of an entry of
`group_table`. -/
structure Inv (s : State) : Prop where
  slot0 : ∀ g, s.group_table[0]? = some g → g.gid ≠ -1
  groups : ∀ p ∈ s.proc_table, p.group.gid = -1 ∨ ∃ g ∈ s.group_table, g.gid = p.group.gid

/-- The tables after 63 calls `nanvix_setpgid(0, 0)`: every slot of
`group_table` is taken. -/
def full (garbage : Group) : State :=
  run_ops garbage init (List.replicate 63 (Op.setpgid 0 0))

end Pm

/-! # The Dijkstra kernel (`ubin/apps/dijkstra/dijkstra.c`) -/

namespace Dijkstra

def NUM_NODES : Nat := 100
def NONE : Int := 0

/-- The C structure `struct node` (lines 43-47). -/
structure Node where
  dist : Int
  prev : Int
  deriving DecidableEq, Repr, Inhabited

/-- The C structure `struct item` (lines 50-56); `next` is the address of a
block or `NULL`. -/
structure Item where
  next : Option Nat
  node : Int
  dist : Int
  prev : Int
  deriving DecidableEq, Repr, Inhabited

/-- The blocks that `nanvix_malloc` handed out and `nanvix_free` has not
taken back, with their addresses. -/
abbrev Heap := List (Nat × Item)

/-- The block at an address, if the address is allocated. -/
def heap_get (h : Heap) (a : Nat) : Option Item :=
  (h.find? fun b => b.1 == a).map Prod.snd

/-- The heap after a store to the block at `a`. -/
def heap_put (h : Heap) (a : Nat) (x : Item) : Heap :=
  (a, x) :: h.filter fun b => b.1 != a

/-- The heap after `nanvix_free` of the block at `a`. -/
def heap_free (h : Heap) (a : Nat) : Heap :=
  h.filter fun b => b.1 != a

/-- The allocator `nanvix_malloc`, which is outside the sources: the address
of the new block, or `none` for `NULL`. -/
abbrev Malloc := Heap → Option Nat

/-- The contract of the allocator: the block it returns is not one of the
allocated blocks. -/
def Fresh (malloc : Malloc) : Prop :=
  ∀ h a, malloc h = some a → heap_get h a = none

/-- The global variables of `dijkstra.c`: the heap with the items of the
queue, `head`, `queue_count` and `path_nodes`. -/
structure State where
  heap : Heap
  head : Option Nat
  queue_count : Int
  path_nodes : List Node
  deriving DecidableEq, Repr

/-- The ways in which a run leaves defined C: a signed addition overflows, an
access falls outside an array or hits a block that is not allocated, or the
model ran out of the steps it was given. -/
inductive Fault
  | overflow
  | bad_memory
  | out_of_fuel
  deriving DecidableEq, Repr

/-- The loop `while (last->next) last = last->next` of `enqueue` (line 101),
with a bound on the number of iterations. -/
def last_item : Nat → Heap → Nat → Except Fault Nat
  | 0, _, _ => Except.error Fault.out_of_fuel
  | fuel + 1, h, a =>
    match heap_get h a with
    | none => Except.error Fault.bad_memory
    | some it =>
      match it.next with
      | none => Except.ok a
      | some b => last_item fuel h b

/-- The C function `enqueue` (lines 84-106).  The loop over the list gets as
many steps as there are allocated blocks. -/
def enqueue (malloc : Malloc) (s : State) (node dist prev : Int) :
    Except Fault (Int × State) :=
  match malloc s.heap with
  | none => Except.ok (-1, s)
  | some new =>
    let h1 := heap_put s.heap new ⟨none, node, dist, prev⟩
    match s.head with
    | none =>
      Except.ok (0, { s with heap := h1, head := some new, queue_count := s.queue_count + 1 })
    | some first =>
      match last_item h1.length h1 first with
      | Except.error e => Except.error e
      | Except.ok last =>
        match heap_get h1 last with
        | none => Except.error Fault.bad_memory
        | some it =>
          Except.ok (0, { s with
            heap := heap_put h1 last { it with next := some new }
            queue_count := s.queue_count + 1 })

/-- The C function `dequeue` (lines 115-130): the return value, the state
and the triple written to `*dequeue_node`, `*dequeue_dist` and
`*dequeue_prev`, `none` when nothing is written. -/
def dequeue (s : State) : Except Fault (Int × State × Option (Int × Int × Int)) :=
  match s.head with
  | none => Except.ok (-1, s, none)
  | some kill =>
    match heap_get s.heap kill with
    | none => Except.error Fault.bad_memory
    | some it =>
      Except.ok (0,
        { s with head := it.next, heap := heap_free s.heap kill,
                 queue_count := s.queue_count - 1 },
        some (it.node, it.dist, it.prev))

/-- The linked list that starts at `head` is made of the blocks at the
addresses `as`, in this order, and holds the triples `xs`. -/
inductive IsQueue (h : Heap) : Option Nat → List Nat → List (Int × Int × Int) → Prop
  | nil : IsQueue h none [] []
  | cons {a : Nat} {it : Item} {as : List Nat} {xs : List (Int × Int × Int)} :
    heap_get h a = some it → IsQueue h it.next as xs →
    IsQueue h (some a) (a :: as) ((it.node, it.dist, it.prev) :: xs)

/-- A sequence of `enqueue` calls: the state and the return values. -/
def enqueue_all (malloc : Malloc) : State → List (Int × Int × Int) →
    Except Fault (State × List Int)
  | s, [] => Except.ok (s, [])
  | s, x :: xs =>
    match enqueue malloc s x.1 x.2.1 x.2.2 with
    | Except.error e => Except.error e
    | Except.ok (r, s1) =>
      match enqueue_all malloc s1 xs with
      | Except.error e => Except.error e
      | Except.ok (s2, rs) => Except.ok (s2, r :: rs)

/-- A sequence of `n` calls of `dequeue`: the state, the return values and
the triples written. -/
def dequeue_n : Nat → State → Except Fault (State × List (Int × Option (Int × Int × Int)))
  | 0, s => Except.ok (s, [])
  | n + 1, s =>
    match dequeue s with
    | Except.error e => Except.error e
    | Except.ok (r, s1, out) =>
      match dequeue_n n s1 with
      | Except.error e => Except.error e
      | Except.ok (s2, rs) => Except.ok (s2, (r, out) :: rs)

/-- The triples whose `enqueue` returned 0. -/
def accepted (xs : List (Int × Int × Int)) (rets : List Int) : List (Int × Int × Int) :=
  ((xs.zip rets).filter fun p => p.2 == 0).map Prod.fst

/-- An allocator for the examples: it never fails and hands out the address
after the largest allocated one. -/
def malloc_bump : Malloc := fun h => some ((h.map Prod.fst).foldl max 0 + 1)

/-- An allocator that fails on its third block. -/
def malloc_two : Malloc := fun h => if h.length < 2 then malloc_bump h else none

/-- The state before the first call: an empty queue and no block. -/
def s_empty : State := ⟨[], none, 0, List.replicate NUM_NODES ⟨0, 0⟩⟩

/-! ## The routine `nanvix_dijkstra` -/

/-- Whether a value is in the range of a 32-bit `int`. -/
def int_fits (x : Int) : Bool :=
  decide (-(2 : Int) ^ 31 ≤ x) && decide (x < 2 ^ 31)

/-- How a piece of the function ends: control goes on with the next
statement, or the function returns. -/
inductive Flow
  | next (s : State)
  | ret (r : Int) (s : State)
  deriving DecidableEq, Repr

/-- The body of the `for` loop on lines 172-179 for one `i`, with
`dequeue_node` and `dequeue_dist` as the last `dequeue` set them.  Reading
`adj_matrix` or `path_nodes` outside the array is a `bad_memory` fault, a
signed sum that leaves the range of `int` an `overflow` fault. -/
def relax_one (malloc : Malloc) (adj_matrix : List Int) (dequeue_node dequeue_dist : Int)
    (s : State) (i : Nat) : Except Fault Flow :=
  if !int_fits (dequeue_node * NUM_NODES + i) then Except.error Fault.overflow
  else if dequeue_node * NUM_NODES + i < 0 ∨ dequeue_node * NUM_NODES + i ≥ adj_matrix.length
  then Except.error Fault.bad_memory
  else
    let dequeue_cost := adj_matrix.getD (dequeue_node * NUM_NODES + i).toNat 0
    if dequeue_cost = NONE then Except.ok (Flow.next s)
    else
      match s.path_nodes[i]? with
      | none => Except.error Fault.bad_memory
      | some pn =>
        if !int_fits (dequeue_cost + dequeue_dist) then Except.error Fault.overflow
        else if NONE = pn.dist ∨ pn.dist > dequeue_cost + dequeue_dist then
          match enqueue malloc
            ⟨s.heap, s.head, s.queue_count,
              s.path_nodes.set i ⟨dequeue_dist + dequeue_cost, dequeue_node⟩⟩
            i (dequeue_dist + dequeue_cost) dequeue_node with
          | Except.error e => Except.error e
          | Except.ok (err, s2) =>
            if err = -1 then Except.ok (Flow.ret (-1) s2) else Except.ok (Flow.next s2)
        else Except.ok (Flow.next s)

/-- The `for` loop on lines 172-179 from `i` on, with `k` iterations
left. -/
def relax_from (malloc : Malloc) (adj_matrix : List Int) (dequeue_node dequeue_dist : Int) :
    Nat → Nat → State → Except Fault Flow
  | 0, _, s => Except.ok (Flow.next s)
  | k + 1, i, s =>
    match relax_one malloc adj_matrix dequeue_node dequeue_dist s i with
    | Except.error e => Except.error e
    | Except.ok (Flow.ret r s1) => Except.ok (Flow.ret r s1)
    | Except.ok (Flow.next s1) => relax_from malloc adj_matrix dequeue_node dequeue_dist k (i + 1) s1

/-- The `while` loop on lines 168-180, with a bound on the number of
iterations.  `dequeue` returns -1 exactly when it writes nothing, which is the
case in which the loop returns -1. -/
def work_loop (malloc : Malloc) (adj_matrix : List Int) :
    Nat → State → Except Fault (Int × State)
  | 0, _ => Except.error Fault.out_of_fuel
  | fuel + 1, s =>
    if s.queue_count > 0 then
      match dequeue s with
      | Except.error e => Except.error e
      | Except.ok (_, s1, none) => Except.ok (-1, s1)
      | Except.ok (_, s1, some (dequeue_node, dequeue_dist, _)) =>
        match relax_from malloc adj_matrix dequeue_node dequeue_dist NUM_NODES 0 s1 with
        | Except.error e => Except.error e
        | Except.ok (Flow.ret r s2) => Except.ok (r, s2)
        | Except.ok (Flow.next s2) => work_loop malloc adj_matrix fuel s2
    else Except.ok (0, s)

/-- The C function `nanvix_dijkstra` (lines 140-190); `fuel` bounds the
number of iterations of the `while` loop. -/
def nanvix_dijkstra (malloc : Malloc) (fuel : Nat) (s : State) (adj_matrix : List Int)
    (node_start node_end : Int) : Except Fault (Int × State) :=
  if node_start = node_end then
    Except.ok (0, ⟨s.heap, s.head, s.queue_count, List.replicate NUM_NODES ⟨NONE, NONE⟩⟩)
  else if node_start < 0 ∨ node_start ≥ NUM_NODES then Except.error Fault.bad_memory
  else
    match enqueue malloc
      ⟨s.heap, s.head, s.queue_count,
        (List.replicate NUM_NODES ⟨NONE, NONE⟩).set node_start.toNat ⟨0, NONE⟩⟩
      node_start 0 NONE with
    | Except.error e => Except.error e
    | Except.ok (err, s2) =>
      if err = -1 then Except.ok (-1, s2) else work_loop malloc adj_matrix fuel s2

/-! ## Graphs and shortest paths -/

/-- The entry of the adjacency matrix for the edge from `u` to `v`; 0 means
that there is no edge. -/
def edge (adj_matrix : List Int) (u v : Nat) : Int :=
  adj_matrix.getD (u * NUM_NODES + v) 0

/-- A path from `u` along edges of the matrix, with its end and its total
cost. -/
inductive Walk (adj_matrix : List Int) (u : Nat) : Nat → Int → Prop
  | nil : u < NUM_NODES → Walk adj_matrix u u 0
  | snoc {v w : Nat} {c : Int} : Walk adj_matrix u v c → w < NUM_NODES →
    edge adj_matrix v w ≠ 0 → Walk adj_matrix u w (c + edge adj_matrix v w)

/-- The field `path_nodes[i].dist`. -/
def dist_of (P : List Node) (i : Nat) : Int :=
  (P.getD i default).dist

/-- The field `path_nodes[i].prev`. -/
def prev_of (P : List Node) (i : Nat) : Int :=
  (P.getD i default).prev

/-- The distance that the algorithm holds for node `u`: 0 for the start
node, whose `dist` field doubles as the mark `NONE`, and `path_nodes[u].dist`
for the others. -/
def label (st : Nat) (P : List Node) (u : Nat) : Int :=
  if u = st then 0 else dist_of P u

/-- The edges from `u` to the nodes below `i` have been relaxed with the
distance `l` of `u`. -/
def Relaxed (adj_matrix : List Int) (P : List Node) (u : Nat) (l : Int) (i : Nat) : Prop :=
  ∀ v, v < i → edge adj_matrix u v ≠ 0 →
    dist_of P v ≠ 0 ∧ dist_of P v ≤ l + edge adj_matrix u v

/-- The state holds the queue with the triples `q`. -/
def Good (s : State) (q : List (Int × Int × Int)) : Prop :=
  ∃ as, IsQueue s.heap s.head as q ∧ as.Nodup ∧ s.queue_count = q.length

/-- What the `while` loop keeps true, for the triples `q` of the queue, the
table `P` and the triple `cur` that the `for` loop is working on, if any
(node, distance and the index `i` that the loop reached):
every recorded distance is the cost of a path whose last edge comes from the
recorded predecessor, every triple of the queue carries the cost of a path to
its node and is no better than the table, and every node that was reached is
waiting in the queue with its current distance or has all its edges
relaxed. -/
structure LoopInv (adj_matrix : List Int) (st : Nat) (q : List (Int × Int × Int))
    (P : List Node) (cur : Option (Nat × Int × Nat)) : Prop where
  len : P.length = NUM_NODES
  start : st < NUM_NODES
  nonneg : ∀ i, i < NUM_NODES → 0 ≤ dist_of P i
  sound : ∀ i, i < NUM_NODES → i ≠ st → dist_of P i ≠ 0 →
    Walk adj_matrix st i (dist_of P i) ∧
    ∃ (u : Nat) (cu : Int), prev_of P i = (u : Int) ∧ Walk adj_matrix st u cu ∧ edge adj_matrix u i ≠ 0 ∧
      cu + edge adj_matrix u i = dist_of P i
  items : ∀ n d p, (n, d, p) ∈ q → ∃ u : Nat, n = (u : Int) ∧ Walk adj_matrix st u d ∧
    (u = st ∨ (dist_of P u ≠ 0 ∧ dist_of P u ≤ d))
  current : ∀ u d i, cur = some (u, d, i) → Walk adj_matrix st u d ∧
    (u = st ∨ (dist_of P u ≠ 0 ∧ dist_of P u ≤ d))
  complete : ∀ u, u < NUM_NODES → (u = st ∨ dist_of P u ≠ 0) →
    (∃ p, ((u : Int), label st P u, p) ∈ q) ∨
    Relaxed adj_matrix P u (label st P u) NUM_NODES ∨
    ∃ i, cur = some (u, label st P u, i) ∧ Relaxed adj_matrix P u (label st P u) i

/-- Some sum that the algorithm may have to form does not fit an `int`: the
cost of a path from `st` plus the cost of an edge that leaves its end. -/
def Overflows (adj_matrix : List Int) (st : Nat) : Prop :=
  ∃ (u v : Nat) (c : Int), Walk adj_matrix st u c ∧ edge adj_matrix u v ≠ 0 ∧
    int_fits (edge adj_matrix u v + c) = false

/-- The number of nodes whose `dist` field is `NONE`. -/
def zeros (P : List Node) : Nat :=
  (P.map fun n => if n.dist = 0 then 1 else 0).sum

/-- The sum of the `dist` fields. -/
def total (P : List Node) : Nat :=
  (P.map fun n => n.dist.toNat).sum

/-- The table `P2` is further along than `P`: fewer nodes without a distance,
or as many and a smaller sum of distances. -/
def Closer (P2 P : List Node) : Prop :=
  zeros P2 < zeros P ∨ (zeros P2 = zeros P ∧ total P2 < total P)

/-- The matrix with the single edge from node 0 to node 1, of cost 5. -/
def adj_one_edge : List Int :=
  (List.replicate (NUM_NODES * NUM_NODES) 0).set 1 5

end Dijkstra

namespace ShmServer

/-! # Properties -/

/-! ## Array access lemmas -/

theorem regions_setRegion (s : State) (i : Int) (r : Region) :
    (setRegion s i r).regions = s.regions.set i.toNat r := rfl

theorem procs_setRegion (s : State) (i : Int) (r : Region) :
    (setRegion s i r).procs = s.procs := rfl

theorem buffers_setRegion (s : State) (i : Int) (r : Region) :
    (setRegion s i r).buffers = s.buffers := rfl

theorem proc_setRegion (s : State) (i : Int) (r : Region) (n : Nat) :
    proc (setRegion s i r) n = proc s n := rfl

theorem regions_setProc (s : State) (n : Nat) (p : Proc) :
    (setProc s n p).regions = s.regions := rfl

theorem region_setProc (s : State) (n : Nat) (p : Proc) (i : Int) :
    region (setProc s n p) i = region s i := rfl

theorem region_setRegion_same (s : State) (i : Int) (r : Region)
    (h : i.toNat < s.regions.length) : region (setRegion s i r) i = r := by
  simp [region, setRegion, List.getElem?_set, h]

theorem region_setRegion_ne (s : State) (i j : Int) (r : Region)
    (h : i.toNat ≠ j.toNat) : region (setRegion s i r) j = region s j := by
  simp [region, setRegion, List.getElem?_set, h]

theorem setRegion_self (s : State) (i : Int) : setRegion s i (region s i) = s := by
  cases s with
  | mk rs ps bs =>
    simp only [setRegion, region, State.mk.injEq, and_true]
    apply List.ext_getElem?
    intro k
    by_cases hk : i.toNat = k
    · subst hk
      by_cases hl : i.toNat < rs.length
      · simp [List.getElem?_set, hl]
      · simp [List.set_eq_of_length_le (Nat.le_of_not_lt hl)]
    · simp [List.getElem?_set, hk]

theorem setRegion_setRegion (s : State) (i : Int) (r r2 : Region) :
    setRegion (setRegion s i r) i r2 = setRegion s i r2 := by
  simp [setRegion]

theorem proc_setProc_same (s : State) (n : Nat) (p : Proc)
    (h : n < s.procs.length) : proc (setProc s n p) n = p := by
  simp [proc, setProc, List.getElem?_set, h]

theorem proc_setProc_ne (s : State) (n m : Nat) (p : Proc)
    (h : n ≠ m) : proc (setProc s n p) m = proc s m := by
  simp [proc, setProc, List.getElem?_set, h]

theorem length_regions_setRegion (s : State) (i : Int) (r : Region) :
    (setRegion s i r).regions.length = s.regions.length := by
  simp [setRegion]

/-! ## Name lookup -/

/-- The test of the lookup loop: the region is in use and bears the name. -/
theorem shm_lookup_eq_some_iff (name : String) (rs : List Region) (i : Nat) :
    shm_lookup name rs = some i ↔
      (∃ r, rs[i]? = some r ∧ r.used = true ∧ r.name = name) ∧
      ∀ j, j < i → ∀ r, rs[j]? = some r → ¬ (r.used = true ∧ r.name = name) := by
  induction rs generalizing i with
  | nil => simp [shm_lookup]
  | cons a as ih =>
    simp only [shm_lookup]
    by_cases h : a.used = true ∧ a.name = name
    · rw [if_pos h]
      constructor
      · intro hi
        have : i = 0 := by simpa using hi.symm
        subst this
        exact ⟨⟨a, by simp, h⟩, by intro j hj; omega⟩
      · rintro ⟨_, hmin⟩
        cases i with
        | zero => rfl
        | succ k => exact absurd h (hmin 0 (by omega) a (by simp))
    · rw [if_neg h]
      cases i with
      | zero =>
        constructor
        · intro hi
          simp at hi
        · rintro ⟨⟨r, hr, hu⟩, _⟩
          simp at hr
          subst hr
          exact absurd hu h
      | succ k =>
        simp only [Option.map_eq_some', Nat.add_right_cancel_iff, exists_eq_right,
          List.getElem?_cons_succ]
        rw [ih k]
        constructor
        · rintro ⟨he, hmin⟩
          refine ⟨he, ?_⟩
          intro j hj r hr
          cases j with
          | zero =>
            simp at hr
            subst hr
            exact h
          | succ m =>
            simp at hr
            exact hmin m (by omega) r hr
        · rintro ⟨he, hmin⟩
          refine ⟨he, ?_⟩
          intro j hj r hr
          exact hmin (j + 1) (by omega) r (by simpa using hr)

theorem shm_lookup_eq_none_iff (name : String) (rs : List Region) :
    shm_lookup name rs = none ↔ ∀ r ∈ rs, ¬ (r.used = true ∧ r.name = name) := by
  induction rs with
  | nil => simp [shm_lookup]
  | cons a as ih =>
    simp only [shm_lookup]
    by_cases h : a.used = true ∧ a.name = name
    · rw [if_pos h]
      constructor
      · intro hh
        cases hh
      · intro hh
        exact absurd h (hh a (List.mem_cons_self a as))
    · rw [if_neg h]
      simp only [Option.map_eq_none', List.mem_cons, forall_eq_or_imp]
      rw [ih]
      exact ⟨fun hh => ⟨h, hh⟩, fun hh => hh.2⟩

theorem shm_lookup_lt {name : String} {rs : List Region} {i : Nat}
    (h : shm_lookup name rs = some i) : i < rs.length := by
  obtain ⟨⟨r, hr, _⟩, _⟩ := (shm_lookup_eq_some_iff name rs i).1 h
  exact (List.getElem?_eq_some.1 hr).1

theorem shm_lookup_region {name : String} {s : State} {i : Nat}
    (h : shm_lookup name s.regions = some i) :
    (region s i).used = true ∧ (region s i).name = name := by
  obtain ⟨⟨r, hr, hu⟩, _⟩ := (shm_lookup_eq_some_iff name s.regions i).1 h
  simp [region, hr, hu]

/-! ## Taking and dropping references -/

theorem shm_get_of_lookup {s : State} {name : String} {i : Nat}
    (h : shm_lookup name s.regions = some i) :
    shm_get s name =
      (setRegion s i { region s i with refcount := (region s i).refcount + 1 }, (i : Int)) := by
  simp [shm_get, h]

theorem shm_get_of_lookup_none {s : State} {name : String}
    (h : shm_lookup name s.regions = none) : shm_get s name = (s, -1) := by
  simp [shm_get, h]

/-- A reference taken by `shm_get` and dropped again by `shm_put` leaves the
state as it was, except that a region which already had no reference left
and is `remove-pending` gets released. -/
theorem shm_put_get {s : State} {name : String} {i : Nat}
    (h : shm_lookup name s.regions = some i) :
    shm_put (shm_get s name).1 i =
      if (region s i).refcount = 0 ∧ (region s i).remove = true then
        setRegion s i { region s i with refcount := 0, used := false, remove := false }
      else s := by
  have hlt : (i : Int).toNat < s.regions.length := by
    simpa using shm_lookup_lt h
  rw [shm_get_of_lookup h]
  simp only [shm_put, region_setRegion_same s i _ hlt, add_sub_cancel_right,
    setRegion_setRegion]
  by_cases hc : (region s i).refcount = 0 ∧ (region s i).remove = true
  · rw [if_pos hc, if_pos hc, hc.1]
  · rw [if_neg hc, if_neg hc]
    exact setRegion_self s i

theorem shm_put_get_procs {s : State} {name : String} {i : Nat}
    (h : shm_lookup name s.regions = some i) :
    (shm_put (shm_get s name).1 i).procs = s.procs := by
  rw [shm_put_get h]
  split_ifs <;> rfl

theorem shm_put_get_refcount {s : State} {name : String} {i : Nat}
    (h : shm_lookup name s.regions = some i) :
    (region (shm_put (shm_get s name).1 i) i).refcount = (region s i).refcount := by
  have hlt : (i : Int).toNat < s.regions.length := by
    simpa using shm_lookup_lt h
  rw [shm_put_get h]
  split_ifs with hc
  · rw [region_setRegion_same s i _ hlt]
    exact hc.1.symm
  · rfl

theorem shm_put_get_owner {s : State} {name : String} {i : Nat}
    (h : shm_lookup name s.regions = some i) :
    (region (shm_put (shm_get s name).1 i) i).owner = (region s i).owner := by
  have hlt : (i : Int).toNat < s.regions.length := by
    simpa using shm_lookup_lt h
  rw [shm_put_get h]
  split_ifs with hc
  · rw [region_setRegion_same s i _ hlt]
  · rfl

/-! ## The open table -/

theorem oregion_index_eq_some_iff (shmid : Int) (os : List ORegion) (i : Nat) :
    oregion_index shmid os = some i ↔
      (∃ o, os[i]? = some o ∧ o.shmid = shmid) ∧
      ∀ j, j < i → ∀ o, os[j]? = some o → o.shmid ≠ shmid := by
  induction os generalizing i with
  | nil => simp [oregion_index]
  | cons a as ih =>
    simp only [oregion_index]
    by_cases h : a.shmid = shmid
    · rw [if_pos h]
      constructor
      · intro hi
        have : i = 0 := by simpa using hi.symm
        subst this
        exact ⟨⟨a, by simp, h⟩, by intro j hj; omega⟩
      · rintro ⟨_, hmin⟩
        cases i with
        | zero => rfl
        | succ k => exact absurd h (hmin 0 (by omega) a (by simp))
    · rw [if_neg h]
      cases i with
      | zero =>
        constructor
        · intro hi
          simp at hi
        · rintro ⟨⟨r, hr, hu⟩, _⟩
          simp at hr
          subst hr
          exact absurd hu h
      | succ k =>
        simp only [Option.map_eq_some', Nat.add_right_cancel_iff, exists_eq_right,
          List.getElem?_cons_succ]
        rw [ih k]
        constructor
        · rintro ⟨he, hmin⟩
          refine ⟨he, ?_⟩
          intro j hj r hr
          cases j with
          | zero =>
            simp at hr
            subst hr
            exact h
          | succ m =>
            simp at hr
            exact hmin m (by omega) r hr
        · rintro ⟨he, hmin⟩
          refine ⟨he, ?_⟩
          intro j hj r hr
          exact hmin (j + 1) (by omega) r (by simpa using hr)

theorem oregion_index_eq_none_iff (shmid : Int) (os : List ORegion) :
    oregion_index shmid os = none ↔ ∀ o ∈ os, o.shmid ≠ shmid := by
  induction os with
  | nil => simp [oregion_index]
  | cons a as ih =>
    simp only [oregion_index]
    by_cases h : a.shmid = shmid
    · rw [if_pos h]
      constructor
      · intro hh
        cases hh
      · intro hh
        exact absurd h (hh a (List.mem_cons_self a as))
    · rw [if_neg h]
      simp only [Option.map_eq_none', List.mem_cons, forall_eq_or_imp]
      rw [ih]
      exact ⟨fun hh => ⟨h, hh⟩, fun hh => hh.2⟩

theorem shm_is_opened_of_index {s : State} {node : Nat} {shmid : Int} {i : Nat}
    (h : oregion_index shmid (open_table s node) = some i) :
    shm_is_opened s node shmid = (i : Int) := by
  simp only [open_table] at h
  simp [shm_is_opened, h]

theorem shm_is_opened_of_index_none {s : State} {node : Nat} {shmid : Int}
    (h : oregion_index shmid (open_table s node) = none) :
    shm_is_opened s node shmid = -1 := by
  simp only [open_table] at h
  simp [shm_is_opened, h]

theorem length_close_shift (k j : Nat) (os : List ORegion) :
    (close_shift k j os).length = os.length := by
  induction k generalizing j os with
  | zero => rfl
  | succ k ih => simp [close_shift, ih]

/-- The copying loop of `shm_close` removes slot `j` from the first
`j + k + 1` slots and moves the later ones down by one. -/
theorem close_shift_take (k j : Nat) (os : List ORegion) (h : j + k + 1 ≤ os.length) :
    (close_shift k j os).take (j + k) = (os.take (j + k + 1)).eraseIdx j := by
  induction k generalizing j os with
  | zero =>
    simp only [close_shift, Nat.add_zero]
    apply List.ext_getElem?
    intro m
    simp only [List.getElem?_eraseIdx, List.getElem?_take]
    by_cases hm : m < j
    · simp [hm, Nat.lt_succ_of_lt hm]
    · simp [hm]
  | succ k ih =>
    simp only [close_shift]
    have hlen : j + 1 + k + 1 ≤ (os.set j (os.getD (j + 1) default)).length := by
      simp; omega
    have := ih (j + 1) (os.set j (os.getD (j + 1) default)) hlen
    have e1 : j + (k + 1) = j + 1 + k := by omega
    rw [e1, this]
    apply List.ext_getElem?
    intro m
    simp only [List.getElem?_eraseIdx, List.getElem?_take, List.getElem?_set]
    have hj1 : j + 1 < os.length := by omega
    by_cases hm : m < j
    · have h1 : m < j + 1 := by omega
      have h2 : m < j + 1 + k + 1 := by omega
      have h3 : m < j + 1 + k + 1 := by omega
      have h4 : ¬ j = m := by omega
      simp [hm, h1, h2, h4]
    · by_cases hmj : m = j
      · subst hmj
        have hl : m < os.length := by omega
        have h5 : m < m + 1 + k + 1 := by omega
        have h6 : m < m + 1 + k := by omega
        simp [hl, hj1, h5, h6]
      · have h1 : ¬ m < j + 1 := by omega
        have h4 : ¬ j = m + 1 := by omega
        simp [hm, h1, h4]

theorem shm_unlink_not_owner {s : State} {name : String} {i : Nat} (node : Nat)
    (h : shm_lookup name s.regions = some i) (hown : (region s i).owner ≠ (node : Int)) :
    shm_unlink s node name = (shm_put (shm_get s name).1 i, -EPERM) := by
  have ho := shm_put_get_owner h
  simp only [shm_unlink]
  rw [shm_get_of_lookup h] at ho ⊢
  have : ¬ ((i : Int) < 0) := by omega
  simp only [this, if_false, shm_is_owner, ho]
  simp [hown]

/-- The value returned by `shm_create` does not depend on its `writable` and
`mode` arguments. -/
theorem shm_create_ret_indep (c : Config) (s : State) (owner : Nat) (name : String)
    (w w2 : Int) (m m2 : Nat) :
    (shm_create c s owner name w m).2 = (shm_create c s owner name w2 m2).2 := by
  simp only [shm_create]
  split_ifs <;> rfl

theorem shm_create_ret_of_fresh (c : Config) (s : State) (owner : Nat) (name : String)
    (w : Int) (m : Nat) (h : shm_lookup name s.regions = none) :
    (shm_create c s owner name w m).2 = -EINVAL ∨
    (shm_create c s owner name w m).2 = -ENFILE ∨
    (shm_create c s owner name w m).2 = -EAGAIN ∨
    0 ≤ (shm_create c s owner name w m).2 := by
  simp only [shm_create, shm_get_of_lookup_none h]
  split_ifs with h1 h2 h3 h4
  · simp
  · simp at h2
  · simp
  · simp
  all_goals
    right; right; right
    simpa using h4

theorem procs_shm_put (s : State) (i : Int) : (shm_put s i).procs = s.procs := by
  simp only [shm_put]
  split_ifs <;> rfl

theorem buffers_shm_put (s : State) (i : Int) : (shm_put s i).buffers = s.buffers := by
  simp only [shm_put]
  split_ifs <;> rfl

theorem proc_shm_put (s : State) (i : Int) (n : Nat) : proc (shm_put s i) n = proc s n := by
  simp only [proc, procs_shm_put]

theorem regions_shm_put_setProc (s : State) (i : Int) (n : Nat) (p : Proc) :
    (shm_put (setProc s n p) i).regions = (shm_put s i).regions := by
  simp only [shm_put, region_setProc]
  split_ifs <;> rfl

/-! ## Regions that wait for their removal -/

theorem region_setRegion (s : State) (i j : Int) (r : Region) :
    region (setRegion s i r) j =
      if i.toNat = j.toNat ∧ i.toNat < s.regions.length then r else region s j := by
  by_cases h : i.toNat = j.toNat
  · by_cases hl : i.toNat < s.regions.length
    · rw [if_pos ⟨h, hl⟩]
      have hl2 : j.toNat < s.regions.length := by omega
      simp only [region, setRegion, List.getD_eq_getElem?_getD, List.getElem?_set, h, hl2]
      simp
    · rw [if_neg (fun hh => hl hh.2)]
      simp [region, setRegion, List.set_eq_of_length_le (Nat.le_of_not_lt hl)]
  · rw [if_neg (fun hh => h hh.1)]
    exact region_setRegion_ne s i j r h

/-- Writing a region slot does not change what the name resolves to when the
slot is another one that still does not answer to the name, or the region
itself in a state that still does. -/
theorem shm_lookup_setRegion {name : String} {id : Nat} {s : State} (j : Int) (r : Region)
    (hl : shm_lookup name s.regions = some id)
    (hlow : j.toNat < id → ¬ (r.used = true ∧ r.name = name))
    (hsame : j.toNat = id → r.used = true ∧ r.name = name) :
    shm_lookup name (setRegion s j r).regions = some id := by
  have hid : id < s.regions.length := shm_lookup_lt hl
  obtain ⟨⟨r0, hr0, hu0⟩, hmin⟩ := (shm_lookup_eq_some_iff name s.regions id).1 hl
  rw [shm_lookup_eq_some_iff]
  simp only [regions_setRegion, List.getElem?_set]
  constructor
  · by_cases hj : j.toNat = id
    · refine ⟨r, ?_, (hsame hj).1, (hsame hj).2⟩
      simp [hj, hid]
    · exact ⟨r0, by simp [hj, hr0], hu0⟩
  · intro k hk r2 hr2
    by_cases hj : j.toNat = k
    · have hjl : j.toNat < s.regions.length := by omega
      rw [if_pos hj, if_pos hjl] at hr2
      cases hr2
      exact hlow (by omega)
    · rw [if_neg hj] at hr2
      exact hmin k hk r2 hr2

theorem removePending_setRegion {name : String} {id : Nat} {s : State} (j : Int) (r : Region)
    (h : RemovePending name id s)
    (hlow : j.toNat < id → ¬ (r.used = true ∧ r.name = name))
    (hsame : j.toNat = id → r.used = true ∧ r.name = name ∧ r.remove = true) :
    RemovePending name id (setRegion s j r) := by
  obtain ⟨hl, hrem⟩ := h
  have hid : id < s.regions.length := shm_lookup_lt hl
  refine ⟨shm_lookup_setRegion j r hl hlow (fun hj => ⟨(hsame hj).1, (hsame hj).2.1⟩), ?_⟩
  rw [region_setRegion]
  by_cases hj : j.toNat = id
  · rw [if_pos ⟨by simpa using hj, by omega⟩]
    exact (hsame hj).2.2
  · rw [if_neg (fun hh => hj (by simpa using hh.1))]
    exact hrem

theorem removePending_of_regions_eq {name : String} {id : Nat} {s t : State}
    (h : RemovePending name id s) (he : t.regions = s.regions) : RemovePending name id t := by
  unfold RemovePending region at *
  rw [he]
  exact h

theorem region_of_regions_eq {s t : State} (he : t.regions = s.regions) (j : Int) :
    region t j = region s j := by
  unfold region
  rw [he]

theorem lookup_below {name : String} {id : Nat} {s : State} (j : Int)
    (h : shm_lookup name s.regions = some id) (hj : j.toNat < id) :
    ¬ ((region s j).used = true ∧ (region s j).name = name) := by
  obtain ⟨⟨_, _, _⟩, hmin⟩ := (shm_lookup_eq_some_iff name s.regions id).1 h
  have hlt : j.toNat < s.regions.length := by
    have := shm_lookup_lt h
    omega
  exact hmin j.toNat hj (region s j) (by simp [region, List.getElem?_eq_getElem hlt])

/-- Below the region that answers to the name, no region in use bears the
name. -/
theorem removePending_below {name : String} {id : Nat} {s : State} (j : Int)
    (h : RemovePending name id s) (hj : j.toNat < id) :
    ¬ ((region s j).used = true ∧ (region s j).name = name) := by
  obtain ⟨⟨_, _, _⟩, hmin⟩ := (shm_lookup_eq_some_iff name s.regions id).1 h.1
  have hlt : j.toNat < s.regions.length := by
    have := shm_lookup_lt h.1
    omega
  exact hmin j.toNat hj (region s j) (by simp [region, List.getElem?_eq_getElem hlt])

theorem removePending_self {name : String} {id : Nat} {s : State} (j : Int)
    (h : RemovePending name id s) (hj : j.toNat = id) :
    (region s j).used = true ∧ (region s j).name = name ∧ (region s j).remove = true := by
  have e : region s j = region s id := by simp [region, hj]
  rw [e]
  exact ⟨(shm_lookup_region h.1).1, (shm_lookup_region h.1).2, h.2⟩

theorem region_eq_of_toNat {s : State} {j : Int} {id : Nat} (hj : j.toNat = id) :
    region s j = region s id := by
  simp [region, hj]

/-- Taking a reference keeps `RemovePending`. -/
theorem removePending_get {name : String} {id : Nat} {s : State} (n : String)
    (h : RemovePending name id s) : RemovePending name id (shm_get s n).1 := by
  cases hl : shm_lookup n s.regions with
  | none => rw [shm_get_of_lookup_none hl]; exact h
  | some j =>
    rw [shm_get_of_lookup hl]
    apply removePending_setRegion _ _ h
    · intro hj
      exact removePending_below j h hj
    · intro hj
      exact removePending_self j h hj

theorem region_get_other {id : Nat} {s : State} (n : String) :
    (region (shm_get s n).1 id) = region s id ∨
    (region (shm_get s n).1 id) =
      { region s id with refcount := (region s id).refcount + 1 } := by
  cases hl : shm_lookup n s.regions with
  | none => rw [shm_get_of_lookup_none hl]; exact Or.inl rfl
  | some j =>
    rw [shm_get_of_lookup hl, region_setRegion]
    split_ifs with hc
    · right
      have : j = id := by simpa using hc.1
      rw [this]
    · left; rfl

/-- Dropping a reference keeps `RemovePending` unless it is the last
reference of the region itself. -/
theorem removePending_put {name : String} {id : Nat} {s : State} (j : Int)
    (h : RemovePending name id s)
    (hlast : j.toNat = id → (region s id).refcount ≠ 1) :
    RemovePending name id (shm_put s j) := by
  simp only [shm_put]
  split_ifs with hc
  · apply removePending_setRegion _ _ h
    · intro _ hh
      simp at hh
    · intro hj
      rw [region_eq_of_toNat hj] at hc
      exact absurd (by omega) (hlast hj)
  · apply removePending_setRegion _ _ h
    · intro hj
      exact removePending_below j h hj
    · intro hj
      exact removePending_self j h hj

theorem refcount_put (s : State) (j : Int) (id : Nat) :
    (region (shm_put s j) id).refcount =
      if j.toNat = id ∧ id < s.regions.length then (region s id).refcount - 1
      else (region s id).refcount := by
  by_cases hc : j.toNat = id ∧ id < s.regions.length
  · have hc2 : j.toNat = (id : Int).toNat ∧ j.toNat < s.regions.length := by
      refine ⟨by simpa using hc.1, by omega⟩
    rw [if_pos hc]
    simp only [shm_put]
    split_ifs <;> rw [region_setRegion, if_pos hc2] <;> simp [region_eq_of_toNat hc.1]
  · have hc2 : ¬ (j.toNat = (id : Int).toNat ∧ j.toNat < s.regions.length) := by
      intro hh
      apply hc
      have h1 : j.toNat = id := by simpa using hh.1
      exact ⟨h1, by omega⟩
    rw [if_neg hc]
    simp only [shm_put]
    split_ifs <;> rw [region_setRegion, if_neg hc2]

theorem shm_free_slot_eq_some {rs : List Region} {k : Nat} (h : shm_free_slot rs = some k) :
    ∃ r, rs[k]? = some r ∧ r.used = false := by
  induction rs generalizing k with
  | nil => simp [shm_free_slot] at h
  | cons a as ih =>
    simp only [shm_free_slot] at h
    by_cases ha : a.used = false
    · rw [if_pos ha] at h
      have : k = 0 := by simpa using h.symm
      subst this
      exact ⟨a, by simp, ha⟩
    · rw [if_neg ha] at h
      simp only [Option.map_eq_some'] at h
      obtain ⟨m, hm, rfl⟩ := h
      simpa using ih hm

/-- A reference taken and dropped again while the region that waits for its
removal is still referenced keeps it waiting, and leaves it untouched. -/
theorem removePending_put_get {name : String} {id : Nat} {s : State} {n : String} {j : Nat}
    (h : RemovePending name id s) (hb : 0 < (region s id).refcount)
    (hl : shm_lookup n s.regions = some j) :
    RemovePending name id (shm_put (shm_get s n).1 j) ∧
    region (shm_put (shm_get s n).1 j) id = region s id := by
  rw [shm_put_get hl]
  split_ifs with hc
  · have hne : j ≠ id := by
      intro e
      rw [e] at hc
      omega
    constructor
    · apply removePending_setRegion _ _ h
      · intro _ hh
        simp at hh
      · intro hj
        exact absurd (by simpa using hj) hne
    · exact region_setRegion_ne s j id _ (by simpa using hne)
  · exact ⟨h, rfl⟩

theorem removePending_open {name : String} {id : Nat} {s : State} (c : Config) (node : Nat)
    (n : String) (h : RemovePending name id s) (hb : 0 < (region s id).refcount) :
    RemovePending name id (shm_open c s node n).1 := by
  simp only [shm_open]
  split_ifs with h1 h2 h3 h4
  · exact h
  · exact removePending_get n h
  all_goals
    cases hl : shm_lookup n s.regions with
    | none =>
      rw [shm_get_of_lookup_none hl] at h2
      exact absurd (show ((-1 : Int) < 0) by decide) h2
    | some j =>
      first
        | (have e : (shm_get s n).2 = (j : Int) := by rw [shm_get_of_lookup hl]
           rw [e]
           exact (removePending_put_get h hb hl).1)
        | exact removePending_of_regions_eq (removePending_get n h) rfl

/-- The region table after the initialisation of a fresh region in
`shm_create`: one slot is overwritten. -/
theorem regions_create_tail (s : State) (k : Nat) (owner : Nat) (name : String) (mode fl : Nat)
    (hk : k < s.regions.length) :
    (push_oregion (shm_set_size (shm_set_base (shm_set_name (shm_set_perm
        (setRegion s k { region s k with used := true, remove := false, refcount := 1 })
        k owner mode) k name) k 0) k 0) owner k fl).regions =
      (setRegion s k ⟨name, true, false, owner, 1, mode, 0, 0⟩).regions := by
  have hk2 : (k : Int).toNat < s.regions.length := by simpa using hk
  simp only [push_oregion, regions_setProc, shm_set_size, shm_set_base, shm_set_name,
    shm_set_perm, setRegion_setRegion, region_setRegion_same _ _ _ hk2]

theorem shm_create_of_existing {s : State} (c : Config) (node : Nat) {n : String}
    (w : Int) (m : Nat) {j : Nat} (hl : shm_lookup n s.regions = some j) :
    shm_create c s node n w m = (s, -EINVAL) ∨
    shm_create c s node n w m = shm_open c (shm_put (shm_get s n).1 j) node n := by
  simp only [shm_create, shm_get_of_lookup hl]
  have hj : (j : Int) ≥ 0 := by omega
  by_cases hv : (!shm_name_is_valid c n) = true
  · left; rw [if_pos hv]
  · right; rw [if_neg hv, if_pos hj]

theorem shm_create_of_fresh {s : State} (c : Config) (node : Nat) {n : String}
    (w : Int) (m : Nat) (hl : shm_lookup n s.regions = none) :
    (shm_create c s node n w m).1 = s ∨
    ∃ (k : Nat) (r : Region), s.regions[k]? = some r ∧ r.used = false ∧
      (shm_create c s node n w m).1.regions
        = (setRegion s k ⟨n, true, false, node, 1, m, 0, 0⟩).regions := by
  simp only [shm_create, shm_get_of_lookup_none hl]
  have hneg : ¬ ((-1 : Int) ≥ 0) := by decide
  by_cases hv : (!shm_name_is_valid c n) = true
  · left; rw [if_pos hv]
  · rw [if_neg hv, if_neg hneg]
    by_cases hfull : (proc s node).nopen ≥ c.SHM_OPEN_MAX
    · left; rw [if_pos hfull]
    · rw [if_neg hfull]
      cases hf : shm_free_slot s.regions with
      | none =>
        left
        have ha : shm_alloc s = (s, -1) := by simp [shm_alloc, hf]
        rw [ha]
        simp
      | some k =>
        right
        have ha : shm_alloc s =
            (setRegion s k { region s k with used := true, remove := false, refcount := 1 },
              (k : Int)) := by
          simp [shm_alloc, hf]
        obtain ⟨r, hr, hu⟩ := shm_free_slot_eq_some hf
        have hk : k < s.regions.length := (List.getElem?_eq_some.1 hr).1
        have hk0 : ¬ ((k : Int) < 0) := by omega
        rw [ha]
        simp only [hk0, if_false]
        exact ⟨k, r, hr, hu, regions_create_tail s k node n m _ hk⟩

theorem removePending_create {name : String} {id : Nat} {s : State} (c : Config) (node : Nat)
    (n : String) (w : Int) (m : Nat)
    (h : RemovePending name id s) (hb : 0 < (region s id).refcount) :
    RemovePending name id (shm_create c s node n w m).1 := by
  cases hl : shm_lookup n s.regions with
  | some j =>
    rcases shm_create_of_existing c node w m hl with e | e
    · rw [e]; exact h
    · rw [e]
      have := removePending_put_get h hb hl
      exact removePending_open c node n this.1 (by rw [this.2]; exact hb)
  | none =>
    have hne : n ≠ name := by
      intro e
      rw [e, h.1] at hl
      cases hl
    rcases shm_create_of_fresh c node w m hl with e | ⟨k, r, hr, hu, e⟩
    · rw [e]; exact h
    · have hkid : k ≠ id := by
        intro e
        have := (shm_lookup_region h.1).1
        simp [region, ← e, hr, hu] at this
      apply removePending_of_regions_eq _ e
      apply removePending_setRegion _ _ h
      · intro _ hh
        exact hne hh.2
      · intro hj
        exact absurd (by simpa using hj) hkid

theorem removePending_create_exclusive {name : String} {id : Nat} {s : State} (c : Config)
    (node : Nat) (n : String) (w : Int) (m : Nat)
    (h : RemovePending name id s) (hb : 0 < (region s id).refcount) :
    RemovePending name id (shm_create_exclusive c s node n w m).1 := by
  cases hl : shm_lookup n s.regions with
  | some j =>
    simp only [shm_create_exclusive, shm_get_of_lookup hl]
    have := removePending_put_get h hb hl
    rw [shm_get_of_lookup hl] at this
    split_ifs with h1 h2
    · exact h
    · exact this.1
    · exact absurd (show (j : Int) ≥ 0 by omega) h2
  | none =>
    simp only [shm_create_exclusive, shm_get_of_lookup_none hl]
    have hneg : ¬ ((-1 : Int) ≥ 0) := by decide
    simp only [hneg, if_false]
    split_ifs
    · exact h
    · exact removePending_create c node n _ _ h hb

theorem shm_is_used_iff (s : State) (shmid : Int) :
    shm_is_used s shmid = true ↔
      0 ≤ shmid ∧ shmid.toNat < s.regions.length ∧ (region s shmid).used = true := by
  simp [shm_is_used, and_assoc]

theorem regions_shm_close (s : State) (node : Nat) (shmid : Int) :
    (shm_close s node shmid).1.regions = s.regions ∨
    (0 ≤ shmid ∧ (shm_close s node shmid).1.regions = (shm_put s shmid).regions) := by
  simp only [shm_close]
  split_ifs with h1 h2
  · exact Or.inl rfl
  · exact Or.inl rfl
  · right
    have hu : shm_is_used s shmid = true := by simpa using h1
    exact ⟨((shm_is_used_iff s shmid).1 hu).1, regions_shm_put_setProc s shmid node _⟩

theorem removePending_close {name : String} {id : Nat} {s : State} (node : Nat) (shmid : Int)
    (h : RemovePending name id s)
    (ha : 0 < (region (shm_close s node shmid).1 id).refcount) :
    RemovePending name id (shm_close s node shmid).1 := by
  rcases regions_shm_close s node shmid with he | ⟨_, he⟩
  · exact removePending_of_regions_eq h he
  · have hid : id < s.regions.length := shm_lookup_lt h.1
    rw [region_of_regions_eq he, refcount_put] at ha
    apply removePending_of_regions_eq _ he
    apply removePending_put _ h
    intro hj
    rw [if_pos ⟨hj, hid⟩] at ha
    omega

theorem shm_unmap_state (s : State) (node : Nat) (shmid : Int) :
    (shm_unmap s node shmid).1 = s := by
  simp only [shm_unmap]
  split_ifs <;> rfl

theorem used_set_remove (s : State) (j i : Int) :
    (region (shm_set_remove s j) i).used = (region s i).used := by
  simp only [shm_set_remove, region_setRegion]
  split_ifs with hc
  · have : region s i = region s j := by simp [region, hc.1]
    rw [this]
  · rfl

theorem shm_close_of_not_used {s : State} (node : Nat) {shmid : Int}
    (h : (region s shmid).used = false) : shm_close s node shmid = (s, -EINVAL) := by
  simp [shm_close, shm_is_used, h]

theorem shm_unlink_of_lookup {s : State} (node : Nat) {n : String} {j : Nat}
    (hl : shm_lookup n s.regions = some j) :
    shm_unlink s node n =
      if (!shm_is_owner (shm_put (shm_get s n).1 j) j node) = true then
        (shm_put (shm_get s n).1 j, -EPERM)
      else shm_close (shm_set_remove (shm_put (shm_get s n).1 j) j) node j := by
  simp only [shm_unlink, shm_get_of_lookup hl]
  have hj : ¬ ((j : Int) < 0) := by omega
  rw [if_neg hj]

theorem shm_unlink_of_lookup_none {s : State} (node : Nat) {n : String}
    (hl : shm_lookup n s.regions = none) : shm_unlink s node n = (s, -EINVAL) := by
  simp [shm_unlink, shm_get_of_lookup_none hl]

theorem removePending_set_remove {name : String} {id : Nat} {s : State} (j : Int)
    (h : RemovePending name id s) : RemovePending name id (shm_set_remove s j) := by
  apply removePending_setRegion _ _ h
  · intro hj
    exact removePending_below j h hj
  · intro hj
    exact ⟨(removePending_self j h hj).1, (removePending_self j h hj).2.1, rfl⟩

theorem refcount_set_remove (s : State) (j : Int) (id : Nat) :
    (region (shm_set_remove s j) id).refcount = (region s id).refcount := by
  simp only [shm_set_remove, region_setRegion]
  split_ifs with hc
  · have : j.toNat = id := by simpa using hc.1
    simp [region_eq_of_toNat this]
  · rfl

theorem removePending_unlink {name : String} {id : Nat} {s : State} (node : Nat)
    (n : String) (h : RemovePending name id s) (hb : 0 < (region s id).refcount)
    (ha : 0 < (region (shm_unlink s node n).1 id).refcount) :
    RemovePending name id (shm_unlink s node n).1 := by
  cases hl : shm_lookup n s.regions with
  | none => rw [shm_unlink_of_lookup_none node hl]; exact h
  | some j =>
    have hpg := removePending_put_get h hb hl
    rw [shm_unlink_of_lookup node hl] at ha ⊢
    split_ifs at ha ⊢
    · exact hpg.1
    · exact removePending_close node j (removePending_set_remove j hpg.1) ha

theorem removePending_truncate {name : String} {id : Nat} {s : State} (c : Config)
    (node : Nat) (shmid : Int) (size : Nat) (h : RemovePending name id s) :
    RemovePending name id (shm_truncate c s node shmid size).1 := by
  simp only [shm_truncate]
  split_ifs
  · exact h
  · exact h
  · exact h
  · exact h
  · exact h
  · apply removePending_setRegion _ _ h
    · intro hj
      exact removePending_below shmid h hj
    · intro hj
      exact removePending_self shmid h hj

theorem regions_shm_map (s : State) (node : Nat) (shmid : Int) (size : Nat)
    (writable shared off : Int) :
    (shm_map s node shmid size writable shared off).1.regions = s.regions := by
  simp only [shm_map]
  split_ifs <;> rfl

/-- One call keeps a region waiting for its removal as long as the region
has a reference before and after the call. -/
theorem removePending_apply_op {name : String} {id : Nat} {s : State} (c : Config) (op : Op)
    (h : RemovePending name id s) (hb : 0 < (region s id).refcount)
    (ha : 0 < (region (apply_op c s op).1 id).refcount) :
    RemovePending name id (apply_op c s op).1 := by
  cases op with
  | call_open node n => exact removePending_open c node n h hb
  | call_create node n w m => exact removePending_create c node n w m h hb
  | call_create_exclusive node n w m => exact removePending_create_exclusive c node n w m h hb
  | call_close node shmid => exact removePending_close node shmid h ha
  | call_unlink node n => exact removePending_unlink node n h hb ha
  | call_truncate node shmid size => exact removePending_truncate c node shmid size h
  | call_map node shmid size w sh off =>
    exact removePending_of_regions_eq h (regions_shm_map s node shmid size w sh off)
  | call_unmap node shmid =>
    simp only [apply_op]
    rw [shm_unmap_state]
    exact h

theorem run_ops_append_one (c : Config) (s : State) (ops : List Op) (op : Op) :
    run_ops c s (ops ++ [op]) = (apply_op c (run_ops c s ops) op).1 := by
  simp [run_ops, List.foldl_append]

theorem removePending_run_ops {name : String} {id : Nat} {s : State} (c : Config)
    (ops : List Op) (h : RemovePending name id s)
    (href : ∀ k, k ≤ ops.length → 0 < (region (run_ops c s (ops.take k)) id).refcount) :
    RemovePending name id (run_ops c s ops) := by
  induction ops using List.reverseRecOn with
  | nil => exact h
  | append_singleton ops op ih =>
    have hpre : ∀ k, k ≤ ops.length →
        0 < (region (run_ops c s (ops.take k)) id).refcount := by
      intro k hk
      have := href k (by simp; omega)
      rwa [List.take_append_of_le_length hk] at this
    have hb := hpre ops.length (Nat.le_refl _)
    rw [List.take_length] at hb
    have ha := href (ops ++ [op]).length (Nat.le_refl _)
    rw [List.take_length, run_ops_append_one] at ha
    rw [run_ops_append_one]
    exact removePending_apply_op c op (ih hpre) hb ha

/-- A successful unlink that leaves a reference behind leaves the region
waiting for its removal. -/
theorem removePending_of_unlink {name : String} {id : Nat} {s s1 : State} (node : Nat)
    (hl : shm_lookup name s.regions = some id)
    (hu : shm_unlink s node name = (s1, 0))
    (ha : 0 < (region s1 id).refcount) : RemovePending name id s1 := by
  have hid : (id : Int).toNat < s.regions.length := by simpa using shm_lookup_lt hl
  rw [shm_unlink_of_lookup node hl, shm_put_get hl] at hu
  split_ifs at hu with hfree hown
  · cases hu
  · -- the region was released by the dropped reference: the close fails
    exfalso
    rw [shm_close_of_not_used node (by
      rw [used_set_remove, region_setRegion_same s id _ hid])] at hu
    have h2 : (-EINVAL : Int) = 0 := congrArg Prod.snd hu
    exact absurd h2 (by decide)
  · cases hu
  · have hrp : RemovePending name id (shm_set_remove s id) := by
      constructor
      · apply shm_lookup_setRegion _ _ hl
        · intro hj
          simp at hj
        · intro _
          exact shm_lookup_region hl
      · simp [shm_set_remove, region_setRegion_same s id _ hid]
    have hcl := removePending_close node id hrp
    rw [hu] at hcl
    exact hcl ha

/-! ## The life cycle of one region on a fresh server -/

theorem shm_lookup_replicate_default (name : String) (n : Nat) :
    shm_lookup name (List.replicate n default) = none := by
  rw [shm_lookup_eq_none_iff]
  intro r hr
  rw [List.eq_of_mem_replicate hr]
  simp [default]

theorem round_trip_step_create (c : Config) (node : Nat) (name : String) (writable : Int) (mode : Nat)
    (hname : shm_name_is_valid c name = true) (hnode : node < c.HAL_NR_NOC_NODES)
    (hmax : 0 < c.SHM_MAX) (hopen : 0 < c.SHM_OPEN_MAX) :
    shm_create c (shm_startup c) node name writable mode =
      (rt_state c node ⟨name, true, false, node, 1, mode, 0, 0⟩
        ⟨1, ⟨0, if writable ≠ 0 then SHM_WRITE else 0⟩ :: List.replicate (c.SHM_OPEN_MAX - 1) default⟩, 0) := by
  obtain ⟨n, hn⟩ : ∃ n, c.SHM_MAX = n + 1 := ⟨c.SHM_MAX - 1, by omega⟩
  obtain ⟨m, hm⟩ : ∃ m, c.SHM_OPEN_MAX = m + 1 := ⟨c.SHM_OPEN_MAX - 1, by omega⟩
  have hl : shm_lookup name (shm_startup c).regions = none := shm_lookup_replicate_default _ _
  simp only [shm_create, hname, shm_get_of_lookup_none hl]
  simp [shm_startup, hn, hm, proc, hnode, shm_alloc, shm_free_slot, List.replicate_succ,
    shm_set_perm, shm_set_name, shm_set_base, shm_set_size, push_oregion, setRegion, setProc,
    region, rt_state, default]


theorem round_trip_step_close (c : Config) (node : Nat) (name : String) (mode fl : Nat) (rc : Int)
    (hnode : node < c.HAL_NR_NOC_NODES) (hrc : rc = 1) :
    shm_close (rt_state c node ⟨name, true, false, node, rc, mode, 0, 0⟩
        ⟨1, ⟨0, fl⟩ :: List.replicate (c.SHM_OPEN_MAX - 1) default⟩) node 0 =
      (rt_state c node ⟨name, true, false, node, 0, mode, 0, 0⟩
        ⟨0, ⟨0, fl⟩ :: List.replicate (c.SHM_OPEN_MAX - 1) default⟩, 0) := by
  subst hrc
  simp [shm_close, shm_is_used, shm_is_opened, oregion_index, rt_state, region, proc, hnode,
    close_shift, shm_put, setRegion, setProc]

theorem round_trip_step_open (c : Config) (node : Nat) (name : String) (mode fl : Nat)
    (hname : shm_name_is_valid c name = true) (hnode : node < c.HAL_NR_NOC_NODES)
    (hopen : 0 < c.SHM_OPEN_MAX) :
    shm_open c (rt_state c node ⟨name, true, false, node, 0, mode, 0, 0⟩
        ⟨0, ⟨0, fl⟩ :: List.replicate (c.SHM_OPEN_MAX - 1) default⟩) node name =
      (rt_state c node ⟨name, true, false, node, 1, mode, 0, 0⟩
        ⟨1, ⟨0, SHM_WRITE⟩ :: List.replicate (c.SHM_OPEN_MAX - 1) default⟩, 0) := by
  have h0 : c.SHM_OPEN_MAX ≠ 0 := by omega
  simp [shm_open, hname, shm_get, shm_lookup, shm_is_remove, rt_state, region, proc, hnode,
    push_oregion, setRegion, setProc, h0]

theorem round_trip_step_unlink_closed (c : Config) (node : Nat) (name : String) (mode fl : Nat)
    (hnode : node < c.HAL_NR_NOC_NODES) :
    shm_unlink (rt_state c node ⟨name, true, false, node, 0, mode, 0, 0⟩
        ⟨0, ⟨0, fl⟩ :: List.replicate (c.SHM_OPEN_MAX - 1) default⟩) node name =
      (rt_state c node ⟨name, true, true, node, 0, mode, 0, 0⟩
        ⟨0, ⟨0, fl⟩ :: List.replicate (c.SHM_OPEN_MAX - 1) default⟩, -EACCES) := by
  simp [shm_unlink, shm_get, shm_lookup, shm_put, shm_is_owner, shm_set_remove, shm_close,
    shm_is_used, shm_is_opened, oregion_index, rt_state, region, proc, hnode, setRegion, setProc]

theorem round_trip_step_unlink_again (c : Config) (node : Nat) (name : String) (mode fl : Nat) :
    (shm_unlink (rt_state c node ⟨name, true, true, node, 0, mode, 0, 0⟩
        ⟨0, ⟨0, fl⟩ :: List.replicate (c.SHM_OPEN_MAX - 1) default⟩) node name).2 = -EINVAL := by
  simp [shm_unlink, shm_get, shm_lookup, shm_put, shm_is_owner, shm_set_remove, shm_close,
    shm_is_used, rt_state, region, setRegion]

theorem round_trip_step_unlink_open (c : Config) (node : Nat) (name : String) (mode fl : Nat)
    (hnode : node < c.HAL_NR_NOC_NODES) :
    shm_unlink (rt_state c node ⟨name, true, false, node, 1, mode, 0, 0⟩
        ⟨1, ⟨0, fl⟩ :: List.replicate (c.SHM_OPEN_MAX - 1) default⟩) node name =
      (rt_state c node ⟨name, false, false, node, 0, mode, 0, 0⟩
        ⟨0, ⟨0, fl⟩ :: List.replicate (c.SHM_OPEN_MAX - 1) default⟩, 0) := by
  simp [shm_unlink, shm_get, shm_lookup, shm_put, shm_is_owner, shm_set_remove, shm_close,
    shm_is_used, shm_is_opened, oregion_index, rt_state, region, proc, hnode, setRegion, setProc,
    close_shift]

theorem round_trip_step_unlink_gone (c : Config) (node : Nat) (name : String) (mode fl : Nat) :
    (shm_unlink (rt_state c node ⟨name, false, false, node, 0, mode, 0, 0⟩
        ⟨0, ⟨0, fl⟩ :: List.replicate (c.SHM_OPEN_MAX - 1) default⟩) node name).2 = -EINVAL := by
  have hl : shm_lookup name (rt_state c node ⟨name, false, false, node, 0, mode, 0, 0⟩
        ⟨0, ⟨0, fl⟩ :: List.replicate (c.SHM_OPEN_MAX - 1) default⟩).regions = none := by
    simp [rt_state, shm_lookup, shm_lookup_replicate_default]
  simp [shm_unlink, shm_get_of_lookup_none hl]

/-- While a region waits for its removal and still has a reference, opening
it by name fails with `EAGAIN` and changes nothing. -/
theorem shm_open_remove_pending {name : String} {id : Nat} {s : State} (c : Config)
    (node : Nat) (h : RemovePending name id s) (hb : 0 < (region s id).refcount)
    (hv : shm_name_is_valid c name = true) :
    shm_open c s node name = (s, -EAGAIN) := by
  have hid : (id : Int).toNat < s.regions.length := by simpa using shm_lookup_lt h.1
  have hpg := shm_put_get h.1
  rw [if_neg (fun hh => by omega)] at hpg
  rw [shm_get_of_lookup h.1] at hpg
  have hj : ¬ ((id : Int) < 0) := by omega
  have hv2 : ¬ ((!shm_name_is_valid c name) = true) := by simp [hv]
  simp only [shm_open, shm_get_of_lookup h.1, shm_is_remove,
    region_setRegion_same s id _ hid]
  rw [if_neg hv2, if_neg hj, if_pos h.2]
  exact congrArg (fun t => (t, -EAGAIN)) hpg

/-! ## Consistency of the tables -/

theorem count_flatMap_set {α : Type} (f : α → List Int) (x : Int) (l : List α) (n : Nat)
    (a : α) (hn : n < l.length) :
    List.count x ((l.set n a).flatMap f) + List.count x (f l[n])
      = List.count x (l.flatMap f) + List.count x (f a) := by
  induction l generalizing n with
  | nil => simp at hn
  | cons b bs ih =>
    cases n with
    | zero => simp; omega
    | succ m =>
      have := ih m (by simpa using hn)
      simp only [List.set_cons_succ, List.flatMap_cons, List.count_append,
        List.getElem_cons_succ]
      omega

theorem proc_eq_getElem (s : State) (node : Nat) (h : node < s.procs.length) :
    proc s node = s.procs[node] := by
  simp [proc, List.getElem?_eq_getElem h]

theorem proc_mem (s : State) (node : Nat) (h : node < s.procs.length) :
    proc s node ∈ s.procs := by
  rw [proc_eq_getElem s node h]
  exact List.getElem_mem h

theorem region_mem (s : State) (j : Nat) (h : j < s.regions.length) :
    region s j ∈ s.regions := by
  have : region s j = s.regions[j] := by simp [region, List.getElem?_eq_getElem h]
  rw [this]
  exact List.getElem_mem h

theorem proc_ids_mem_live {s : State} {node : Nat} (h : node < s.procs.length) {x : Int}
    (hx : x ∈ proc_ids (proc s node)) : x ∈ live_ids s := by
  simp only [live_ids, List.mem_flatMap]
  exact ⟨proc s node, proc_mem s node h, hx⟩

/-- The tables stay consistent when one region slot and the table of one
node are replaced, provided the new slot and the new table agree with each
other. -/
theorem inv_update {c : Config} {s t : State} (hinv : Inv c s) (node j : Nat) (R : Region)
    (P : Proc) (hnode : node < c.HAL_NR_NOC_NODES)
    (hr : t.regions = s.regions.set j R) (hp : t.procs = s.procs.set node P)
    (hP : P.oregions.length = c.SHM_OPEN_MAX ∧ P.nopen ≤ c.SHM_OPEN_MAX)
    (hname : R.used = true → shm_name_is_valid c R.name = true)
    (hids : ∀ x ∈ proc_ids P, x ∈ proc_ids (proc s node) ∨ (x = (j : Int) ∧ j < s.regions.length))
    (hother : ∀ x : Int, x ≠ (j : Int) →
      List.count x (proc_ids P) = List.count x (proc_ids (proc s node)))
    (hj1 : j < s.regions.length → R.used = true →
      (((live_ids s).count (j : Int) + (proc_ids P).count (j : Int) : Nat) : Int)
        = R.refcount + (((proc_ids (proc s node)).count (j : Int) : Nat) : Int))
    (hj0 : j < s.regions.length → R.used = false →
      (live_ids s).count (j : Int) + (proc_ids P).count (j : Int)
        = (proc_ids (proc s node)).count (j : Int)) :
    Inv c t := by
  have hn : node < s.procs.length := by rw [hinv.procs_len]; exact hnode
  have hcount : ∀ x : Int, List.count x (live_ids t) + List.count x (proc_ids (proc s node))
      = List.count x (live_ids s) + List.count x (proc_ids P) := by
    intro x
    have := count_flatMap_set proc_ids x s.procs node P hn
    rw [← proc_eq_getElem s node hn] at this
    simpa only [live_ids, hp] using this
  have hreg : ∀ id : Nat, region t id = if j = id ∧ j < s.regions.length then R
      else region s id := by
    intro id
    have := region_setRegion s j id R
    simp only [Int.toNat_ofNat] at this
    rw [← this]
    exact region_of_regions_eq (by rw [hr]; rfl) id
  constructor
  · rw [hp, List.length_set]; exact hinv.procs_len
  · intro p hp2
    rw [hp] at hp2
    rcases List.mem_or_eq_of_mem_set hp2 with h | h
    · exact hinv.room p h
    · rw [h]; exact hP
  · intro r hr2
    rw [hr] at hr2
    rcases List.mem_or_eq_of_mem_set hr2 with h | h
    · exact hinv.names r h
    · rw [h]; exact hname
  · intro x hx
    rw [hr, List.length_set]
    simp only [live_ids, hp, List.mem_flatMap] at hx
    obtain ⟨p, hp2, hxp⟩ := hx
    rcases List.mem_or_eq_of_mem_set hp2 with h | h
    · exact hinv.ids x (List.mem_flatMap.2 ⟨p, h, hxp⟩)
    · rw [h] at hxp
      rcases hids x hxp with h1 | ⟨h1, h2⟩
      · exact hinv.ids x (proc_ids_mem_live hn h1)
      · rw [h1]
        exact ⟨by omega, by simpa using h2⟩
  · intro id hid
    rw [hr, List.length_set] at hid
    rw [hreg id]
    have hc := hcount (id : Int)
    by_cases hji : j = id
    · subst hji
      rw [if_pos ⟨rfl, hid⟩]
      constructor
      · intro hu
        have := hj1 hid hu
        omega
      · intro hu
        have := hj0 hid hu
        omega
    · rw [if_neg (fun h => hji h.1)]
      have ho := hother (id : Int) (by intro h; apply hji; exact_mod_cast h.symm)
      have := hinv.refs id hid
      constructor
      · intro hu
        have := this.1 hu
        omega
      · intro hu
        have := this.2 hu
        omega

theorem inv_update_regions {c : Config} {s t : State} (hinv : Inv c s) (j : Nat) (R : Region)
    (hr : t.regions = s.regions.set j R) (hp : t.procs = s.procs)
    (hname : R.used = true → shm_name_is_valid c R.name = true)
    (hj1 : j < s.regions.length → R.used = true →
      (((live_ids s).count (j : Int) : Nat) : Int) = R.refcount)
    (hj0 : j < s.regions.length → R.used = false → (live_ids s).count (j : Int) = 0) :
    Inv c t := by
  have hlive : live_ids t = live_ids s := by simp only [live_ids, hp]
  have hreg : ∀ id : Nat, region t id = if j = id ∧ j < s.regions.length then R
      else region s id := by
    intro id
    have := region_setRegion s j id R
    simp only [Int.toNat_ofNat] at this
    rw [← this]
    exact region_of_regions_eq (by rw [hr]; rfl) id
  constructor
  · rw [hp]; exact hinv.procs_len
  · rw [hp]; exact hinv.room
  · intro r hr2
    rw [hr] at hr2
    rcases List.mem_or_eq_of_mem_set hr2 with h | h
    · exact hinv.names r h
    · rw [h]; exact hname
  · intro x hx
    rw [hr, List.length_set]
    rw [hlive] at hx
    exact hinv.ids x hx
  · intro id hid
    rw [hr, List.length_set] at hid
    rw [hreg id, hlive]
    by_cases hji : j = id
    · subst hji
      rw [if_pos ⟨rfl, hid⟩]
      exact ⟨hj1 hid, hj0 hid⟩
    · rw [if_neg (fun h => hji h.1)]
      exact hinv.refs id hid

theorem regions_setRegion_nat (s : State) (j : Nat) (R : Region) :
    (setRegion s (j : Int) R).regions = s.regions.set j R := by
  simp [setRegion]

/-- A reference taken and dropped again keeps the tables consistent. -/
theorem inv_put_get {c : Config} {s : State} (hinv : Inv c s) {n : String} {j : Nat}
    (hl : shm_lookup n s.regions = some j) : Inv c (shm_put (shm_get s n).1 j) := by
  rw [shm_put_get hl]
  split_ifs with hc
  · have hj : j < s.regions.length := shm_lookup_lt hl
    have hu := (shm_lookup_region hl).1
    apply inv_update_regions hinv j _ (regions_setRegion_nat s j _) rfl
    · intro h; simp at h
    · intro _ h; simp at h
    · intro _ _
      have := (hinv.refs j hj).1 hu
      rw [hc.1] at this
      exact_mod_cast this
  · exact hinv

theorem take_succ_set_self {α : Type} (l : List α) (n : Nat) (a : α) (h : n < l.length) :
    (l.set n a).take (n + 1) = l.take n ++ [a] := by
  induction l generalizing n with
  | nil => simp at h
  | cons b bs ih =>
    cases n with
    | zero => simp
    | succ k =>
      have := ih k (by simpa using h)
      simp [this]

theorem proc_ids_push (p : Proc) (e : ORegion) (h : p.nopen < p.oregions.length) :
    proc_ids ⟨p.nopen + 1, p.oregions.set p.nopen e⟩ = proc_ids p ++ [e.shmid] := by
  simp only [proc_ids, take_succ_set_self _ _ _ h, List.map_append, List.map_cons,
    List.map_nil]

/-- The tables after `push_oregion`. -/
theorem procs_push_oregion (s : State) (node : Nat) (shmid : Int) (flags : Nat) :
    (push_oregion s node shmid flags).procs =
      s.procs.set node ⟨(proc s node).nopen + 1,
        (proc s node).oregions.set (proc s node).nopen ⟨shmid, flags⟩⟩ := rfl

theorem regions_push_oregion (s : State) (node : Nat) (shmid : Int) (flags : Nat) :
    (push_oregion s node shmid flags).regions = s.regions := rfl

/-- A new entry for region `j` together with one more reference on it keeps
the tables consistent. -/
theorem inv_push {c : Config} {s t : State} (hinv : Inv c s) (node j : Nat) (R : Region)
    (flags : Nat) (hnode : node < c.HAL_NR_NOC_NODES)
    (hfull : ¬ (proc s node).nopen ≥ c.SHM_OPEN_MAX)
    (hj : j < s.regions.length)
    (hr : t.regions = s.regions.set j R)
    (hp : t.procs = s.procs.set node ⟨(proc s node).nopen + 1,
        (proc s node).oregions.set (proc s node).nopen ⟨(j : Int), flags⟩⟩)
    (hu : R.used = true) (hname : shm_name_is_valid c R.name = true)
    (hrc : R.refcount = (((live_ids s).count (j : Int) : Nat) : Int) + 1) :
    Inv c t := by
  have hn : node < s.procs.length := by rw [hinv.procs_len]; exact hnode
  have hroom := hinv.room _ (proc_mem s node hn)
  have hlt : (proc s node).nopen < (proc s node).oregions.length := by omega
  have hids := proc_ids_push (proc s node) ⟨(j : Int), flags⟩ hlt
  apply inv_update hinv node j R _ hnode hr hp
  · simp only [List.length_set]
    exact ⟨hroom.1, by omega⟩
  · intro _; exact hname
  · intro x hx
    rw [hids] at hx
    simp only [List.mem_append, List.mem_singleton] at hx
    rcases hx with h | h
    · exact Or.inl h
    · exact Or.inr ⟨h, hj⟩
  · intro x hx
    rw [hids]
    simp [List.count_cons, hx.symm]
  · intro _ _
    rw [hids, hrc]
    simp [List.count_cons]
    omega
  · intro _ h
    rw [hu] at h
    cases h

theorem inv_shm_open {c : Config} {s : State} (hinv : Inv c s) (node : Nat) (n : String)
    (hnode : node < c.HAL_NR_NOC_NODES) : Inv c (shm_open c s node n).1 := by
  cases hl : shm_lookup n s.regions with
  | none =>
    simp only [shm_open, shm_get_of_lookup_none hl]
    split_ifs <;> first | exact hinv | (exfalso; omega)
  | some j =>
    have hpg := inv_put_get hinv hl
    have hj : j < s.regions.length := shm_lookup_lt hl
    have hjn : ¬ ((j : Int) < 0) := by omega
    rw [shm_get_of_lookup hl] at hpg
    simp only [shm_open, shm_get_of_lookup hl]
    split_ifs with h1 h2 h3
    · exact hinv
    · exact hpg
    · exact hpg
    · have hu := (shm_lookup_region hl).1
      refine inv_push hinv node j
        { region s j with refcount := (region s j).refcount + 1 } SHM_WRITE hnode h3 hj
        ?_ ?_ hu ?_ ?_
      · exact regions_setRegion_nat s j _
      · rfl
      · exact hinv.names (region s j) (region_mem s j hj) hu
      · have := (hinv.refs j hj).1 hu
        simp only [this]

theorem inv_shm_create {c : Config} {s : State} (hinv : Inv c s) (node : Nat) (n : String)
    (w : Int) (m : Nat) (hnode : node < c.HAL_NR_NOC_NODES) :
    Inv c (shm_create c s node n w m).1 := by
  cases hl : shm_lookup n s.regions with
  | some j =>
    rcases shm_create_of_existing c node w m hl with e | e
    · rw [e]; exact hinv
    · rw [e]; exact inv_shm_open (inv_put_get hinv hl) node n hnode
  | none =>
    simp only [shm_create, shm_get_of_lookup_none hl]
    have hneg : ¬ ((-1 : Int) ≥ 0) := by decide
    by_cases hv : (!shm_name_is_valid c n) = true
    · rw [if_pos hv]; exact hinv
    · rw [if_neg hv, if_neg hneg]
      by_cases hfull : (proc s node).nopen ≥ c.SHM_OPEN_MAX
      · rw [if_pos hfull]; exact hinv
      · rw [if_neg hfull]
        cases hf : shm_free_slot s.regions with
        | none =>
          have ha : shm_alloc s = (s, -1) := by simp [shm_alloc, hf]
          rw [ha]
          simpa using hinv
        | some k =>
          have ha : shm_alloc s =
              (setRegion s k { region s k with used := true, remove := false, refcount := 1 },
                (k : Int)) := by
            simp [shm_alloc, hf]
          obtain ⟨r, hr, hu⟩ := shm_free_slot_eq_some hf
          have hk : k < s.regions.length := (List.getElem?_eq_some.1 hr).1
          have hk0 : ¬ ((k : Int) < 0) := by omega
          have hunused : (region s k).used = false := by simp [region, hr, hu]
          rw [ha]
          simp only [hk0, if_false]
          refine inv_push hinv node k ⟨n, true, false, node, 1, m, 0, 0⟩
            (if w ≠ 0 then SHM_WRITE else 0) hnode hfull hk ?_ ?_ rfl ?_ ?_
          · rw [regions_create_tail s k node n m _ hk]
            exact regions_setRegion_nat s k _
          · rfl
          · simpa using hv
          · have := (hinv.refs k hk).2 hunused
            simp [this]

theorem inv_shm_create_exclusive {c : Config} {s : State} (hinv : Inv c s) (node : Nat)
    (n : String) (w : Int) (m : Nat) (hnode : node < c.HAL_NR_NOC_NODES) :
    Inv c (shm_create_exclusive c s node n w m).1 := by
  cases hl : shm_lookup n s.regions with
  | some j =>
    have hpg := inv_put_get hinv hl
    rw [shm_get_of_lookup hl] at hpg
    have hj : (j : Int) ≥ 0 := by omega
    simp only [shm_create_exclusive, shm_get_of_lookup hl]
    split_ifs
    · exact hinv
    · exact hpg
  | none =>
    have hneg : ¬ ((-1 : Int) ≥ 0) := by decide
    simp only [shm_create_exclusive, shm_get_of_lookup_none hl, hneg, if_false]
    split_ifs
    · exact hinv
    · exact inv_shm_create hinv node n _ _ hnode

theorem count_eraseIdx_add (l : List Int) (i : Nat) (y x : Int) (h : l[i]? = some y) :
    List.count x l = List.count x (l.eraseIdx i) + (if y = x then 1 else 0) := by
  induction l generalizing i with
  | nil => simp at h
  | cons a as ih =>
    cases i with
    | zero =>
      simp only [List.getElem?_cons_zero, Option.some.injEq] at h
      subst h
      simp [List.count_cons]
    | succ k =>
      have := ih k (by simpa using h)
      simp only [List.eraseIdx_cons_succ, List.count_cons]
      omega

theorem map_eraseIdx_shmid (l : List ORegion) (i : Nat) :
    (l.eraseIdx i).map ORegion.shmid = (l.map ORegion.shmid).eraseIdx i := by
  induction l generalizing i with
  | nil => rfl
  | cons a as ih =>
    cases i with
    | zero => simp
    | succ k => simp [ih k]

theorem mem_of_mem_eraseIdx_int {l : List Int} {i : Nat} {x : Int}
    (h : x ∈ l.eraseIdx i) : x ∈ l := by
  induction l generalizing i with
  | nil => simp at h
  | cons a as ih =>
    cases i with
    | zero =>
      simp only [List.eraseIdx_zero, List.tail_cons] at h
      exact List.mem_cons_of_mem a h
    | succ k =>
      simp only [List.eraseIdx_cons_succ, List.mem_cons] at h
      rcases h with h | h
      · rw [h]; exact List.mem_cons_self a as
      · exact List.mem_cons_of_mem a (ih h)

/-- The identifiers of a table after the copying loop of `shm_close`. -/
theorem proc_ids_close (p : Proc) (i : Nat) (hi : i < p.nopen)
    (hroom : p.nopen ≤ p.oregions.length) :
    proc_ids ⟨p.nopen - 1, close_shift (p.nopen - 1 - i) i p.oregions⟩
      = (proc_ids p).eraseIdx i := by
  have e : p.nopen - 1 = i + (p.nopen - 1 - i) := by omega
  have e2 : p.nopen - 1 + 1 = p.nopen := by omega
  have hk := close_shift_take (p.nopen - 1 - i) i p.oregions (by omega)
  rw [← e, e2] at hk
  simp only [proc_ids, hk, map_eraseIdx_shmid]

theorem shm_close_state {s : State} {node : Nat} {shmid : Int} {i : Nat}
    (hused : shm_is_used s shmid = true)
    (hidx : oregion_index shmid (open_table s node) = some i) :
    shm_close s node shmid =
      (shm_put (setProc s node
        ⟨(proc s node).nopen - 1,
          close_shift ((proc s node).nopen - 1 - i) i (proc s node).oregions⟩) shmid, 0) := by
  have hop := shm_is_opened_of_index hidx
  have hnot : ¬ ((i : Int) < 0) := by omega
  simp [shm_close, hused, hop, hnot]

theorem regions_shm_put (s : State) (j : Int) :
    (shm_put s j).regions = s.regions.set j.toNat (put_region (region s j)) := by
  simp only [shm_put, put_region]
  split_ifs <;> rfl

theorem inv_shm_close {c : Config} {s : State} (hinv : Inv c s) (node : Nat) (shmid : Int)
    (hnode : node < c.HAL_NR_NOC_NODES) : Inv c (shm_close s node shmid).1 := by
  by_cases hused : shm_is_used s shmid = true
  · cases hidx : oregion_index shmid (open_table s node) with
    | none =>
      have : shm_close s node shmid = (s, -EACCES) := by
        simp [shm_close, hused, shm_is_opened_of_index_none hidx]
      rw [this]
      exact hinv
    | some i =>
      have hn : node < s.procs.length := by rw [hinv.procs_len]; exact hnode
      have hroom := hinv.room _ (proc_mem s node hn)
      obtain ⟨⟨o, hio, hsh⟩, _⟩ := (oregion_index_eq_some_iff shmid _ i).1 hidx
      have hi : i < (proc s node).nopen := by
        have := (List.getElem?_eq_some.1 hio).1
        simp only [open_table, List.length_take] at this
        omega
      obtain ⟨h0, hlt, hu⟩ := (shm_is_used_iff s shmid).1 hused
      have hcast : ((shmid.toNat : Nat) : Int) = shmid := Int.toNat_of_nonneg h0
      have hreg : region s (shmid.toNat : Nat) = region s shmid :=
        (region_eq_of_toNat rfl).symm
      have hids := proc_ids_close (proc s node) i hi (by omega)
      have hget : (proc_ids (proc s node))[i]? = some shmid := by
        simp only [proc_ids, List.getElem?_map]
        simp only [open_table] at hio
        rw [hio, Option.map_some', hsh]
      have hcnt := fun x => count_eraseIdx_add (proc_ids (proc s node)) i shmid x hget
      have hrefs := (hinv.refs shmid.toNat hlt).1 (by rw [hreg]; exact hu)
      rw [hcast] at hrefs
      rw [shm_close_state hused hidx]
      refine inv_update hinv node shmid.toNat (put_region (region s shmid))
        ⟨(proc s node).nopen - 1,
          close_shift ((proc s node).nopen - 1 - i) i (proc s node).oregions⟩
        hnode ?_ ?_ ?_ ?_ ?_ ?_ ?_ ?_
      · rw [regions_shm_put_setProc, regions_shm_put]
      · rw [procs_shm_put]; rfl
      · simp only [length_close_shift]
        exact ⟨hroom.1, by omega⟩
      · intro hR
        by_cases hc : (region s shmid).refcount - 1 = 0 ∧ (region s shmid).remove = true
        · simp [put_region, hc] at hR
        · simp only [put_region, if_neg hc]
          exact hinv.names _ (by rw [← hreg]; exact region_mem s _ hlt) hu
      · intro x hx
        rw [hids] at hx
        exact Or.inl (mem_of_mem_eraseIdx_int hx)
      · intro x hx
        rw [hids, hcnt x, hcast] at *
        rw [if_neg (fun h => hx h.symm)]
        rfl
      · intro _ hR
        rw [hids, hcast]
        have := hcnt shmid
        rw [if_pos rfl] at this
        by_cases hc : (region s shmid).refcount - 1 = 0 ∧ (region s shmid).remove = true
        · simp [put_region, hc] at hR
        · simp only [put_region, if_neg hc]
          omega
      · intro _ hR
        rw [hids, hcast]
        have := hcnt shmid
        rw [if_pos rfl] at this
        by_cases hc : (region s shmid).refcount - 1 = 0 ∧ (region s shmid).remove = true
        · omega
        · simp only [put_region, if_neg hc] at hR
          rw [hu] at hR
          cases hR
  · have : shm_close s node shmid = (s, -EINVAL) := by simp [shm_close, hused]
    rw [this]
    exact hinv

/-- Rewriting a region slot without touching its `used` flag, its reference
count and its name keeps the tables consistent. -/
theorem inv_setRegion_same {c : Config} {s : State} (hinv : Inv c s) (j : Int) (R : Region)
    (hu : R.used = (region s j).used) (hrc : R.refcount = (region s j).refcount)
    (hn : R.name = (region s j).name) : Inv c (setRegion s j R) := by
  have hreg : region s (j.toNat : Nat) = region s j := (region_eq_of_toNat rfl).symm
  refine inv_update_regions hinv j.toNat R rfl rfl ?_ ?_ ?_
  · intro h
    by_cases hlt : j.toNat < s.regions.length
    · rw [hn]
      exact hinv.names _ (by rw [← hreg]; exact region_mem s _ hlt) (by rw [← hu]; exact h)
    · rw [hn]
      have : region s j = default := by
        simp [region, List.getElem?_eq_none (Nat.le_of_not_lt hlt)]
      rw [hu, this] at h
      cases h
  · intro hlt h
    rw [hrc, ← hreg]
    exact (hinv.refs j.toNat hlt).1 (by rw [hreg, ← hu]; exact h)
  · intro hlt h
    exact (hinv.refs j.toNat hlt).2 (by rw [hreg, ← hu]; exact h)

theorem inv_shm_unlink {c : Config} {s : State} (hinv : Inv c s) (node : Nat) (n : String)
    (hnode : node < c.HAL_NR_NOC_NODES) : Inv c (shm_unlink s node n).1 := by
  cases hl : shm_lookup n s.regions with
  | none => rw [shm_unlink_of_lookup_none node hl]; exact hinv
  | some j =>
    have hpg := inv_put_get hinv hl
    rw [shm_unlink_of_lookup node hl]
    split_ifs
    · exact hpg
    · have hsr : Inv c (shm_set_remove (shm_put (shm_get s n).1 j) j) :=
        inv_setRegion_same hpg j
          { region (shm_put (shm_get s n).1 j) j with remove := true } rfl rfl rfl
      exact inv_shm_close hsr node j hnode

theorem inv_shm_truncate {c : Config} {s : State} (hinv : Inv c s) (node : Nat) (shmid : Int)
    (size : Nat) : Inv c (shm_truncate c s node shmid size).1 := by
  simp only [shm_truncate]
  split_ifs
  · exact hinv
  · exact hinv
  · exact hinv
  · exact hinv
  · exact hinv
  · exact inv_setRegion_same hinv shmid { region s shmid with size := size } rfl rfl rfl

theorem proc_ids_set_flags (p : Proc) (i f : Nat) :
    proc_ids ⟨p.nopen, p.oregions.set i ⟨(p.oregions.getD i default).shmid, f⟩⟩
      = proc_ids p := by
  simp only [proc_ids]
  apply List.ext_getElem?
  intro m
  simp only [List.getElem?_map, List.getElem?_take, List.getElem?_set,
    List.getD_eq_getElem?_getD]
  by_cases hm : m < p.nopen
  · simp only [hm, if_true]
    by_cases him : i = m
    · subst him
      by_cases hl : i < p.oregions.length
      · simp [hl, List.getElem?_eq_getElem hl]
      · simp [hl, List.getElem?_eq_none (Nat.le_of_not_lt hl)]
    · simp [him]
  · simp [hm]

theorem inv_setProc_same_ids {c : Config} {s : State} (hinv : Inv c s) (node : Nat) (P : Proc)
    (hnode : node < c.HAL_NR_NOC_NODES)
    (hP : P.oregions.length = c.SHM_OPEN_MAX ∧ P.nopen ≤ c.SHM_OPEN_MAX)
    (hids : proc_ids P = proc_ids (proc s node)) : Inv c (setProc s node P) := by
  refine inv_update hinv node s.regions.length default P hnode ?_ rfl hP ?_ ?_ ?_ ?_ ?_
  · rw [List.set_eq_of_length_le (Nat.le_refl _)]
    rfl
  · intro h; cases h
  · intro x hx
    rw [hids] at hx
    exact Or.inl hx
  · intro x _
    rw [hids]
  · intro h; omega
  · intro h; omega

theorem inv_shm_map {c : Config} {s : State} (hinv : Inv c s) (node : Nat) (shmid : Int)
    (size : Nat) (writable shared off : Int) (hnode : node < c.HAL_NR_NOC_NODES) :
    Inv c (shm_map s node shmid size writable shared off).1 := by
  have hn : node < s.procs.length := by rw [hinv.procs_len]; exact hnode
  have hroom := hinv.room _ (proc_mem s node hn)
  simp only [shm_map]
  split_ifs
  all_goals
    first
      | exact hinv
      | (apply inv_setProc_same_ids hinv node _ hnode
         · simpa using hroom
         · exact proc_ids_set_flags (proc s node) _ _)

theorem inv_apply_op {c : Config} {s : State} (hinv : Inv c s) (op : Op)
    (hnode : op.node < c.HAL_NR_NOC_NODES) : Inv c (apply_op c s op).1 := by
  cases op with
  | call_open node n => exact inv_shm_open hinv node n hnode
  | call_create node n w m => exact inv_shm_create hinv node n w m hnode
  | call_create_exclusive node n w m => exact inv_shm_create_exclusive hinv node n w m hnode
  | call_close node shmid => exact inv_shm_close hinv node shmid hnode
  | call_unlink node n => exact inv_shm_unlink hinv node n hnode
  | call_truncate node shmid size => exact inv_shm_truncate hinv node shmid size
  | call_map node shmid size w sh off => exact inv_shm_map hinv node shmid size w sh off hnode
  | call_unmap node shmid =>
    simp only [apply_op]
    rw [shm_unmap_state]
    exact hinv

theorem live_ids_startup (c : Config) : live_ids (shm_startup c) = [] := by
  simp only [live_ids, shm_startup]
  induction c.HAL_NR_NOC_NODES with
  | zero => rfl
  | succ k ih => simp [List.replicate_succ, proc_ids, ih]

theorem inv_startup (c : Config) : Inv c (shm_startup c) := by
  constructor
  · simp [shm_startup]
  · intro p hp
    simp only [shm_startup] at hp
    rw [List.eq_of_mem_replicate hp]
    simp
  · intro r hr
    simp only [shm_startup] at hr
    rw [List.eq_of_mem_replicate hr]
    intro h
    cases h
  · intro x hx
    rw [live_ids_startup] at hx
    cases hx
  · intro id _
    rw [live_ids_startup]
    constructor
    · intro h
      have : region (shm_startup c) id = default := by
        simp only [region, shm_startup, List.getD_eq_getElem?_getD, Int.toNat_ofNat]
        by_cases hlt : id < c.SHM_MAX
        · simp [List.getElem?_replicate, hlt]
        · simp [List.getElem?_replicate, hlt]
      rw [this] at h
      cases h
    · intro _
      rfl

/-- Every state that the server reaches has consistent tables. -/
theorem inv_of_reachable {c : Config} {s : State} (h : Reachable c s) : Inv c s := by
  induction h with
  | start => exact inv_startup c
  | step op _ hnode ih => exact inv_apply_op ih op hnode

theorem reachable_run_ops {c : Config} {s : State} (h : Reachable c s) (ops : List Op)
    (hops : ∀ op ∈ ops, op.node < c.HAL_NR_NOC_NODES) : Reachable c (run_ops c s ops) := by
  induction ops using List.reverseRecOn with
  | nil => exact h
  | append_singleton ops op ih =>
    rw [run_ops_append_one]
    exact Reachable.step op (ih (fun o ho => hops o (List.mem_append_left _ ho)))
      (hops op (by simp))

/-- In consistent tables a region that some node holds open is in use and
has a positive reference count. -/
theorem refcount_pos_of_held {c : Config} {s : State} (hinv : Inv c s) {node id : Nat}
    (hnode : node < c.HAL_NR_NOC_NODES) (hheld : (id : Int) ∈ proc_ids (proc s node)) :
    (region s id).used = true ∧ 0 < (region s id).refcount := by
  have hn : node < s.procs.length := by rw [hinv.procs_len]; exact hnode
  have hlive : (id : Int) ∈ live_ids s := proc_ids_mem_live hn hheld
  have hid : id < s.regions.length := by simpa using (hinv.ids _ hlive).2
  have hpos : 0 < (live_ids s).count (id : Int) := List.count_pos_iff.2 hlive
  have hrefs := hinv.refs id hid
  cases hu : (region s id).used with
  | false =>
    have := hrefs.2 hu
    omega
  | true =>
    have := hrefs.1 hu
    exact ⟨rfl, by omega⟩

/-- The state `s_shared` is reached by a create of node 0 and an open of node
1. -/
theorem reachable_s_shared : Reachable cfg0 s_shared :=
  Reachable.step (Op.call_open 1 "R")
    (Reachable.step (Op.call_create 0 "R" 1 384) Reachable.start (by decide)) (by decide)

/-! # The claims -/

/-- Claim C1 (SHM ownership, I6): in every state that the server reaches,
when `name` resolves to a region owned by node `A`, `shm_unlink` by any other
node `B` returns `-EPERM`; and once `shm_unlink(A, name)` has returned 0 while
some node still holds the region open, `shm_open(node, name)` returns `-EAGAIN`
for every node, and changes nothing, after any sequence of calls as long as
the region has been held open by some node all along, that is until the last
reference is closed. -/
theorem shm_ownership (c : Config) (s : State) (name : String) (A B : Nat) (id : Nat)
    (hreach : Reachable c s) (hA : A < c.HAL_NR_NOC_NODES)
    (hl : shm_lookup name s.regions = some id)
    (hown : (region s id).owner = (A : Int)) (hAB : A ≠ B) :
    (shm_unlink s B name).2 = -EPERM ∧
    ∀ s1, shm_unlink s A name = (s1, 0) →
      ∀ ops : List Op, (∀ op ∈ ops, op.node < c.HAL_NR_NOC_NODES) →
        (∀ k, k ≤ ops.length → ∃ n, n < c.HAL_NR_NOC_NODES ∧
          (id : Int) ∈ proc_ids (proc (run_ops c s1 (ops.take k)) n)) →
        ∀ node, shm_open c (run_ops c s1 ops) node name = (run_ops c s1 ops, -EAGAIN) := by
  constructor
  · rw [shm_unlink_not_owner B hl (by rw [hown]; exact_mod_cast hAB)]
  · intro s1 hu ops hops hheld node
    have hv : shm_name_is_valid c name = true := by
      have hinv := inv_of_reachable hreach
      have hr := shm_lookup_region hl
      rw [← hr.2]
      exact hinv.names _ (region_mem s id (shm_lookup_lt hl)) hr.1
    have hreach1 : Reachable c s1 := by
      have := Reachable.step (Op.call_unlink A name) hreach hA
      simp only [apply_op, hu] at this
      exact this
    have href : ∀ k, k ≤ ops.length →
        0 < (region (run_ops c s1 (ops.take k)) id).refcount := by
      intro k hk
      obtain ⟨n, hn, hmem⟩ := hheld k hk
      have hr := reachable_run_ops hreach1 (ops.take k)
        (fun o ho => hops o (List.mem_of_mem_take ho))
      exact (refcount_pos_of_held (inv_of_reachable hr) hn hmem).2
    have h0 := href 0 (Nat.zero_le _)
    rw [List.take_zero] at h0
    have hrp : RemovePending name id s1 := removePending_of_unlink A hl hu h0
    have hfin := href ops.length (Nat.le_refl _)
    rw [List.take_length] at hfin
    exact shm_open_remove_pending c node (removePending_run_ops c ops hrp href) hfin hv

/-- Witness of C1 on the small server: node 0 owns `"R"`, node 1 holds it
open; the unlink by node 1 is refused, and after the unlink by node 0 and a
further open attempt by node 2, node 2 still gets `-EAGAIN`. -/
theorem shm_ownership_witness :
    (shm_unlink s_shared 1 "R").2 = -EPERM ∧
    shm_open cfg0 (run_ops cfg0 s_unlinked [Op.call_open 2 "R"]) 2 "R"
      = (run_ops cfg0 s_unlinked [Op.call_open 2 "R"], -EAGAIN) :=
  ⟨(shm_ownership cfg0 s_shared "R" 0 1 0 reachable_s_shared (by decide) (by decide)
      (by decide) (by decide)).1,
   (shm_ownership cfg0 s_shared "R" 0 1 0 reachable_s_shared (by decide) (by decide)
      (by decide) (by decide)).2
      s_unlinked (by decide) [Op.call_open 2 "R"] (by decide)
      (fun k hk => ⟨1, by decide, by
        have : k = 0 ∨ k = 1 := by simp at hk; omega
        rcases this with rfl | rfl <;> decide⟩) 2⟩

/-- Counterexample to C2 as stated: on the small server the round trip
`create; close; open; close` of node 0 succeeds, but the following
`shm_unlink` by the creator returns `-EACCES`, not 0. -/
theorem round_trip_unlink_fails :
    shm_name_is_valid cfg0 "R" = true ∧
    (round_trip cfg0 0 "R" 1 384).take 5 = [0, 0, 0, 0, -EACCES] ∧
    -EACCES ≠ 0 := by
  decide

/-- Claim C2 (amended): on a freshly started server, for every valid name and
every node, `create(name); close; open(name); close` succeeds at every step
(each call returns 0, the identifier of the region being 0); the following
`shm_unlink` by the creator, which holds no open entry any more, returns
`-EACCES` and a second `shm_unlink` fails as well; when the creator unlinks
while it still has the region open (`create; close; open; unlink`) the unlink
returns 0, once, and a second unlink fails with `-EINVAL`. -/
theorem shm_round_trip (c : Config) (node : Nat) (name : String) (writable : Int) (mode : Nat)
    (hname : shm_name_is_valid c name = true) (hnode : node < c.HAL_NR_NOC_NODES)
    (hmax : 0 < c.SHM_MAX) (hopen : 0 < c.SHM_OPEN_MAX) :
    (∃ r, r < 0 ∧ round_trip c node name writable mode = [0, 0, 0, 0, -EACCES, r]) ∧
    unlink_while_open c node name writable mode = [0, 0, 0, 0, -EINVAL] := by
  constructor
  · refine ⟨-EINVAL, by decide, ?_⟩
    simp only [round_trip,
      round_trip_step_create c node name writable mode hname hnode hmax hopen,
      round_trip_step_close c node name mode _ 1 hnode rfl,
      round_trip_step_open c node name mode _ hname hnode hopen,
      round_trip_step_unlink_closed c node name mode _ hnode,
      round_trip_step_unlink_again c node name mode _]
  · simp only [unlink_while_open,
      round_trip_step_create c node name writable mode hname hnode hmax hopen,
      round_trip_step_close c node name mode _ 1 hnode rfl,
      round_trip_step_open c node name mode _ hname hnode hopen,
      round_trip_step_unlink_open c node name mode _ hnode,
      round_trip_step_unlink_gone c node name mode _]

/-- Witness of C2 (amended) on the small server, node 1 and the name
`"R"`. -/
theorem shm_round_trip_witness :
    (∃ r, r < 0 ∧ round_trip cfg0 1 "R" 1 384 = [0, 0, 0, 0, -EACCES, r]) ∧
    unlink_while_open cfg0 1 "R" 1 384 = [0, 0, 0, 0, -EINVAL] :=
  shm_round_trip cfg0 1 "R" 1 384 (by decide) (by decide) (by decide) (by decide)

/-- Counterexample to C3 as stated: node 0 has region 0 open writable, node 1
has it mapped, and `shm_truncate` by node 0 with a size below `RMEM_SIZE`
returns 0 and changes the size of the region from 0 to 16. -/
theorem truncate_ignores_foreign_mapping :
    shm_is_used s_mapped_by_1 0 = true
    ∧ shm_is_opened s_mapped_by_1 0 0 = 0
    ∧ (oregion s_mapped_by_1 0 0).flags &&& SHM_WRITE ≠ 0
    ∧ shm_is_opened s_mapped_by_1 1 0 = 0
    ∧ (oregion s_mapped_by_1 1 0).flags &&& SHM_MAPPED ≠ 0
    ∧ 16 ≤ cfg0.RMEM_SIZE
    ∧ (shm_truncate cfg0 s_mapped_by_1 0 0 16).2 = 0
    ∧ shm_get_size s_mapped_by_1 0 = 0
    ∧ shm_get_size (shm_truncate cfg0 s_mapped_by_1 0 0 16).1 0 = 16 := by
  decide

/-- Claim C3 (amended): for every region in use and every node `N` whose
entry for the region (the first one, found by `shm_is_opened`) is writable and
has `SHM_MAPPED` set, that is when `N` itself has the region mapped,
`shm_truncate(N, shmid, size)` with `size <= RMEM_SIZE` returns `-EBUSY` and
leaves the whole state, the size of the region included, unchanged. -/
theorem shm_truncate_busy (c : Config) (s : State) (node : Nat) (shmid : Int) (size i : Nat)
    (hsize : size ≤ c.RMEM_SIZE) (hused : shm_is_used s shmid = true)
    (hopen : shm_is_opened s node shmid = (i : Int))
    (hw : (oregion s node i).flags &&& SHM_WRITE ≠ 0)
    (hm : (oregion s node i).flags &&& SHM_MAPPED ≠ 0) :
    shm_truncate c s node shmid size = (s, -EBUSY) := by
  simp only [shm_truncate, hopen, hused]
  simp [Nat.not_lt.mpr hsize, hw, hm]

/-- Witness of C3 (amended): node 0 has mapped its own region. -/
theorem shm_truncate_busy_witness : shm_truncate cfg0 s_mapped 0 0 16 = (s_mapped, -EBUSY) :=
  shm_truncate_busy cfg0 s_mapped 0 0 16 0 (by decide) (by decide) (by decide) (by decide)
    (by decide)

/-- Claim C4 (the code departs from it): node 0 creates `"R"`, maps it
(`shm_map` returns 0) and unmaps it (`shm_unmap` returns 0); the entry of the
node still has `SHM_MAPPED` set afterwards, a second `shm_unmap` returns 0
again instead of `-EINVAL`, and `shm_truncate` by that node fails with
`-EBUSY`. -/
theorem shm_unmap_keeps_mapped_flag :
    (shm_create cfg0 (shm_startup cfg0) 0 "R" 1 384).2 = 0
    ∧ (shm_map s_created 0 0 0 0 1 0).2.ret = 0
    ∧ shm_unmap s_mapped 0 0 = (s_mapped, 0)
    ∧ (oregion (shm_unmap s_mapped 0 0).1 0 0).flags &&& SHM_MAPPED ≠ 0
    ∧ (shm_unmap (shm_unmap s_mapped 0 0).1 0 0).2 = 0
    ∧ (shm_truncate cfg0 (shm_unmap s_mapped 0 0).1 0 0 16).2 = -EBUSY := by
  decide

/-- Counterexample to C5 as stated: region 0 has size 0 and is open by node
0; `shm_map` with `size = 1` and `off = 0` has `off + size > region.size`,
yet it fails with `-ENOMEM`, not with `-ENXIO`. -/
theorem shm_map_oversize_is_enomem :
    shm_is_used s_created 0 = true
    ∧ shm_is_opened s_created 0 0 = 0
    ∧ (0 : Int) + 1 > (shm_get_size s_created 0 : Int)
    ∧ (shm_map s_created 0 0 1 0 0 0).2.ret = -ENOMEM
    ∧ (shm_map s_created 0 0 1 0 0 0).2.ret ≠ - ENXIO := by
  decide

/-- Claim C5 (amended): for every node that has opened a region in use (whose
size is a `size_t`), `shm_map` fails with `-ENOMEM` whenever
`size > region.size`; it fails with `-ENXIO` whenever `size <= region.size`
and `off + size > region.size`; and whenever it returns 0 the stored `mapblk`
is `region.base + off` in 64-bit unsigned arithmetic, which is the exact sum
when `off` is not negative and the sum fits. -/
theorem shm_map_range_and_result (s : State) (node : Nat) (shmid : Int) (size : Nat)
    (writable shared off : Int) (i : Nat)
    (hused : shm_is_used s shmid = true)
    (hopen : shm_is_opened s node shmid = (i : Int))
    (hrs : shm_get_size s shmid < 2 ^ 32) :
    (size > shm_get_size s shmid →
      shm_map s node shmid size writable shared off = (s, ⟨-ENOMEM, none⟩)) ∧
    (size ≤ shm_get_size s shmid → off + (size : Int) > (shm_get_size s shmid : Int) →
      shm_map s node shmid size writable shared off = (s, ⟨- ENXIO, none⟩)) ∧
    ((shm_map s node shmid size writable shared off).2.ret = 0 →
      (shm_map s node shmid size writable shared off).2.mapblk
        = some (((shm_get_base s shmid : Int) + off) % 2 ^ 64).toNat) ∧
    ((shm_map s node shmid size writable shared off).2.ret = 0 → 0 ≤ off →
      (shm_get_base s shmid : Int) + off < 2 ^ 64 →
      (shm_map s node shmid size writable shared off).2.mapblk
        = some (shm_get_base s shmid + off.toNat)) := by
  have hnot : ¬ ((i : Int) < 0) := by omega
  have key : (shm_map s node shmid size writable shared off).2.ret = 0 →
      (shm_map s node shmid size writable shared off).2.mapblk
        = some (((shm_get_base s shmid : Int) + off) % 2 ^ 64).toNat := by
    simp only [shm_map, hused, hopen, hnot]
    simp only [Bool.not_true, Bool.false_eq_true, if_false]
    split_ifs <;> simp [ENOMEM, ENXIO, EACCES]
  refine ⟨?_, ?_, key, ?_⟩
  · intro h
    simp [shm_map, hused, hopen, hnot, h]
  · intro h1 h2
    have h1' : ¬ size > shm_get_size s shmid := by omega
    simp only [shm_map, hused, hopen, hnot, h1']
    simp only [Bool.not_true, Bool.false_eq_true, if_false]
    by_cases h3 : off > off_t_of_size_t (shm_get_size s shmid)
    · rw [if_pos h3]
    · rw [if_neg h3]
      have h4 : off_plus_size off size > shm_get_size s shmid := by
        simp only [off_t_of_size_t, Int.bmod] at h3
        simp only [off_plus_size]
        norm_num at h3 hrs ⊢
        split_ifs at h3 <;> omega
      rw [if_pos h4]
  · intro hret hoff hlt
    rw [key hret]
    congr 1
    have : ((shm_get_base s shmid : Int) + off) % 2 ^ 64 = (shm_get_base s shmid : Int) + off := by
      apply Int.emod_eq_of_lt <;> omega
    rw [this]
    omega

/-- Witness of C5 (amended): the region of node 0 has 16 bytes; a mapping of
8 bytes at offset 12 is refused with `-ENXIO`, one at offset 4 stores
`region.base + 4`. -/
theorem shm_map_range_and_result_witness :
    shm_map s_truncated 0 0 8 1 1 12 = (s_truncated, ⟨- ENXIO, none⟩) ∧
    (shm_map s_truncated 0 0 8 1 1 4).2.mapblk
      = some (shm_get_base s_truncated 0 + (4 : Int).toNat) :=
  ⟨(shm_map_range_and_result s_truncated 0 0 8 1 1 12 0 (by decide) (by decide)
      (by decide)).2.1 (by decide) (by decide),
   (shm_map_range_and_result s_truncated 0 0 8 1 1 4 0 (by decide) (by decide)
      (by decide)).2.2.2 (by decide) (by decide) (by decide)⟩

/-- Claim C6 (the code departs from it): node 0 created `"R"` read-only and
mapped it read-only, so its entry lacks `SHM_WRITE` and has `SHM_MAPPED`;
`shm_map` with `writable = 1` and the in-range `(size, off) = (0, 0)` then
returns 0 and stores a block instead of failing with `-EACCES`. -/
theorem shm_map_writable_on_read_only :
    shm_is_used s_ro_mapped 0 = true
    ∧ shm_is_opened s_ro_mapped 0 0 = 0
    ∧ (oregion s_ro_mapped 0 0).flags &&& SHM_WRITE = 0
    ∧ (oregion s_ro_mapped 0 0).flags &&& SHM_MAPPED ≠ 0
    ∧ (shm_map s_ro_mapped 0 0 0 1 0 0).2 = ⟨0, some 0⟩ := by
  decide

/-- Claim C7 (the code departs from it): after the two frames of a `CREATE`
request for the fresh name `"R"` with `(mode, rw) = (0600, 0)` the entry of the
creator has `SHM_WRITE` set and the mode of the region is 0; with
`(mode, rw) = (0, 1)` the entry lacks `SHM_WRITE` and the mode is 1: `do_create`
hands `mode` to the `writable` parameter of `shm_create` and `rw` to its `mode`
parameter.  The same frames sent as `CREATE_EXCL` give `SHM_WRITE` clear and
mode 0600, since `shm_create_exclusive` swaps the two once more. -/
theorem do_create_swaps_mode_and_rw :
    (oregion (after_two_frames Opcode.SHM_CREATE 384 0) 0 0).flags &&& SHM_WRITE ≠ 0
    ∧ (region (after_two_frames Opcode.SHM_CREATE 384 0) 0).mode = 0
    ∧ (oregion (after_two_frames Opcode.SHM_CREATE 0 1) 0 0).flags &&& SHM_WRITE = 0
    ∧ (region (after_two_frames Opcode.SHM_CREATE 0 1) 0).mode = 1
    ∧ (oregion (after_two_frames Opcode.SHM_CREATE_EXCL 384 0) 0 0).flags &&& SHM_WRITE = 0
    ∧ (region (after_two_frames Opcode.SHM_CREATE_EXCL 384 0) 0).mode = 384 := by
  decide

/-- Claim C8 (exclusive create): for every valid name, `shm_create_exclusive`
returns `-EEXIST` if and only if some region in use bears the name; in that
case the table of processes (every `nopen` and every entry) and the reference
count of the region are unchanged; and for a name that no region bears it
returns what `shm_create` returns, whatever `writable` and `mode` are. -/
theorem shm_create_exclusive_eexist (c : Config) (s : State) (owner : Nat) (name : String)
    (writable : Int) (mode : Nat) (hv : shm_name_is_valid c name = true) :
    ((shm_create_exclusive c s owner name writable mode).2 = -EEXIST ↔
      ∃ r ∈ s.regions, r.used = true ∧ r.name = name) ∧
    (∀ id, shm_lookup name s.regions = some id →
      (shm_create_exclusive c s owner name writable mode).2 = -EEXIST ∧
      (shm_create_exclusive c s owner name writable mode).1.procs = s.procs ∧
      (region (shm_create_exclusive c s owner name writable mode).1 id).refcount
        = (region s id).refcount) ∧
    ((¬ ∃ r ∈ s.regions, r.used = true ∧ r.name = name) →
      ∀ w m, (shm_create_exclusive c s owner name writable mode).2
        = (shm_create c s owner name w m).2) := by
  have hsome : ∀ id, shm_lookup name s.regions = some id →
      shm_create_exclusive c s owner name writable mode
        = (shm_put (shm_get s name).1 id, -EEXIST) := by
    intro id h
    simp only [shm_create_exclusive, hv, shm_get_of_lookup h]
    simp
  have hnone : shm_lookup name s.regions = none →
      shm_create_exclusive c s owner name writable mode
        = shm_create c s owner name (int_of_mode_t mode) (mode_t_of_int writable) := by
    intro h
    simp only [shm_create_exclusive, hv, shm_get_of_lookup_none h]
    simp
  refine ⟨?_, ?_, ?_⟩
  · cases h : shm_lookup name s.regions with
    | none =>
      have hno := (shm_lookup_eq_none_iff name s.regions).1 h
      rw [hnone h]
      constructor
      · intro he
        rcases shm_create_ret_of_fresh c s owner name (int_of_mode_t mode)
          (mode_t_of_int writable) h with h1 | h1 | h1 | h1
        all_goals (rw [he] at h1; exact absurd h1 (by decide))
      · rintro ⟨r, hr, hu⟩
        exact absurd hu (hno r hr)
    | some id =>
      rw [hsome id h]
      refine ⟨fun _ => ?_, fun _ => rfl⟩
      obtain ⟨⟨r, hr, hu⟩, _⟩ := (shm_lookup_eq_some_iff name s.regions id).1 h
      exact ⟨r, List.getElem?_mem hr, hu⟩
  · intro id h
    rw [hsome id h]
    exact ⟨rfl, shm_put_get_procs h, shm_put_get_refcount h⟩
  · intro hno w m
    have h : shm_lookup name s.regions = none := by
      rw [shm_lookup_eq_none_iff]
      intro r hr hu
      exact hno ⟨r, hr, hu⟩
    rw [hnone h]
    exact shm_create_ret_indep c s owner name _ w _ m

/-- Witness of C8: node 1 asks for the exclusive creation of `"R"`, which
node 0 created before. -/
theorem shm_create_exclusive_eexist_witness :
    (shm_create_exclusive cfg0 s_created 1 "R" 1 384).2 = -EEXIST ∧
    (shm_create_exclusive cfg0 s_created 1 "R" 1 384).1.procs = s_created.procs ∧
    (region (shm_create_exclusive cfg0 s_created 1 "R" 1 384).1 (0 : Nat)).refcount
      = (region s_created (0 : Nat)).refcount :=
  (shm_create_exclusive_eexist cfg0 s_created 1 "R" 1 384 (by decide)).2.1 0 (by decide)

/-- Claim C9 (close): for every node with a well-formed table and every region
in use, `shm_close` returns `-EACCES` and changes nothing if no live entry of
the node holds `shmid`; otherwise, `i` being the first live entry that holds
`shmid`, it returns 0, the live entries afterwards are the former ones with
entry `i` erased (the others keep `shmid`, flags and order), `nopen` is one
less, the tables of the other nodes are untouched and the region table is the
one `shm_put` yields, one reference being released. -/
theorem shm_close_removes_first_entry (s : State) (node : Nat) (shmid : Int)
    (hused : shm_is_used s shmid = true) (hnode : node < s.procs.length)
    (hroom : (proc s node).nopen ≤ (proc s node).oregions.length) :
    ((∀ o ∈ open_table s node, o.shmid ≠ shmid) → shm_close s node shmid = (s, -EACCES)) ∧
    (∀ i o, (open_table s node)[i]? = some o → o.shmid = shmid →
      (∀ j, j < i → ∀ o2, (open_table s node)[j]? = some o2 → o2.shmid ≠ shmid) →
      (shm_close s node shmid).2 = 0 ∧
      open_table (shm_close s node shmid).1 node = (open_table s node).eraseIdx i ∧
      (proc (shm_close s node shmid).1 node).nopen + 1 = (proc s node).nopen ∧
      (proc (shm_close s node shmid).1 node).oregions.length = (proc s node).oregions.length ∧
      (∀ m, m ≠ node → proc (shm_close s node shmid).1 m = proc s m) ∧
      (shm_close s node shmid).1.regions = (shm_put s shmid).regions ∧
      (shm_close s node shmid).1.buffers = s.buffers) := by
  constructor
  · intro hno
    have h := (oregion_index_eq_none_iff shmid (open_table s node)).2 hno
    simp [shm_close, hused, shm_is_opened_of_index_none h]
  · intro i o hio hsh hfirst
    have hidx : oregion_index shmid (open_table s node) = some i :=
      (oregion_index_eq_some_iff shmid _ i).2 ⟨⟨o, hio, hsh⟩, hfirst⟩
    have hop := shm_is_opened_of_index hidx
    have hi : i < (proc s node).nopen := by
      have := (List.getElem?_eq_some.1 hio).1
      simp only [open_table, List.length_take] at this
      omega
    have hnot : ¬ ((i : Int) < 0) := by omega
    have hcl : shm_close s node shmid =
        (shm_put (setProc s node
          ⟨(proc s node).nopen - 1,
            close_shift ((proc s node).nopen - 1 - i) i (proc s node).oregions⟩) shmid, 0) := by
      simp [shm_close, hused, hop, hnot]
    rw [hcl]
    refine ⟨rfl, ?_, ?_, ?_, ?_, ?_, ?_⟩
    · simp only [open_table, proc_shm_put, proc_setProc_same s node _ hnode]
      have e : (proc s node).nopen - 1 = i + ((proc s node).nopen - 1 - i) := by omega
      have e2 : (proc s node).nopen - 1 + 1 = (proc s node).nopen := by omega
      have hk := close_shift_take ((proc s node).nopen - 1 - i) i (proc s node).oregions
        (by omega)
      rw [← e, e2] at hk
      exact hk
    · simp only [proc_shm_put, proc_setProc_same s node _ hnode]
      omega
    · simp only [proc_shm_put, proc_setProc_same s node _ hnode, length_close_shift]
    · intro m hm
      simp only [proc_shm_put]
      exact proc_setProc_ne s node m _ (Ne.symm hm)
    · exact regions_shm_put_setProc s shmid node _
    · rw [buffers_shm_put]
      rfl

/-- Witness of C9: node 0 closes the region it created; node 1, which never
opened it, is refused. -/
theorem shm_close_removes_first_entry_witness :
    shm_close s_created 1 0 = (s_created, -EACCES) ∧
    (shm_close s_created 0 0).2 = 0 ∧
    open_table (shm_close s_created 0 0).1 0 = (open_table s_created 0).eraseIdx 0 :=
  ⟨(shm_close_removes_first_entry s_created 1 0 (by decide) (by decide) (by decide)).1
      (by decide),
   ((shm_close_removes_first_entry s_created 0 0 (by decide) (by decide) (by decide)).2
      0 ⟨0, 1⟩ (by decide) (by decide) (by decide)).1,
   ((shm_close_removes_first_entry s_created 0 0 (by decide) (by decide) (by decide)).2
      0 ⟨0, 1⟩ (by decide) (by decide) (by decide)).2.1⟩

/-- Counterexample to C10 as stated: `shm_unlink` by the non-owner node 1
returns `-EPERM`, and the reply of `do_unlink` carries the status `EPERM`,
which is positive; the reply to an unknown opcode carries `EINVAL`, not
`-EINVAL`. -/
theorem failure_reply_status_is_positive :
    (shm_unlink s_created 1 "R").2 = -EPERM
    ∧ do_unlink s_created unlink_by_1
        = some (s_created, some ⟨Opcode.SHM_FAILURE, 1, Ret.status EPERM⟩)
    ∧ EPERM ≠ -EPERM
    ∧ do_null s_created { unlink_by_1 with opcode := Opcode.other 99 }
        = some (s_created, some ⟨Opcode.SHM_FAILURE, 1, Ret.status EINVAL⟩)
    ∧ EINVAL ≠ -EINVAL := by
  decide

/-- Claim C10 (amended): for every request whose operation fails, that is
returns a negative code `ret = -E`, the reply built by the handler has opcode
`SHM_FAILURE`, the source of the request and the status `-ret = E`, the
positive `errno`; this holds for `do_unlink`, `do_unmap`, `do_truncate`,
`do_map`, and for the second frame of `do_create`, `do_create_excl` and
`do_open`; `do_null` replies `SHM_FAILURE` with status `EINVAL`. -/
theorem failure_reply_carries_errno (c : Config) (s : State) (msg : Message) :
    (∀ s1 ret, shm_unlink s msg.source msg.unlink_name = (s1, ret) → ret < 0 →
      do_unlink s msg = some (s1, some ⟨Opcode.SHM_FAILURE, msg.source, Ret.status (-ret)⟩)
      ∧ 0 < -ret) ∧
    (∀ s1 ret, shm_unmap s msg.source msg.unmap_shmid = (s1, ret) → ret < 0 →
      do_unmap s msg = some (s1, some ⟨Opcode.SHM_FAILURE, msg.source, Ret.status (-ret)⟩)
      ∧ 0 < -ret) ∧
    (∀ s1 ret, shm_truncate c s msg.source msg.truncate_shmid msg.truncate_size = (s1, ret) →
      ret < 0 →
      do_truncate c s msg
        = some (s1, some ⟨Opcode.SHM_FAILURE, msg.source, Ret.status (-ret)⟩)
      ∧ 0 < -ret) ∧
    (∀ s1 ret mapblk,
      shm_map s msg.source msg.map_shmid msg.map_size msg.map_writable msg.map_shared
        msg.map_off = (s1, ⟨ret, mapblk⟩) → ret < 0 →
      do_map s msg = some (s1, some ⟨Opcode.SHM_FAILURE, msg.source, Ret.status (-ret)⟩)
      ∧ 0 < -ret) ∧
    (∀ s1 msg1 s2 ret, msg.seq &&& 1 ≠ 0 → buffer_get s msg.source = (s1, 0, some msg1) →
      msg.seq = (msg1.seq ||| 1) →
      (shm_create c s1 msg.source msg1.create1_name (int_of_mode_t msg.create2_mode)
          (mode_t_of_int msg.create2_rw) = (s2, ret) → ret < 0 →
        do_create c s msg
          = some (s2, some ⟨Opcode.SHM_FAILURE, msg.source, Ret.status (-ret)⟩)) ∧
      (shm_create_exclusive c s1 msg.source msg1.create1_name (int_of_mode_t msg.create2_mode)
          (mode_t_of_int msg.create2_rw) = (s2, ret) → ret < 0 →
        do_create_excl c s msg
          = some (s2, some ⟨Opcode.SHM_FAILURE, msg.source, Ret.status (-ret)⟩)) ∧
      (shm_open c s1 msg.source msg1.create1_name = (s2, ret) → ret < 0 →
        do_open c s msg
          = some (s2, some ⟨Opcode.SHM_FAILURE, msg.source, Ret.status (-ret)⟩))) ∧
    do_null s msg = some (s, some ⟨Opcode.SHM_FAILURE, msg.source, Ret.status EINVAL⟩) ∧
    0 < EINVAL := by
  refine ⟨?_, ?_, ?_, ?_, ?_, rfl, by decide⟩
  · intro s1 ret h hr
    have : ret ≠ 0 := by omega
    simp only [do_unlink, h, reply_status, this, if_false]
    exact ⟨trivial, by omega⟩
  · intro s1 ret h hr
    have : ret ≠ 0 := by omega
    simp only [do_unmap, h, reply_status, this, if_false]
    exact ⟨trivial, by omega⟩
  · intro s1 ret h hr
    have : ret ≠ 0 := by omega
    simp only [do_truncate, h, reply_status, this, if_false]
    exact ⟨trivial, by omega⟩
  · intro s1 ret mapblk h hr
    have : ret ≠ 0 := by omega
    simp only [do_map, h, this, if_false]
    exact ⟨trivial, by omega⟩
  · intro s1 msg1 s2 ret hseq hget hs
    refine ⟨?_, ?_, ?_⟩
    all_goals
      intro h hr
      have h0 : ¬ ret ≥ 0 := by omega
      first
        | simp only [do_create, two_frames, hseq, hget, h, reply_shmid, h0, if_false]
        | simp only [do_create_excl, two_frames, hseq, hget, h, reply_shmid, h0, if_false]
        | simp only [do_open, two_frames, hseq, hget, h, reply_shmid, h0, if_false]
      simp [← hs]

/-- Witness of C10 (amended): the unlink request of the non-owner node 1. -/
theorem failure_reply_carries_errno_witness :
    do_unlink s_created unlink_by_1
      = some (s_created, some ⟨Opcode.SHM_FAILURE, unlink_by_1.source, Ret.status (- -EPERM)⟩)
    ∧ 0 < - -EPERM :=
  (failure_reply_carries_errno cfg0 s_created unlink_by_1).1 s_created (-EPERM)
    (by decide) (by decide)

/-! ## The pending slots and the dispatcher -/

theorem buffers_setProc (s : State) (n : Nat) (p : Proc) :
    (setProc s n p).buffers = s.buffers := rfl

theorem buffers_push_oregion (s : State) (node : Nat) (shmid : Int) (flags : Nat) :
    (push_oregion s node shmid flags).buffers = s.buffers := rfl

theorem buffers_shm_get (s : State) (name : String) :
    (shm_get s name).1.buffers = s.buffers := by
  unfold shm_get
  split <;> simp [buffers_setRegion]

theorem buffers_shm_alloc (s : State) : (shm_alloc s).1.buffers = s.buffers := by
  unfold shm_alloc
  split <;> simp [buffers_setRegion]

theorem buffers_shm_open (c : Config) (s : State) (node : Nat) (name : String) :
    (shm_open c s node name).1.buffers = s.buffers := by
  have hg := buffers_shm_get s name
  simp only [shm_open]
  split_ifs <;>
    simp [buffers_shm_put, buffers_push_oregion, hg]

theorem buffers_shm_create (c : Config) (s : State) (owner : Nat) (name : String)
    (writable : Int) (mode : Nat) :
    (shm_create c s owner name writable mode).1.buffers = s.buffers := by
  have hg := buffers_shm_get s name
  simp only [shm_create]
  split_ifs <;>
    simp [buffers_shm_put, buffers_push_oregion, buffers_shm_open, buffers_shm_alloc,
      shm_set_perm, shm_set_name, shm_set_base, shm_set_size, buffers_setRegion, hg]

theorem buffers_shm_create_exclusive (c : Config) (s : State) (owner : Nat) (name : String)
    (writable : Int) (mode : Nat) :
    (shm_create_exclusive c s owner name writable mode).1.buffers = s.buffers := by
  have hg := buffers_shm_get s name
  simp only [shm_create_exclusive]
  split_ifs <;>
    simp [buffers_shm_put, buffers_shm_create, hg]

theorem regions_buffer_put (s : State) (source : Nat) (msg : Message) :
    (buffer_put s source msg).1.regions = s.regions
    ∧ (buffer_put s source msg).1.procs = s.procs := by
  unfold buffer_put
  split <;> exact ⟨rfl, rfl⟩

theorem regions_buffer_get (s : State) (source : Nat) :
    (buffer_get s source).1.regions = s.regions
    ∧ (buffer_get s source).1.procs = s.procs := by
  unfold buffer_get
  split <;> exact ⟨rfl, rfl⟩

theorem two_frames_first_stored {s : State} {msg : Message}
    (op : State → Message → State × Int) (heven : msg.seq &&& 1 = 0)
    (hlt : msg.source < s.buffers.length) (hfree : s.buffers.getD msg.source none = none) :
    two_frames s msg op
      = some ({ s with buffers := s.buffers.set msg.source (some msg) }, none) := by
  have hc : msg.source < s.buffers.length ∧ s.buffers.getD msg.source none = none :=
    ⟨hlt, hfree⟩
  simp only [two_frames, heven, buffer_put, if_true, if_pos hc]

theorem two_frames_first_occupied {s : State} {msg : Message}
    (op : State → Message → State × Int) (heven : msg.seq &&& 1 = 0)
    (hocc : ¬ (msg.source < s.buffers.length ∧ s.buffers.getD msg.source none = none)) :
    two_frames s msg op = none := by
  have h : (-EINVAL : Int) ≠ 0 := by decide
  simp only [two_frames, heven, buffer_put, if_true, if_neg hocc, if_neg h]

theorem two_frames_second_accepted {s : State} {msg first : Message}
    (op : State → Message → State × Int) (hodd : msg.seq &&& 1 ≠ 0)
    (hpend : s.buffers.getD msg.source none = some first)
    (hseq : msg.seq = (first.seq ||| 1)) :
    two_frames s msg op
      = some ((op { s with buffers := s.buffers.set msg.source none } first).1,
          some (reply_shmid msg.source
            (op { s with buffers := s.buffers.set msg.source none } first).2)) := by
  simp only [two_frames, if_neg hodd, buffer_get, hpend]
  simp [← hseq]

theorem two_frames_second_rejected {s : State} {msg : Message}
    (op : State → Message → State × Int) (hodd : msg.seq &&& 1 ≠ 0)
    (hbad : ∀ first, s.buffers.getD msg.source none = some first →
      msg.seq ≠ (first.seq ||| 1)) :
    two_frames s msg op = none := by
  simp only [two_frames, if_neg hodd, buffer_get]
  cases hpend : s.buffers.getD msg.source none with
  | none => rfl
  | some first =>
    have := hbad first hpend
    simp [this]

/-- Claim C11: for every request with a valid source whose opcode is none of
`CREATE`, `CREATE_EXCL`, `OPEN`, `UNLINK`, `MAP`, `UNMAP`, `TRUNCATE`, one
iteration of `shm_loop` returns the server state unchanged (regions, open
tables and pending slots) together with exactly one reply, addressed to
`request.source`, with opcode `SHM_FAILURE` and status `EINVAL`. -/
theorem unknown_opcode_is_rejected (c : Config) (s : State) (request : Message)
    (hsrc : request.source < c.HAL_NR_NOC_NODES)
    (hop : request.opcode ≠ Opcode.SHM_CREATE ∧ request.opcode ≠ Opcode.SHM_CREATE_EXCL
      ∧ request.opcode ≠ Opcode.SHM_OPEN ∧ request.opcode ≠ Opcode.SHM_UNLINK
      ∧ request.opcode ≠ Opcode.SHM_MAP ∧ request.opcode ≠ Opcode.SHM_UNMAP
      ∧ request.opcode ≠ Opcode.SHM_TRUNCATE) :
    shm_loop_iter c s request
      = some (s, some ⟨Opcode.SHM_FAILURE, request.source, Ret.status EINVAL⟩) := by
  obtain ⟨h1, h2, h3, h4, h5, h6, h7⟩ := hop
  have hs : ¬ request.source ≥ c.HAL_NR_NOC_NODES := by omega
  simp only [shm_loop_iter, if_neg hs]
  cases hopc : request.opcode with
  | SHM_OPEN => exact absurd hopc h3
  | SHM_CREATE => exact absurd hopc h1
  | SHM_CREATE_EXCL => exact absurd hopc h2
  | SHM_UNLINK => exact absurd hopc h4
  | SHM_MAP => exact absurd hopc h5
  | SHM_UNMAP => exact absurd hopc h6
  | SHM_TRUNCATE => exact absurd hopc h7
  | SHM_SUCCESS => rfl
  | SHM_FAILURE => rfl
  | other raw => rfl

/-- Witness of C11: node 1 sends a request with the raw opcode 99 to the
server state `s_created`. -/
theorem unknown_opcode_is_rejected_witness :
    shm_loop_iter cfg0 s_created { unlink_by_1 with opcode := Opcode.other 99 }
      = some (s_created, some ⟨Opcode.SHM_FAILURE, 1, Ret.status EINVAL⟩) :=
  unknown_opcode_is_rejected cfg0 s_created { unlink_by_1 with opcode := Opcode.other 99 }
    (by decide) (by decide)

/-- Claim C12: for each of `do_create`, `do_create_excl` and `do_open`,
(1) a frame with even `seq` whose source has a free pending slot is stored
in that slot, the region and open tables stay as they are and no reply is
produced; (2) a frame with even `seq` whose source has no free slot is
rejected, the assertion on `buffer_put` fails and no operation runs;
(3) a frame with odd `seq` whose source has a pending first frame with
`seq = first.seq | 1` is accepted: a reply is produced and the slot of the
source is empty afterwards; (4) a frame with odd `seq` is accepted only in
that case, any other one fails an assertion before any operation runs. -/
theorem two_phase_open (c : Config) (s : State) (msg : Message)
    (h : State → Message → Option (State × Option Reply))
    (hh : h = do_create c ∨ h = do_create_excl c ∨ h = do_open c) :
    (msg.seq &&& 1 = 0 → msg.source < s.buffers.length →
      s.buffers.getD msg.source none = none →
      h s msg = some ({ s with buffers := s.buffers.set msg.source (some msg) }, none))
    ∧ (msg.seq &&& 1 = 0 →
      ¬ (msg.source < s.buffers.length ∧ s.buffers.getD msg.source none = none) →
      h s msg = none)
    ∧ (msg.seq &&& 1 ≠ 0 → ∀ first, s.buffers.getD msg.source none = some first →
      msg.seq = (first.seq ||| 1) →
      ∃ t reply, h s msg = some (t, some reply) ∧ reply.source = msg.source
        ∧ t.buffers = s.buffers.set msg.source none
        ∧ t.buffers.getD msg.source none = none)
    ∧ (msg.seq &&& 1 ≠ 0 → ∀ r, h s msg = some r →
      ∃ first, s.buffers.getD msg.source none = some first
        ∧ msg.seq = (first.seq ||| 1))
    ∧ (msg.seq &&& 1 ≠ 0 →
      (∀ first, s.buffers.getD msg.source none = some first →
        msg.seq ≠ (first.seq ||| 1)) →
      h s msg = none) := by
  have key : ∃ op : State → Message → State × Int,
      h s msg = two_frames s msg op ∧ ∀ t m, (op t m).1.buffers = t.buffers := by
    rcases hh with hh | hh | hh
    · exact ⟨_, by rw [hh]; rfl, fun t m => buffers_shm_create c t _ _ _ _⟩
    · exact ⟨_, by rw [hh]; rfl, fun t m => buffers_shm_create_exclusive c t _ _ _ _⟩
    · exact ⟨_, by rw [hh]; rfl, fun t m => buffers_shm_open c t _ _⟩
  obtain ⟨op, hop, hbuf⟩ := key
  rw [hop]
  refine ⟨fun he hlt hfree => two_frames_first_stored op he hlt hfree,
    fun he hocc => two_frames_first_occupied op he hocc, ?_, ?_,
    fun ho hbad => two_frames_second_rejected op ho hbad⟩
  · intro ho first hpend hseq
    refine ⟨_, _, two_frames_second_accepted op ho hpend hseq, ?_, ?_, ?_⟩
    · unfold reply_shmid
      split <;> rfl
    · rw [hbuf]
    · rw [hbuf]
      simp only [List.getD_eq_getElem?_getD, List.getElem?_set]
      split_ifs <;> simp_all
  · intro ho r hr
    by_contra hne
    have hbad : ∀ first, s.buffers.getD msg.source none = some first →
        msg.seq ≠ (first.seq ||| 1) := by
      intro first hpend hseq
      exact hne ⟨first, hpend, hseq⟩
    rw [two_frames_second_rejected op ho hbad] at hr
    exact absurd hr (by simp)

/-- Witness of C12: the first frame of a create request of node 0 reaches a
freshly started server. -/
theorem two_phase_open_witness :
    do_create cfg0 (shm_startup cfg0) (frame1 Opcode.SHM_CREATE)
      = some ({ shm_startup cfg0 with
          buffers := (shm_startup cfg0).buffers.set (frame1 Opcode.SHM_CREATE).source
            (some (frame1 Opcode.SHM_CREATE)) }, none) :=
  (two_phase_open cfg0 (shm_startup cfg0) (frame1 Opcode.SHM_CREATE) (do_create cfg0)
    (Or.inl rfl)).1 (by decide) (by decide) (by decide)

/-- Claim C24 on a failing input: node 0 creates `"R"` writable and
truncates it to 16 bytes (base 0), then calls `shm_map` with `size = 16` and
`off = -16`.  The guards pass, because `-16` is not greater than the size
and `off + size` is 0, and the call returns 0 with `mapblk = base + off`,
which is `2^64 - 16` in the 64-bit unsigned arithmetic of `mapblk`: the
offset is negative and the block lies outside `[base, base + size]`. -/
theorem shm_map_negative_offset :
    (region s_truncated 0).size = 16
    ∧ shm_get_base s_truncated 0 = 0
    ∧ (shm_map s_truncated 0 0 16 0 0 (-16)).2 = ⟨0, some (2 ^ 64 - 16)⟩
    ∧ ¬ ((0 : Int) ≤ -16)
    ∧ ¬ (2 ^ 64 - 16 ≤ shm_get_base s_truncated 0 + (region s_truncated 0).size) := by
  decide

/-! ## The open tables under calls -/

theorem procs_shm_get (s : State) (name : String) : (shm_get s name).1.procs = s.procs := by
  unfold shm_get
  split <;> rfl

theorem procs_shm_alloc (s : State) : (shm_alloc s).1.procs = s.procs := by
  unfold shm_alloc
  split <;> rfl

theorem proc_shm_get (s : State) (name : String) (n : Nat) :
    proc (shm_get s name).1 n = proc s n := by
  simp only [proc, procs_shm_get]

theorem proc_push_oregion (s : State) (node : Nat) (shmid : Int) (flags : Nat) (m : Nat)
    (h : node < s.procs.length) :
    (proc (push_oregion s node shmid flags) m).nopen
      = if m = node then (proc s m).nopen + 1 else (proc s m).nopen := by
  unfold push_oregion
  by_cases hm : m = node
  · subst hm
    rw [proc_setProc_same _ _ _ h, if_pos rfl]
  · rw [proc_setProc_ne _ _ _ _ (Ne.symm hm), if_neg hm]

/-- The effect of `shm_open` on `nopen`, and the room that a successful call
found. -/
theorem nopen_shm_open (c : Config) (s : State) (node : Nat) (name : String)
    (h : node < s.procs.length) :
    (∀ m, (proc (shm_open c s node name).1 m).nopen
      = if m = node ∧ (shm_open c s node name).2 ≥ 0 then (proc s m).nopen + 1
        else (proc s m).nopen)
    ∧ ((shm_open c s node name).2 ≥ 0 → (proc s node).nopen < c.SHM_OPEN_MAX)
    ∧ (shm_open c s node name).1.procs.length = s.procs.length := by
  have hg := proc_shm_get s name
  have hgl : (shm_get s name).1.procs.length = s.procs.length := by rw [procs_shm_get]
  have hneg : ∀ e : Int, e = EINVAL ∨ e = EAGAIN ∨ e = ENFILE → ¬ (-e ≥ 0) := by
    intro e he
    rcases he with he | he | he <;> subst he <;> decide
  simp only [shm_open]
  split_ifs with h1 h2 h3 h4
  · simp [hneg EINVAL (Or.inl rfl)]
  · simp [hneg EINVAL (Or.inl rfl), hg, procs_shm_get]
  · simp [hneg EAGAIN (Or.inr (Or.inl rfl)), proc_shm_put, hg, procs_shm_put, procs_shm_get]
  · simp [hneg ENFILE (Or.inr (Or.inr rfl)), proc_shm_put, hg, procs_shm_put, procs_shm_get]
  · have hret : (shm_get s name).2 ≥ 0 := by omega
    refine ⟨?_, ?_, ?_⟩
    · intro m
      rw [proc_push_oregion _ _ _ _ _ (by rw [hgl]; exact h), hg]
      simp [hret]
    · intro _
      rw [hg] at h4
      omega
    · simp [procs_push_oregion, procs_shm_get]

theorem proc_shm_alloc (s : State) (n : Nat) : proc (shm_alloc s).1 n = proc s n := by
  simp only [proc, procs_shm_alloc]

theorem nopen_shm_create (c : Config) (s : State) (node : Nat) (name : String)
    (writable : Int) (mode : Nat) (h : node < s.procs.length) :
    (∀ m, (proc (shm_create c s node name writable mode).1 m).nopen
      = if m = node ∧ (shm_create c s node name writable mode).2 ≥ 0 then (proc s m).nopen + 1
        else (proc s m).nopen)
    ∧ ((shm_create c s node name writable mode).2 ≥ 0 →
      (proc s node).nopen < c.SHM_OPEN_MAX)
    ∧ (shm_create c s node name writable mode).1.procs.length = s.procs.length := by
  have hg := proc_shm_get s name
  have hgl : (shm_get s name).1.procs.length = s.procs.length := by rw [procs_shm_get]
  have hE1 : ¬ (-EINVAL ≥ 0) := by decide
  have hE2 : ¬ (-ENFILE ≥ 0) := by decide
  have hE3 : ¬ (-EAGAIN ≥ 0) := by decide
  simp only [shm_create]
  split_ifs with h1 h2 h3 h4
  · simp [hE1]
  · have hl : node < (shm_put (shm_get s name).1 (shm_get s name).2).procs.length := by
      rw [procs_shm_put, hgl]
      exact h
    have ho := nopen_shm_open c (shm_put (shm_get s name).1 (shm_get s name).2) node name hl
    simp only [proc_shm_put, hg, procs_shm_put, hgl] at ho
    exact ho
  · simp [hE2, hg, procs_shm_get]
  · simp [hE3, proc_shm_alloc, hg, procs_shm_alloc, procs_shm_get]
  all_goals
    have hret : (shm_alloc (shm_get s name).1).2 ≥ 0 := by omega
    refine ⟨?_, ?_, ?_⟩
    · intro m
      rw [proc_push_oregion]
      · simp only [shm_set_size, shm_set_base, shm_set_name, shm_set_perm, proc_setRegion,
          proc_shm_alloc, hg, hret, and_true]
      · simp only [shm_set_size, shm_set_base, shm_set_name, shm_set_perm, procs_setRegion,
          procs_shm_alloc, hgl]
        exact h
    · intro _
      rw [hg] at h3
      omega
    · simp [procs_push_oregion, shm_set_size, shm_set_base, shm_set_name, shm_set_perm,
        procs_setRegion, procs_shm_alloc, procs_shm_get]

theorem nopen_shm_create_exclusive (c : Config) (s : State) (node : Nat) (name : String)
    (writable : Int) (mode : Nat) (h : node < s.procs.length) :
    (∀ m, (proc (shm_create_exclusive c s node name writable mode).1 m).nopen
      = if m = node ∧ (shm_create_exclusive c s node name writable mode).2 ≥ 0 then
          (proc s m).nopen + 1
        else (proc s m).nopen)
    ∧ ((shm_create_exclusive c s node name writable mode).2 ≥ 0 →
      (proc s node).nopen < c.SHM_OPEN_MAX)
    ∧ (shm_create_exclusive c s node name writable mode).1.procs.length
      = s.procs.length := by
  have hg := proc_shm_get s name
  have hgl : (shm_get s name).1.procs.length = s.procs.length := by rw [procs_shm_get]
  have hE1 : ¬ (-EINVAL ≥ 0) := by decide
  have hE2 : ¬ (-EEXIST ≥ 0) := by decide
  simp only [shm_create_exclusive]
  split_ifs with h1 h2
  · simp [hE1]
  · simp [hE2, proc_shm_put, hg, procs_shm_put, procs_shm_get]
  · have hc := nopen_shm_create c (shm_get s name).1 node name (int_of_mode_t mode)
      (mode_t_of_int writable) (by rw [hgl]; exact h)
    simp only [hg, hgl] at hc
    exact hc

theorem shm_is_opened_lt {s : State} {node : Nat} {shmid : Int}
    (h : ¬ shm_is_opened s node shmid < 0) :
    (shm_is_opened s node shmid).toNat < (proc s node).nopen := by
  unfold shm_is_opened at h ⊢
  cases hi : oregion_index shmid ((proc s node).oregions.take (proc s node).nopen) with
  | none =>
    rw [hi] at h
    exact absurd (by decide : (-1 : Int) < 0) h
  | some i =>
    obtain ⟨⟨o, ho, _⟩, _⟩ := (oregion_index_eq_some_iff _ _ _).1 hi
    have hlt : i < ((proc s node).oregions.take (proc s node).nopen).length := by
      by_contra hge
      rw [List.getElem?_eq_none (by omega)] at ho
      exact absurd ho (by simp)
    rw [List.length_take] at hlt
    simp only [Int.toNat_ofNat]
    omega

theorem nopen_shm_close (s : State) (node : Nat) (shmid : Int) (h : node < s.procs.length) :
    (∀ m, (proc (shm_close s node shmid).1 m).nopen + (if m = node ∧ (shm_close s node shmid).2 = 0
        then 1 else 0) = (proc s m).nopen)
    ∧ (shm_close s node shmid).2 ≤ 0
    ∧ (shm_close s node shmid).1.procs.length = s.procs.length := by
  have hE1 : ¬ (-EINVAL = 0) := by decide
  have hE2 : ¬ (-EACCES = 0) := by decide
  simp only [shm_close]
  split_ifs with h1 h2
  · simp only [hE1, and_false, if_false, Nat.add_zero, implies_true, true_and]
    exact ⟨by decide, trivial⟩
  · simp only [hE2, and_false, if_false, Nat.add_zero, implies_true, true_and]
    exact ⟨by decide, trivial⟩
  · have hlt := shm_is_opened_lt h2
    refine ⟨?_, le_refl _, ?_⟩
    · intro m
      rw [proc_shm_put]
      by_cases hm : m = node
      · subst hm
        rw [proc_setProc_same _ _ _ h]
        simp only [and_self, if_true]
        omega
      · rw [proc_setProc_ne _ _ _ _ (Ne.symm hm)]
        simp [hm]
    · simp [procs_shm_put, setProc]

theorem proc_shm_set_remove (s : State) (shmid : Int) (n : Nat) :
    proc (shm_set_remove s shmid) n = proc s n := rfl

theorem nopen_shm_unlink (s : State) (node : Nat) (name : String) (h : node < s.procs.length) :
    (∀ m, (proc (shm_unlink s node name).1 m).nopen
        + (if m = node ∧ (shm_unlink s node name).2 = 0 then 1 else 0) = (proc s m).nopen)
    ∧ (shm_unlink s node name).2 ≤ 0
    ∧ (shm_unlink s node name).1.procs.length = s.procs.length := by
  have hg := proc_shm_get s name
  have hgl : (shm_get s name).1.procs.length = s.procs.length := by rw [procs_shm_get]
  have hE1 : ¬ (-EINVAL = 0) := by decide
  have hE2 : ¬ (-EPERM = 0) := by decide
  simp only [shm_unlink]
  split_ifs with h1 h2
  · simp only [hE1, and_false, if_false, Nat.add_zero, hg, implies_true, true_and, hgl]
    exact ⟨by decide, trivial⟩
  · simp only [hE2, and_false, if_false, Nat.add_zero, proc_shm_put, hg, implies_true,
      true_and, procs_shm_put, hgl]
    exact ⟨by decide, trivial⟩
  · have hl : node < (shm_set_remove (shm_put (shm_get s name).1 (shm_get s name).2)
        (shm_get s name).2).procs.length := by
      simp only [shm_set_remove, procs_setRegion, procs_shm_put, hgl]
      exact h
    have hc := nopen_shm_close _ node (shm_get s name).2 hl
    simp only [proc_shm_set_remove, proc_shm_put, hg] at hc
    refine ⟨hc.1, hc.2.1, ?_⟩
    rw [hc.2.2]
    simp only [shm_set_remove, procs_setRegion, procs_shm_put, hgl]

theorem nopen_shm_truncate (c : Config) (s : State) (node : Nat) (shmid : Int) (size : Nat)
    (m : Nat) : (proc (shm_truncate c s node shmid size).1 m).nopen = (proc s m).nopen := by
  simp only [shm_truncate]
  split_ifs <;> rfl

theorem nopen_shm_map (s : State) (node : Nat) (shmid : Int) (size : Nat)
    (writable shared : Int) (off : Int) (m : Nat) :
    (proc (shm_map s node shmid size writable shared off).1 m).nopen = (proc s m).nopen := by
  simp only [shm_map]
  split_ifs <;> try rfl
  all_goals
    by_cases hm : m = node
    · subst hm
      by_cases hl : m < s.procs.length
      · rw [proc_setProc_same _ _ _ hl]
      · simp only [proc, setProc, List.set_eq_of_length_le (Nat.le_of_not_lt hl)]
    · rw [proc_setProc_ne _ _ _ _ (Ne.symm hm)]

theorem nopen_shm_unmap (s : State) (node : Nat) (shmid : Int) (m : Nat) :
    (proc (shm_unmap s node shmid).1 m).nopen = (proc s m).nopen := by
  simp only [shm_unmap]
  split_ifs <;> rfl

theorem shm_is_opened_accesses_lt {s : State} {node : Nat} {shmid : Int} {i : Nat}
    (h : i ∈ shm_is_opened_accesses s node shmid) : i < (proc s node).nopen := by
  unfold shm_is_opened_accesses at h
  split_ifs at h with h1
  · exact List.mem_range.1 h
  · have := shm_is_opened_lt h1
    have := List.mem_range.1 h
    omega

theorem shm_close_accesses_lt {s : State} {node : Nat} {shmid : Int} {i : Nat}
    (h : i ∈ shm_close_accesses s node shmid) : i < (proc s node).nopen := by
  unfold shm_close_accesses at h
  split_ifs at h with h1 h2
  · exact absurd h (by simp)
  · rw [List.append_nil] at h
    exact shm_is_opened_accesses_lt h
  · rcases List.mem_append.1 h with h | h
    · exact shm_is_opened_accesses_lt h
    · have hlt := shm_is_opened_lt h2
      simp only [List.mem_flatMap, List.mem_range, List.mem_cons, List.mem_singleton,
        List.not_mem_nil, or_false] at h
      obtain ⟨k, hk, hi⟩ := h
      rcases hi with hi | hi <;> omega

theorem found_accesses_lt {s : State} {node : Nat} {shmid : Int} {i : Nat}
    (h : i ∈ shm_is_opened_accesses s node shmid ++
      (if shm_is_opened s node shmid < 0 then [] else [(shm_is_opened s node shmid).toNat])) :
    i < (proc s node).nopen := by
  rcases List.mem_append.1 h with h | h
  · exact shm_is_opened_accesses_lt h
  · split_ifs at h with h1
    · exact absurd h (by simp)
    · have := shm_is_opened_lt h1
      simp only [List.mem_singleton] at h
      omega

theorem nopen_le_of_inv {c : Config} {s : State} (hinv : Inv c s) (node : Nat) :
    (proc s node).nopen ≤ c.SHM_OPEN_MAX := by
  by_cases h : node < s.procs.length
  · exact (hinv.room _ (proc_mem s node h)).2
  · have : proc s node = default := by
      simp [proc, List.getElem?_eq_none (Nat.le_of_not_lt h)]
    rw [this]
    exact Nat.zero_le _

/-- Claim C25: in every state that the server reaches from `shm_startup` by
calls of the eight operations, and for every further call by a valid node:
`nopen` of every node is at most `SHM_OPEN_MAX` (it is a natural number in
the model; the code decrements it only after it found an entry); every
index of `oregions` that the call reads or writes is below `SHM_OPEN_MAX`;
the call leaves `nopen` of every other node alone; `nopen` of the calling
node grows by 1 when `shm_open`, `shm_create` or `shm_create_exclusive`
succeeds, shrinks by 1 when `shm_close` or `shm_unlink` succeeds, and is
unchanged by every failing call and by `shm_truncate`, `shm_map` and
`shm_unmap`. -/
theorem open_table_bound (c : Config) (s : State) (hs : Reachable c s) (op : Op)
    (hop : op.node < c.HAL_NR_NOC_NODES) :
    (∀ node, (proc s node).nopen ≤ c.SHM_OPEN_MAX)
    ∧ (∀ i ∈ oregions_accessed c s op, i < c.SHM_OPEN_MAX)
    ∧ (∀ node, node ≠ op.node →
      (proc (apply_op c s op).1 node).nopen = (proc s node).nopen)
    ∧ (op.opens = true → (apply_op c s op).2 ≥ 0 →
      (proc (apply_op c s op).1 op.node).nopen = (proc s op.node).nopen + 1)
    ∧ (op.closes = true → (apply_op c s op).2 = 0 →
      (proc (apply_op c s op).1 op.node).nopen + 1 = (proc s op.node).nopen)
    ∧ ((apply_op c s op).2 < 0 →
      (proc (apply_op c s op).1 op.node).nopen = (proc s op.node).nopen)
    ∧ (op.opens = false → op.closes = false →
      (proc (apply_op c s op).1 op.node).nopen = (proc s op.node).nopen) := by
  have hinv := inv_of_reachable hs
  have hlen : op.node < s.procs.length := by
    rw [hinv.procs_len]
    exact hop
  have hle := nopen_le_of_inv hinv
  refine ⟨hle, ?_, ?_⟩
  · intro i hi
    cases op with
    | call_open node name =>
      simp only [oregions_accessed] at hi
      split_ifs at hi with h1
      · have := (nopen_shm_open c s node name hlen).2.1 h1
        simp only [List.mem_singleton] at hi
        omega
      · exact absurd hi (by simp)
    | call_create node name writable mode =>
      simp only [oregions_accessed] at hi
      split_ifs at hi with h1
      · have := (nopen_shm_create c s node name writable mode hlen).2.1 h1
        simp only [List.mem_singleton] at hi
        omega
      · exact absurd hi (by simp)
    | call_create_exclusive node name writable mode =>
      simp only [oregions_accessed] at hi
      split_ifs at hi with h1
      · have := (nopen_shm_create_exclusive c s node name writable mode hlen).2.1 h1
        simp only [List.mem_singleton] at hi
        omega
      · exact absurd hi (by simp)
    | call_close node shmid =>
      have := shm_close_accesses_lt hi
      have := hle node
      omega
    | call_unlink node name =>
      simp only [oregions_accessed] at hi
      split_ifs at hi with h1 h2
      · exact absurd hi (by simp)
      · exact absurd hi (by simp)
      · have := shm_close_accesses_lt hi
        simp only [proc_shm_set_remove, proc_shm_put, proc_shm_get] at this
        have := hle node
        omega
    | call_truncate node shmid size =>
      simp only [oregions_accessed] at hi
      split_ifs at hi with h1 h2 h3
      · exact absurd hi (List.not_mem_nil _)
      · exact absurd hi (List.not_mem_nil _)
      · rw [List.append_nil] at hi
        have := shm_is_opened_accesses_lt hi
        have := hle node
        omega
      · have hi2 : i ∈ shm_is_opened_accesses s node shmid ++
            (if shm_is_opened s node shmid < 0 then []
            else [(shm_is_opened s node shmid).toNat]) := by
          rw [if_neg h3]
          exact hi
        have := found_accesses_lt hi2
        have := hle node
        omega
    | call_map node shmid size writable shared off =>
      simp only [oregions_accessed] at hi
      split_ifs at hi with h1 h3
      · exact absurd hi (List.not_mem_nil _)
      · rw [List.append_nil] at hi
        have := shm_is_opened_accesses_lt hi
        have := hle node
        omega
      · have hi2 : i ∈ shm_is_opened_accesses s node shmid ++
            (if shm_is_opened s node shmid < 0 then []
            else [(shm_is_opened s node shmid).toNat]) := by
          rw [if_neg h3]
          exact hi
        have := found_accesses_lt hi2
        have := hle node
        omega
    | call_unmap node shmid =>
      simp only [oregions_accessed] at hi
      split_ifs at hi with h1 h3
      · exact absurd hi (List.not_mem_nil _)
      · rw [List.append_nil] at hi
        have := shm_is_opened_accesses_lt hi
        have := hle node
        omega
      · have hi2 : i ∈ shm_is_opened_accesses s node shmid ++
            (if shm_is_opened s node shmid < 0 then []
            else [(shm_is_opened s node shmid).toNat]) := by
          rw [if_neg h3]
          exact hi
        have := found_accesses_lt hi2
        have := hle node
        omega
  · cases op with
    | call_open node name =>
      have h := (nopen_shm_open c s node name hlen).1
      simp only [apply_op, Op.node, Op.opens, Op.closes]
      refine ⟨?_, ?_, ?_, ?_, ?_⟩
      · intro m hm
        rw [h m]
        simp [hm]
      · intro _ hr
        rw [h node]
        simp [hr]
      · intro hc
        exact absurd hc (by simp)
      · intro hr
        rw [h node]
        have : ¬ (shm_open c s node name).2 ≥ 0 := by omega
        simp [this]
      · intro hc
        exact absurd hc (by simp)
    | call_create node name writable mode =>
      have h := (nopen_shm_create c s node name writable mode hlen).1
      simp only [apply_op, Op.node, Op.opens, Op.closes]
      refine ⟨?_, ?_, ?_, ?_, ?_⟩
      · intro m hm
        rw [h m]
        simp [hm]
      · intro _ hr
        rw [h node]
        simp [hr]
      · intro hc
        exact absurd hc (by simp)
      · intro hr
        rw [h node]
        have : ¬ (shm_create c s node name writable mode).2 ≥ 0 := by omega
        simp [this]
      · intro hc
        exact absurd hc (by simp)
    | call_create_exclusive node name writable mode =>
      have h := (nopen_shm_create_exclusive c s node name writable mode hlen).1
      simp only [apply_op, Op.node, Op.opens, Op.closes]
      refine ⟨?_, ?_, ?_, ?_, ?_⟩
      · intro m hm
        rw [h m]
        simp [hm]
      · intro _ hr
        rw [h node]
        simp [hr]
      · intro hc
        exact absurd hc (by simp)
      · intro hr
        rw [h node]
        have : ¬ (shm_create_exclusive c s node name writable mode).2 ≥ 0 := by omega
        simp [this]
      · intro hc
        exact absurd hc (by simp)
    | call_close node shmid =>
      have h := (nopen_shm_close s node shmid hlen).1
      simp only [apply_op, Op.node, Op.opens, Op.closes]
      refine ⟨?_, ?_, ?_, ?_, ?_⟩
      · intro m hm
        have := h m
        simpa [hm] using this
      · intro hc
        exact absurd hc (by simp)
      · intro _ hr
        have := h node
        simpa [hr] using this
      · intro hr
        have := h node
        have hne : ¬ (shm_close s node shmid).2 = 0 := by omega
        simpa [hne] using this
      · intro _ hc
        exact absurd hc (by simp)
    | call_unlink node name =>
      have h := (nopen_shm_unlink s node name hlen).1
      simp only [apply_op, Op.node, Op.opens, Op.closes]
      refine ⟨?_, ?_, ?_, ?_, ?_⟩
      · intro m hm
        have := h m
        simpa [hm] using this
      · intro hc
        exact absurd hc (by simp)
      · intro _ hr
        have := h node
        simpa [hr] using this
      · intro hr
        have := h node
        have hne : ¬ (shm_unlink s node name).2 = 0 := by omega
        simpa [hne] using this
      · intro _ hc
        exact absurd hc (by simp)
    | call_truncate node shmid size =>
      have h := nopen_shm_truncate c s node shmid size
      simp only [apply_op, Op.node, Op.opens, Op.closes]
      exact ⟨fun m _ => h m, fun hc => absurd hc (by simp), fun hc => absurd hc (by simp),
        fun _ => h node, fun _ _ => h node⟩
    | call_map node shmid size writable shared off =>
      have h := nopen_shm_map s node shmid size writable shared off
      simp only [apply_op, Op.node, Op.opens, Op.closes]
      exact ⟨fun m _ => h m, fun hc => absurd hc (by simp), fun hc => absurd hc (by simp),
        fun _ => h node, fun _ _ => h node⟩
    | call_unmap node shmid =>
      have h := nopen_shm_unmap s node shmid
      simp only [apply_op, Op.node, Op.opens, Op.closes]
      exact ⟨fun m _ => h m, fun hc => absurd hc (by simp), fun hc => absurd hc (by simp),
        fun _ => h node, fun _ _ => h node⟩

/-- Witness of C25: node 0 created `"R"`, node 1 opened it, and node 0
unlinks it; `nopen` of node 0 shrinks by 1. -/
theorem open_table_bound_witness :
    (proc (apply_op cfg0 s_shared (Op.call_unlink 0 "R")).1 (Op.call_unlink 0 "R").node).nopen
      + 1 = (proc s_shared (Op.call_unlink 0 "R").node).nopen :=
  (open_table_bound cfg0 s_shared reachable_s_shared (Op.call_unlink 0 "R")
    (by decide)).2.2.2.2.1 rfl (by decide)

end ShmServer

namespace Mppa

/-! # Properties of the NoC primitives -/

theorem shl1_of_le {k : Int} (h0 : 0 ≤ k) (h1 : k ≤ 30) : shl1 k = 2 ^ k.toNat := by
  unfold shl1
  have hk : k.toNat ≤ 30 := by omega
  have hpow : (2 : Int) ^ k.toNat ≤ 2 ^ 30 := by
    exact_mod_cast Nat.pow_le_pow_right (by decide : 0 < 2) hk
  have hpos : (0 : Int) < 2 ^ k.toNat := by positivity
  generalize (2 : Int) ^ k.toNat = x at hpow hpos ⊢
  rw [Int.bmod_def]
  norm_num at hpow ⊢
  split_ifs <;> omega

theorem to_uint64_two_pow {m : Nat} (h : m < 64) : to_uint64 (2 ^ m) = 2 ^ m := by
  unfold to_uint64
  have hlt : (2 : Nat) ^ m < 2 ^ 64 := Nat.pow_lt_pow_right (by decide : 1 < 2) h
  have hx : ((2 : Int) ^ m) = ((2 ^ m : Nat) : Int) := by push_cast; rfl
  rw [hx]
  generalize (2 : Nat) ^ m = x at hlt ⊢
  norm_num at hlt ⊢
  omega

theorem to_uint64_neg_two_pow {m : Nat} (h : m < 64) :
    to_uint64 (-(2 ^ m)) = 2 ^ 64 - 2 ^ m := by
  unfold to_uint64
  have hlt : (2 : Nat) ^ m < 2 ^ 64 := Nat.pow_lt_pow_right (by decide : 1 < 2) h
  have hpos : 0 < (2 : Nat) ^ m := by positivity
  have hx : ((2 : Int) ^ m) = ((2 ^ m : Nat) : Int) := by push_cast; rfl
  rw [hx]
  generalize (2 : Nat) ^ m = x at hlt hpos ⊢
  norm_num at hlt ⊢
  omega

theorem master_match_mask_eq {k : Int} (h2 : 2 ≤ k) (h31 : k ≤ 31) :
    master_match_mask k = 2 ^ 64 - 2 ^ (k - 1).toNat := by
  unfold master_match_mask
  rw [shl1_of_le (by omega) (by omega)]
  have h : int_not (2 ^ (k - 1).toNat - 1) = -(2 ^ (k - 1).toNat) := by
    unfold int_not
    ring
  rw [h, to_uint64_neg_two_pow (by omega)]

theorem worker_signal_eq {i : Int} (h1 : 1 ≤ i) (h31 : i ≤ 31) :
    worker_signal i = 2 ^ (i - 1).toNat := by
  unfold worker_signal
  rw [shl1_of_le (by omega) (by omega), to_uint64_two_pow (by omega)]

theorem release_mask_eq : release_mask = 2 ^ 64 - 1 := by
  decide

theorem testBit_two_pow_sub_two_pow {m : Nat} (hm : m ≤ 64) (j : Nat) :
    (2 ^ 64 - 2 ^ m).testBit j = (decide (m ≤ j) && decide (j < 64)) := by
  have h : 2 ^ 64 - 2 ^ m = (2 ^ (64 - m) - 1) <<< m := by
    rw [Nat.shiftLeft_eq, Nat.sub_mul, ← pow_add, one_mul]
    congr 2
    omega
  rw [h, Nat.testBit_shiftLeft, Nat.testBit_two_pow_sub_one]
  by_cases hj : m ≤ j
  · have : (j - m < 64 - m) ↔ j < 64 := by omega
    simp [hj, this]
  · simp [hj]

theorem testBit_foldl_or (f : Int → Nat) (S : List Int) (a j : Nat) :
    (S.foldl (fun acc i => acc ||| f i) a).testBit j
      = (a.testBit j || S.any fun i => (f i).testBit j) := by
  induction S generalizing a with
  | nil => simp
  | cons x xs ih =>
    simp only [List.foldl_cons, List.any_cons, ih, Nat.testBit_or, Bool.or_assoc]

theorem testBit_signalled (S : List Int) (j : Nat) :
    (signalled S).testBit j = S.any fun i => (worker_signal i).testBit j := by
  unfold signalled
  rw [testBit_foldl_or]
  simp

theorem eq_all_ones_iff (x : Nat) :
    x = 2 ^ 64 - 1 ↔ ∀ j, x.testBit j = decide (j < 64) := by
  constructor
  · intro h j
    rw [h, Nat.testBit_two_pow_sub_one]
  · intro h
    apply Nat.eq_of_testBit_eq
    intro j
    rw [h, Nat.testBit_two_pow_sub_one]

theorem barrier_fires_iff {k : Int} (h2 : 2 ≤ k) (h31 : k ≤ 31) (S : List Int)
    (hS : ∀ i ∈ S, 1 ≤ i ∧ i ≤ k - 1) :
    master_match_mask k ||| signalled S = 2 ^ 64 - 1
      ↔ ∀ i, 1 ≤ i → i ≤ k - 1 → i ∈ S := by
  rw [eq_all_ones_iff, master_match_mask_eq h2 h31]
  have hm : (k - 1).toNat ≤ 64 := by omega
  have hbit : ∀ i ∈ S, ∀ j, (worker_signal i).testBit j = decide ((i - 1).toNat = j) := by
    intro i hi j
    have := hS i hi
    rw [worker_signal_eq this.1 (by omega), Nat.testBit_two_pow]
  constructor
  · intro h i hi1 hik
    have hj := h (i - 1).toNat
    rw [Nat.testBit_or, testBit_two_pow_sub_two_pow hm, testBit_signalled] at hj
    have h1 : ¬ ((k - 1).toNat ≤ (i - 1).toNat) := by omega
    have h3 : (i - 1).toNat < 64 := by omega
    simp only [h1, h3, decide_False, decide_True, Bool.false_and, Bool.false_or,
      List.any_eq_true] at hj
    obtain ⟨i2, hi2, hb⟩ := hj
    rw [hbit i2 hi2] at hb
    have hi2b := hS i2 hi2
    have : i2 = i := by
      have := of_decide_eq_true hb
      omega
    exact this ▸ hi2
  · intro h j
    rw [Nat.testBit_or, testBit_two_pow_sub_two_pow hm, testBit_signalled]
    by_cases hj : (k - 1).toNat ≤ j
    · by_cases hj64 : j < 64
      · rw [decide_eq_true hj, decide_eq_true hj64]
        rfl
      · have hany : (S.any fun i => (worker_signal i).testBit j) = false := by
          rw [List.any_eq_false]
          intro i hi
          rw [hbit i hi]
          have := hS i hi
          simp only [decide_eq_true_eq]
          omega
        rw [decide_eq_true hj, decide_eq_false hj64, hany]
        rfl
    · have hmem : ((j : Int) + 1) ∈ S := h _ (by omega) (by omega)
      have hany : (S.any fun i => (worker_signal i).testBit j) = true := by
        rw [List.any_eq_true]
        refine ⟨_, hmem, ?_⟩
        rw [hbit _ hmem]
        simp
      have hj64 : j < 64 := by omega
      rw [decide_eq_false hj, decide_eq_true hj64, hany]
      rfl

theorem open_syncs_set_match (env : Env) (bs : List Barrier) (barrierid : Int)
    (local_path : String) (mask : Nat) (remote_path : String)
    (ranks : Option (Int × List Int)) (fd : Int) (m : Nat)
    (h : NocCall.mppa_ioctl_rx_set_match fd m
      ∈ (open_syncs env bs barrierid local_path mask remote_path ranks).2.2) :
    m = mask := by
  rcases ranks with _ | ⟨n, cclusters⟩
  all_goals
    unfold open_syncs at h
    simp only [noc] at h
    split_ifs at h <;> simp at h <;> exact h.2

theorem open_syncs_success (env : Env) (bs : List Barrier) (barrierid : Int)
    (local_path : String) (mask : Nat) (remote_path : String)
    (ranks : Option (Int × List Int)) (r : Int)
    (h : (open_syncs env bs barrierid local_path mask remote_path ranks).1 = some r) :
    ∃ fd, NocCall.mppa_ioctl_rx_set_match fd mask
      ∈ (open_syncs env bs barrierid local_path mask remote_path ranks).2.2 := by
  refine ⟨env [NocCall.mppa_open local_path OFlag.O_RDONLY], ?_⟩
  rcases ranks with _ | ⟨n, cclusters⟩
  all_goals
    unfold open_syncs at h ⊢
    simp only [noc] at h ⊢
    split_ifs at h ⊢
    all_goals simp at h ⊢

theorem write_then_read_calls (env : Env) (b : Barrier) (mask : Nat) :
    (write_then_read env b mask).2 = [NocCall.mppa_write b.remote mask 8]
    ∨ (write_then_read env b mask).2
      = [NocCall.mppa_write b.remote mask 8, NocCall.mppa_read b.local_sync 8] := by
  unfold write_then_read
  simp only [noc]
  split_ifs <;> simp

theorem or_used_and_used (x : Nat) : (x ||| BARRIER_USED) &&& BARRIER_USED ≠ 0 := by
  have h : (x ||| BARRIER_USED) &&& BARRIER_USED = 1 := by
    apply Nat.eq_of_testBit_eq
    intro j
    simp only [BARRIER_USED, Nat.shiftLeft_zero, Nat.testBit_and, Nat.testBit_or]
    cases (1 : Nat).testBit j <;> simp
  rw [h]
  decide

/-- Claim C13: on every table of `NR_BARRIER` barriers, `barrier_alloc`
returns `-ENOENT` if and only if every slot has `BARRIER_USED` set, and then
the table is unchanged; otherwise, with `i` the lowest index of a slot
without `BARRIER_USED`, it returns `i`, sets `BARRIER_USED` in slot `i`
without touching the syncs of that slot, and leaves every other slot
unchanged. -/
theorem barrier_alloc_lowest_free (bs : List Barrier) (hlen : bs.length = NR_BARRIER) :
    ((barrier_alloc bs).1 = -ENOENT
      ↔ ∀ i, i < NR_BARRIER → (bs.getD i default).flags &&& BARRIER_USED ≠ 0)
    ∧ ((∀ i, i < NR_BARRIER → (bs.getD i default).flags &&& BARRIER_USED ≠ 0) →
      (barrier_alloc bs).2 = bs)
    ∧ (∀ i, i < NR_BARRIER → (bs.getD i default).flags &&& BARRIER_USED = 0 →
      (∀ j, j < i → (bs.getD j default).flags &&& BARRIER_USED ≠ 0) →
      (barrier_alloc bs).1 = (i : Int)
      ∧ ((barrier_alloc bs).2.getD i default).flags &&& BARRIER_USED ≠ 0
      ∧ ((barrier_alloc bs).2.getD i default).local_sync = (bs.getD i default).local_sync
      ∧ ((barrier_alloc bs).2.getD i default).remote = (bs.getD i default).remote
      ∧ (barrier_alloc bs).2.length = NR_BARRIER
      ∧ ∀ j, j ≠ i → (barrier_alloc bs).2.getD j default = bs.getD j default) := by
  match bs, hlen with
  | [a, b, c], _ =>
    by_cases ha : a.flags &&& BARRIER_USED = 0
    · refine ⟨?_, ?_, ?_⟩
      · simp only [barrier_alloc, barrier_alloc_loop, NR_BARRIER, List.getD_cons_zero, ha,
          if_true]
        constructor
        · intro h
          exact absurd h (by decide)
        · intro h
          exact absurd ha (h 0 (by decide))
      · intro h
        exact absurd ha (h 0 (by decide))
      · intro i hi hfree hlow
        have hi0 : i = 0 := by
          by_contra hne
          exact hlow 0 (by omega) ha
        subst hi0
        simp only [barrier_alloc, barrier_alloc_loop, NR_BARRIER, List.getD_cons_zero, ha,
          if_true, List.set_cons_zero]
        refine ⟨trivial, or_used_and_used _, trivial, trivial, rfl, ?_⟩
        intro j hj
        cases j with
        | zero => exact absurd rfl hj
        | succ j => rfl
    · by_cases hb : b.flags &&& BARRIER_USED = 0
      · refine ⟨?_, ?_, ?_⟩
        · simp only [barrier_alloc, barrier_alloc_loop, NR_BARRIER, List.getD_cons_zero,
            List.getD_cons_succ, ha, hb, if_true, if_false]
          constructor
          · intro h
            exact absurd h (by decide)
          · intro h
            exact absurd hb (h 1 (by decide))
        · intro h
          exact absurd hb (h 1 (by decide))
        · intro i hi hfree hlow
          have hi1 : i = 1 := by
            by_contra hne
            rcases Nat.lt_or_gt_of_ne hne with h | h
            · have : i = 0 := by omega
              subst this
              exact ha hfree
            · exact hlow 1 h hb
          subst hi1
          simp only [barrier_alloc, barrier_alloc_loop, NR_BARRIER, List.getD_cons_zero,
            List.getD_cons_succ, ha, hb, if_true, if_false, List.set_cons_succ,
            List.set_cons_zero]
          refine ⟨trivial, or_used_and_used _, trivial, trivial, rfl, ?_⟩
          intro j hj
          match j with
          | 0 => rfl
          | 1 => exact absurd rfl hj
          | j + 2 => rfl
      · by_cases hc : c.flags &&& BARRIER_USED = 0
        · refine ⟨?_, ?_, ?_⟩
          · simp only [barrier_alloc, barrier_alloc_loop, NR_BARRIER, List.getD_cons_zero,
              List.getD_cons_succ, ha, hb, hc, if_true, if_false]
            constructor
            · intro h
              exact absurd h (by decide)
            · intro h
              exact absurd hc (h 2 (by decide))
          · intro h
            exact absurd hc (h 2 (by decide))
          · intro i hi hfree hlow
            have hi2 : i = 2 := by
              have hi3 : i < 3 := hi
              by_contra hne
              have : i = 0 ∨ i = 1 := by omega
              rcases this with h | h
              · subst h
                exact ha hfree
              · subst h
                exact hb hfree
            subst hi2
            simp only [barrier_alloc, barrier_alloc_loop, NR_BARRIER, List.getD_cons_zero,
              List.getD_cons_succ, ha, hb, hc, if_true, if_false, List.set_cons_succ,
              List.set_cons_zero]
            refine ⟨trivial, or_used_and_used _, trivial, trivial, rfl, ?_⟩
            intro j hj
            match j with
            | 0 => rfl
            | 1 => rfl
            | 2 => exact absurd rfl hj
            | j + 3 => rfl
        · have hall : ∀ i, i < NR_BARRIER →
              (([a, b, c] : List Barrier).getD i default).flags &&& BARRIER_USED ≠ 0 := by
            intro i hi
            have hi3 : i < 3 := hi
            have : i = 0 ∨ i = 1 ∨ i = 2 := by omega
            rcases this with h | h | h <;> subst h
            · exact ha
            · exact hb
            · exact hc
          have hret : barrier_alloc [a, b, c] = (-ENOENT, [a, b, c]) := by
            simp only [barrier_alloc, barrier_alloc_loop, NR_BARRIER, List.getD_cons_zero,
              List.getD_cons_succ, ha, hb, hc, if_false]
          refine ⟨?_, ?_, ?_⟩
          · rw [hret]
            exact ⟨fun _ => hall, fun _ => rfl⟩
          · intro _
            rw [hret]
          · intro i hi hfree _
            exact absurd hfree (hall i hi)

/-- Witness of C13: in the table `barriers0` the slots 0 and 1 are in use
and slot 2 is the lowest free one. -/
theorem barrier_alloc_lowest_free_witness :
    (barrier_alloc barriers0).1 = ((2 : Nat) : Int)
    ∧ ((barrier_alloc barriers0).2.getD 2 default).flags &&& BARRIER_USED ≠ 0
    ∧ ((barrier_alloc barriers0).2.getD 2 default).local_sync
      = (barriers0.getD 2 default).local_sync
    ∧ ((barrier_alloc barriers0).2.getD 2 default).remote = (barriers0.getD 2 default).remote
    ∧ (barrier_alloc barriers0).2.length = NR_BARRIER
    ∧ ∀ j, j ≠ 2 → (barrier_alloc barriers0).2.getD j default = barriers0.getD j default :=
  (barrier_alloc_lowest_free barriers0 (by decide)).2.2 2 (by decide) (by decide)
    (by decide)

/-- Counterexample to C14 as stated: in the numbering of the MPPA-256 the
node 129 is the DMA node `IOCLUSTER0 + 1` of I/O cluster 0 (`d = 1`), and
`barrier_noctag` gives it the tag 4, not 2; the same holds for
`IOCLUSTER1 + 3`. -/
theorem barrier_noctag_dma_node_is_4 :
    mppa256.wf
    ∧ (1 : Int) < mppa256.NR_IOCLUSTER_DMA
    ∧ mppa256.is_node (mppa256.IOCLUSTER0 + 1)
    ∧ barrier_noctag mppa256 (mppa256.IOCLUSTER0 + 1) = 4
    ∧ barrier_noctag mppa256 (mppa256.IOCLUSTER1 + 3) = 4 := by
  decide

/-- Claim C14 (amended): for every node ID of the topology,
`barrier_noctag` is 2 exactly for the two I/O cluster IDs `IOCLUSTER0` and
`IOCLUSTER1` (the DMA nodes with `d = 0`), 3 exactly for compute node 0 and
4 for every other node; in particular the DMA nodes `IOCLUSTER0 + d` and
`IOCLUSTER1 + d` with `1 <= d < NR_IOCLUSTER_DMA` get the tag 4. -/
theorem barrier_noctag_rule (t : Topology) (hwf : t.wf) (node : Int) :
    (barrier_noctag t node = 2 ↔ node = t.IOCLUSTER0 ∨ node = t.IOCLUSTER1)
    ∧ (barrier_noctag t node = 3 ↔ node = t.CCLUSTER0)
    ∧ (barrier_noctag t node = 4
      ↔ node ≠ t.IOCLUSTER0 ∧ node ≠ t.IOCLUSTER1 ∧ node ≠ t.CCLUSTER0)
    ∧ (∀ d, 1 ≤ d → d < t.NR_IOCLUSTER_DMA →
      t.is_node (t.IOCLUSTER0 + d) ∧ barrier_noctag t (t.IOCLUSTER0 + d) = 4
      ∧ t.is_node (t.IOCLUSTER1 + d) ∧ barrier_noctag t (t.IOCLUSTER1 + d) = 4) := by
  obtain ⟨h0, h1, h15, hn, hd, hio0, hio1, hm0, hm1, hbits⟩ := hwf
  unfold barrier_noctag
  refine ⟨?_, ?_, ?_, ?_⟩
  · split_ifs with ha hb
    · simp [ha]
    · simp [ha]
    · simp [ha]
  · split_ifs with ha hb
    · have : node ≠ t.CCLUSTER0 := by
        rcases ha with ha | ha <;> omega
      simp [this]
    · simp [hb]
    · simp [hb]
  · split_ifs with ha hb
    · have : ¬ (node ≠ t.IOCLUSTER0 ∧ node ≠ t.IOCLUSTER1 ∧ node ≠ t.CCLUSTER0) := by
        intro h
        rcases ha with ha | ha
        · exact h.1 ha
        · exact h.2.1 ha
      simp [this]
    · simp [hb]
    · have hc : node ≠ t.IOCLUSTER0 ∧ node ≠ t.IOCLUSTER1 := by
        constructor <;> intro h <;> exact ha (by simp [h])
      simp [hc, hb]
  · intro d hd1 hdlt
    have ha0 : ¬ (t.IOCLUSTER0 + d = t.IOCLUSTER0 ∨ t.IOCLUSTER0 + d = t.IOCLUSTER1) := by
      omega
    have hb0 : t.IOCLUSTER0 + d ≠ t.CCLUSTER0 := by omega
    have ha1 : ¬ (t.IOCLUSTER1 + d = t.IOCLUSTER0 ∨ t.IOCLUSTER1 + d = t.IOCLUSTER1) := by
      omega
    have hb1 : t.IOCLUSTER1 + d ≠ t.CCLUSTER0 := by omega
    rw [if_neg ha0, if_neg hb0, if_neg ha1, if_neg hb1]
    refine ⟨Or.inr (Or.inl ⟨by omega, by omega⟩), rfl, Or.inr (Or.inr ⟨by omega, by omega⟩),
      rfl⟩

/-- Witness of C14 (amended): the DMA node 129 of the MPPA-256. -/
theorem barrier_noctag_rule_witness :
    barrier_noctag mppa256 (mppa256.IOCLUSTER0 + 1) = 4 :=
  ((barrier_noctag_rule mppa256 (by decide) (mppa256.IOCLUSTER0 + 1)).2.2.2
    1 (by decide) (by decide)).2.1

theorem open_syncs_first_calls (env : Env) (bs : List Barrier) (barrierid : Int)
    (local_path : String) (mask : Nat) (remote_path : String)
    (ranks : Option (Int × List Int))
    (h : env [NocCall.mppa_open local_path OFlag.O_RDONLY] ≠ -1) :
    (open_syncs env bs barrierid local_path mask remote_path ranks).2.2.take 2
      = [NocCall.mppa_open local_path OFlag.O_RDONLY,
          NocCall.mppa_ioctl_rx_set_match (env [NocCall.mppa_open local_path OFlag.O_RDONLY])
            mask] := by
  rcases ranks with _ | ⟨n, cclusters⟩
  all_goals
    unfold open_syncs
    simp only [noc, List.nil_append]
    rw [if_neg h]
    split_ifs
    all_goals simp

/-- Claim C15: for every `k` with `2 <= k <= NR_CCLUSTER`, (1) every match
mask that `barrier_open(k)` installs on the master (compute cluster 0) is
`~((1 << (k-1)) - 1)` as a 64-bit value, that is `2^64 - 2^(k-1)`, whose
bits `0..k-2` are clear and whose bits `k-1..63` are set, and whenever
`barrier_alloc` finds a free slot and the driver opens the local sync, the
master installs this mask on it as its second driver call; (2) a worker with cluster ID `i`,
`1 <= i <= k-1`, that waits on a valid barrier in use writes the single bit
`1 << (i-1)` to the remote sync as its first driver call and makes no other
write, and no call of `barrier_wait` on the worker writes another mask;
(3) the OR of the match mask with the bits signalled by a list `S` of workers
is all-ones if and only if `S` contains every worker `1..k-1`. -/
theorem barrier_masks (t : Topology) (hwf : t.wf) (k : Int) (h2 : 2 ≤ k)
    (hk : k ≤ t.NR_CCLUSTER) :
    (∀ env bs fd m,
      NocCall.mppa_ioctl_rx_set_match fd m ∈ (barrier_open t env t.CCLUSTER0 bs k).2.2 →
      m = master_match_mask k)
    ∧ (∀ env bs, 0 ≤ (barrier_alloc bs).1 →
      env [NocCall.mppa_open (sync_path t.CCLUSTER0 (barrier_noctag t t.CCLUSTER0))
        OFlag.O_RDONLY] ≠ -1 →
      (barrier_open t env t.CCLUSTER0 bs k).2.2.take 2
        = [NocCall.mppa_open (sync_path t.CCLUSTER0 (barrier_noctag t t.CCLUSTER0))
            OFlag.O_RDONLY,
          NocCall.mppa_ioctl_rx_set_match
            (env [NocCall.mppa_open (sync_path t.CCLUSTER0 (barrier_noctag t t.CCLUSTER0))
              OFlag.O_RDONLY])
            (master_match_mask k)])
    ∧ master_match_mask k = 2 ^ 64 - 2 ^ (k - 1).toNat
    ∧ (∀ j, (master_match_mask k).testBit j = (decide ((k - 1).toNat ≤ j) && decide (j < 64)))
    ∧ (∀ env bs barrierid i, 1 ≤ i → i ≤ k - 1 →
      (∀ fd m size,
        NocCall.mppa_write fd m size ∈ (barrier_wait t env i bs barrierid).2 →
        m = worker_signal i)
      ∧ (0 ≤ barrierid → barrierid < NR_BARRIER →
        (bs.getD barrierid.toNat default).flags &&& BARRIER_USED ≠ 0 →
        (barrier_wait t env i bs barrierid).2
          = [NocCall.mppa_write (bs.getD barrierid.toNat default).remote (worker_signal i) 8]
        ∨ (barrier_wait t env i bs barrierid).2
          = [NocCall.mppa_write (bs.getD barrierid.toNat default).remote (worker_signal i) 8,
              NocCall.mppa_read (bs.getD barrierid.toNat default).local_sync 8])
      ∧ worker_signal i = 2 ^ (i - 1).toNat
      ∧ ∀ j, (worker_signal i).testBit j = decide ((i - 1).toNat = j))
    ∧ (∀ S : List Int, (∀ i ∈ S, 1 ≤ i ∧ i ≤ k - 1) →
      (master_match_mask k ||| signalled S = 2 ^ 64 - 1
        ↔ ∀ i, 1 ≤ i → i ≤ k - 1 → i ∈ S)) := by
  obtain ⟨h0, h1, h15, hn, hd, hio0, hio1, hm0, hm1, hbits⟩ := hwf
  have h31 : k ≤ 31 := by omega
  have hc0 : t.CCLUSTER0 ≠ t.IOCLUSTER0 := by omega
  have hc1 : t.CCLUSTER0 ≠ t.IOCLUSTER1 := by omega
  have hkk : ¬ (k < 2 ∨ k > t.NR_CCLUSTER) := by omega
  have hopen : ∀ env bs, ¬ (barrier_alloc bs).1 < 0 →
      barrier_open t env t.CCLUSTER0 bs k
        = open_syncs env (barrier_alloc bs).2 (barrier_alloc bs).1
            (sync_path t.CCLUSTER0 (barrier_noctag t t.CCLUSTER0))
            (master_match_mask k)
            (sync_range_path t.CCLUSTER1 (t.CCLUSTER0 + (k - 1))
              (barrier_noctag t (t.CCLUSTER0 + k)))
            (some (k - 1, (List.range (k - 1).toNat).map Int.ofNat)) := by
    intro env bs hid
    simp only [barrier_open, if_neg hid, if_neg hc0, if_neg hc1, if_neg hkk, if_true]
  refine ⟨?_, ?_, master_match_mask_eq h2 h31, ?_, ?_, fun S hS => barrier_fires_iff h2 h31 S hS⟩
  · intro env bs fd m hmem
    by_cases hid : (barrier_alloc bs).1 < 0
    · simp only [barrier_open, if_pos hid] at hmem
      exact absurd hmem (by simp)
    · rw [hopen env bs hid] at hmem
      exact open_syncs_set_match _ _ _ _ _ _ _ _ _ hmem
  · intro env bs hid hfd
    have hid2 : ¬ (barrier_alloc bs).1 < 0 := by omega
    rw [hopen env bs hid2]
    exact open_syncs_first_calls _ _ _ _ _ _ _ hfd
  · intro j
    rw [master_match_mask_eq h2 h31, testBit_two_pow_sub_two_pow (by omega)]
  · intro env bs barrierid i hi1 hik
    have hi0 : i ≠ t.IOCLUSTER0 := by omega
    have hi1b : i ≠ t.IOCLUSTER1 := by omega
    have hic : i ≠ t.CCLUSTER0 := by omega
    have hcalls := write_then_read_calls env (bs.getD barrierid.toNat default)
      (worker_signal i)
    refine ⟨?_, ?_, worker_signal_eq hi1 (by omega), ?_⟩
    · intro fd m size hmem
      unfold barrier_wait at hmem
      split_ifs at hmem with ha hb
      · exact absurd hmem (by simp)
      · exact absurd hmem (by simp)
      · rcases hcalls with hc | hc
        · rw [hc] at hmem
          simp at hmem
          exact hmem.2.1
        · rw [hc] at hmem
          simp at hmem
          exact hmem.2.1
    · intro hb0 hb1 hused
      have ha : ¬ (barrierid < 0 ∨ barrierid ≥ NR_BARRIER) := by omega
      have hw : barrier_wait t env i bs barrierid
          = write_then_read env (bs.getD barrierid.toNat default) (worker_signal i) := by
        simp only [barrier_wait, if_neg ha, if_neg hused, if_neg hi0, if_neg hi1b, if_neg hic]
      rw [hw]
      exact hcalls
    · intro j
      rw [worker_signal_eq hi1 (by omega), Nat.testBit_two_pow]

/-- Witness of C15: a barrier of the 16 compute clusters of the MPPA-256.
The master installs the mask `2^64 - 2^15` right after it opened its sync,
and worker 3, waiting on slot 0 of a table whose remote sync is descriptor 6,
writes the bit `2^2` there. -/
theorem barrier_masks_witness :
    master_match_mask 16 = 2 ^ 64 - 2 ^ 15
    ∧ (barrier_open mppa256 env_ok 0 barriers_init 16).2.2.take 2
      = [NocCall.mppa_open (sync_path 0 3) OFlag.O_RDONLY,
          NocCall.mppa_ioctl_rx_set_match 3 (master_match_mask 16)]
    ∧ worker_signal 3 = 2 ^ 2
    ∧ ((barrier_wait mppa256 env_ok 3 barriers0 0).2
        = [NocCall.mppa_write 6 (worker_signal 3) 8]
      ∨ (barrier_wait mppa256 env_ok 3 barriers0 0).2
        = [NocCall.mppa_write 6 (worker_signal 3) 8, NocCall.mppa_read 5 8]) :=
  have h := barrier_masks mppa256 (by decide) 16 (by decide) (by decide)
  ⟨h.2.2.1, h.2.1 env_ok barriers_init (by decide) (by decide),
    (h.2.2.2.2.1 env_ok barriers0 0 3 (by decide) (by decide)).2.2.1,
    (h.2.2.2.2.1 env_ok barriers0 0 3 (by decide) (by decide)).2.1 (by decide) (by decide)
      (by decide)⟩

/-- The bit of the mask of a node: the node ID for a compute node, the bits
after `CCLUSTER15` for the DMA nodes of the I/O clusters. -/
theorem portal_sync_compute (t : Topology) (hwf : t.wf) {node : Int} (h0 : 0 ≤ node)
    (h1 : node < t.NR_CCLUSTER) : portal_sync t node = 2 ^ node.toNat := by
  obtain ⟨hc0, hc1, h15, hn, hd, hio0, hio1, hm0, hm1, hbits⟩ := hwf
  have ha : ¬ (node ≥ t.IOCLUSTER0 ∧ node < t.IOCLUSTER0 + t.NR_IOCLUSTER_DMA) := by omega
  have hb : ¬ (node ≥ t.IOCLUSTER1 ∧ node < t.IOCLUSTER1 + t.NR_IOCLUSTER_DMA) := by omega
  rw [portal_sync, if_neg ha, if_neg hb, shl1_of_le h0 (by omega),
    to_uint64_two_pow (by omega)]

theorem tmod_block {base dma d : Int} (hb : 0 ≤ base) (hm : base % dma = 0) (h0 : 0 ≤ d)
    (h1 : d < dma) : Int.tmod (base + d) dma = d := by
  rw [Int.tmod_eq_emod (by omega) (by omega)]
  obtain ⟨q, hq⟩ := Int.dvd_of_emod_eq_zero hm
  rw [hq, Int.add_comm, Int.add_mul_emod_self_left, Int.emod_eq_of_lt h0 h1]

theorem portal_sync_io0 (t : Topology) (hwf : t.wf) {d : Int} (h0 : 0 ≤ d)
    (h1 : d < t.NR_IOCLUSTER_DMA) :
    portal_sync t (t.IOCLUSTER0 + d) = 2 ^ (t.CCLUSTER15 + 1 + d).toNat := by
  obtain ⟨hc0, hc1, h15, hn, hd, hio0, hio1, hm0, hm1, hbits⟩ := hwf
  have ha : t.IOCLUSTER0 + d ≥ t.IOCLUSTER0
      ∧ t.IOCLUSTER0 + d < t.IOCLUSTER0 + t.NR_IOCLUSTER_DMA := by omega
  rw [portal_sync, if_pos ha, tmod_block (by omega) hm0 h0 h1,
    shl1_of_le (by omega) (by omega), to_uint64_two_pow (by omega)]

theorem portal_sync_io1 (t : Topology) (hwf : t.wf) {d : Int} (h0 : 0 ≤ d)
    (h1 : d < t.NR_IOCLUSTER_DMA) :
    portal_sync t (t.IOCLUSTER1 + d)
      = 2 ^ (t.CCLUSTER15 + 1 + t.NR_IOCLUSTER_DMA + d).toNat := by
  obtain ⟨hc0, hc1, h15, hn, hd, hio0, hio1, hm0, hm1, hbits⟩ := hwf
  have ha : ¬ (t.IOCLUSTER1 + d ≥ t.IOCLUSTER0
      ∧ t.IOCLUSTER1 + d < t.IOCLUSTER0 + t.NR_IOCLUSTER_DMA) := by omega
  have hb : t.IOCLUSTER1 + d ≥ t.IOCLUSTER1
      ∧ t.IOCLUSTER1 + d < t.IOCLUSTER1 + t.NR_IOCLUSTER_DMA := by omega
  rw [portal_sync, if_neg ha, if_pos hb, tmod_block (by omega) hm1 h0 h1,
    shl1_of_le (by omega) (by omega), to_uint64_two_pow (by omega)]

/-- The index of the bit of a node in its mask. -/
theorem portal_sync_bit (t : Topology) (hwf : t.wf) {node : Int} (h : t.is_node node) :
    ∃ b : Nat, b ≤ 30 ∧ portal_sync t node = 2 ^ b
      ∧ ((0 ≤ node ∧ node < t.NR_CCLUSTER ∧ (b : Int) = node)
        ∨ (t.IOCLUSTER0 ≤ node ∧ node < t.IOCLUSTER0 + t.NR_IOCLUSTER_DMA
          ∧ (b : Int) = t.NR_CCLUSTER + (node - t.IOCLUSTER0))
        ∨ (t.IOCLUSTER1 ≤ node ∧ node < t.IOCLUSTER1 + t.NR_IOCLUSTER_DMA
          ∧ (b : Int) = t.NR_CCLUSTER + t.NR_IOCLUSTER_DMA + (node - t.IOCLUSTER1))) := by
  have hwf2 := hwf
  obtain ⟨hc0, hc1, h15, hn, hd, hio0, hio1, hm0, hm1, hbits⟩ := hwf2
  rcases h with h | h | h
  · refine ⟨node.toNat, by omega, portal_sync_compute t hwf (by omega) (by omega),
      Or.inl ⟨by omega, by omega, by omega⟩⟩
  · have hs := portal_sync_io0 t hwf (d := node - t.IOCLUSTER0) (by omega) (by omega)
    rw [show t.IOCLUSTER0 + (node - t.IOCLUSTER0) = node by ring] at hs
    exact ⟨_, by omega, hs, Or.inr (Or.inl ⟨h.1, h.2, by omega⟩)⟩
  · have hs := portal_sync_io1 t hwf (d := node - t.IOCLUSTER1) (by omega) (by omega)
    rw [show t.IOCLUSTER1 + (node - t.IOCLUSTER1) = node by ring] at hs
    exact ⟨_, by omega, hs, Or.inr (Or.inr ⟨h.1, h.2, by omega⟩)⟩

theorem portal_sync_injective (t : Topology) (hwf : t.wf) {x y : Int} (hx : t.is_node x)
    (hy : t.is_node y) (h : portal_sync t x = portal_sync t y) : x = y := by
  obtain ⟨a, _, ha, hxa⟩ := portal_sync_bit t hwf hx
  obtain ⟨b, _, hb, hyb⟩ := portal_sync_bit t hwf hy
  rw [ha, hb] at h
  have hab : a = b := Nat.pow_right_injective (le_refl 2) h
  obtain ⟨hc0, hc1, h15, hn, hd, hio0, hio1, hm0, hm1, hbits⟩ := hwf
  subst hab
  rcases hxa with hxa | hxa | hxa <;> rcases hyb with hyb | hyb | hyb <;> omega

/-- Claim C17: in a topology with the fixed numbering, `portal_sync(node)`
is `1 << node`, the value `2^node`, for every compute node; for the DMA node
`d` of I/O cluster 0 it is the single bit `CCLUSTER15 + 1 + d` and for the
DMA node `d` of I/O cluster 1 the single bit
`CCLUSTER15 + 1 + NR_IOCLUSTER_DMA + d`; so it is a one-bit mask for every
node of the topology and injective over the node IDs. -/
theorem portal_sync_one_bit (t : Topology) (hwf : t.wf) :
    (∀ node, t.CCLUSTER0 ≤ node → node < t.CCLUSTER0 + t.NR_CCLUSTER →
      portal_sync t node = 2 ^ node.toNat)
    ∧ (∀ d, 0 ≤ d → d < t.NR_IOCLUSTER_DMA →
      portal_sync t (t.IOCLUSTER0 + d) = 2 ^ (t.CCLUSTER15 + 1 + d).toNat
      ∧ portal_sync t (t.IOCLUSTER1 + d)
        = 2 ^ (t.CCLUSTER15 + 1 + t.NR_IOCLUSTER_DMA + d).toNat)
    ∧ (∀ node, t.is_node node → ∃ b, b < 64 ∧ portal_sync t node = 2 ^ b)
    ∧ (∀ x y, t.is_node x → t.is_node y → portal_sync t x = portal_sync t y → x = y) := by
  refine ⟨?_, ?_, ?_, ?_⟩
  · intro node h0 h1
    have hc0 : t.CCLUSTER0 = 0 := hwf.1
    exact portal_sync_compute t hwf (by omega) (by omega)
  · intro d h0 h1
    exact ⟨portal_sync_io0 t hwf h0 h1, portal_sync_io1 t hwf h0 h1⟩
  · intro node h
    obtain ⟨b, hb, hs, _⟩ := portal_sync_bit t hwf h
    exact ⟨b, by omega, hs⟩
  · intro x y hx hy h
    exact portal_sync_injective t hwf hx hy h

/-- Witness of C17: the DMA node 2 of I/O cluster 1 of the MPPA-256 (node
194) has the mask `2^22`. -/
theorem portal_sync_one_bit_witness :
    portal_sync mppa256 (mppa256.IOCLUSTER1 + 2)
      = 2 ^ (mppa256.CCLUSTER15 + 1 + mppa256.NR_IOCLUSTER_DMA + 2).toNat :=
  (((portal_sync_one_bit mppa256 (by decide)).2.1) 2 (by decide) (by decide)).2

/-- The driver calls of a complete `hal_portal_read`. -/
theorem hal_portal_read_calls (t : Topology) (env : Env) (p : Portal) (buf n : Nat)
    (hn : 1 ≤ n) :
    (hal_portal_read t env (some p) (some buf) n).2.2
        = [NocCall.mppa_aiocb_ctor p.portal_fd buf n, NocCall.mppa_aio_read]
      ∧ (hal_portal_read t env (some p) (some buf) n).1 = -EINVAL
    ∨ (hal_portal_read t env (some p) (some buf) n).2.2
        = [NocCall.mppa_aiocb_ctor p.portal_fd buf n, NocCall.mppa_aio_read,
            NocCall.mppa_write p.sync_fd (portal_sync t p.local_) 8]
      ∧ (hal_portal_read t env (some p) (some buf) n).1 = -EAGAIN
    ∨ (hal_portal_read t env (some p) (some buf) n).2.2
        = [NocCall.mppa_aiocb_ctor p.portal_fd buf n, NocCall.mppa_aio_read,
            NocCall.mppa_write p.sync_fd (portal_sync t p.local_) 8, NocCall.mppa_aio_wait,
            NocCall.mppa_close p.sync_fd]
      ∧ env [NocCall.mppa_aiocb_ctor p.portal_fd buf n, NocCall.mppa_aio_read] ≠ -1
      ∧ env [NocCall.mppa_aiocb_ctor p.portal_fd buf n, NocCall.mppa_aio_read,
            NocCall.mppa_write p.sync_fd (portal_sync t p.local_) 8] ≠ -1
      ∧ (hal_portal_read t env (some p) (some buf) n).1
        = int_of_size_t (size_t_of_ssize_t
            (env [NocCall.mppa_aiocb_ctor p.portal_fd buf n, NocCall.mppa_aio_read,
              NocCall.mppa_write p.sync_fd (portal_sync t p.local_) 8,
              NocCall.mppa_aio_wait])) := by
  have hn1 : ¬ n < 1 := by omega
  simp only [hal_portal_read, if_neg hn1, noc, List.nil_append, List.cons_append]
  split_ifs with h1 h2
  · exact Or.inl ⟨rfl, rfl⟩
  · exact Or.inr (Or.inl ⟨rfl, rfl⟩)
  · exact Or.inr (Or.inr ⟨by simp only, h1, h2, by simp only⟩)

/-- The driver calls of a complete `hal_portal_write`. -/
theorem hal_portal_write_calls (t : Topology) (env : Env) (p : Portal) (buf n : Nat)
    (hn : 1 ≤ n) :
    (hal_portal_write t env (some p) (some buf) n).2
        = [NocCall.mppa_ioctl_rx_set_match p.sync_fd (u64_not (portal_sync t p.remote))]
      ∧ (hal_portal_write t env (some p) (some buf) n).1 = -EINVAL
    ∨ (hal_portal_write t env (some p) (some buf) n).2
        = [NocCall.mppa_ioctl_rx_set_match p.sync_fd (u64_not (portal_sync t p.remote)),
            NocCall.mppa_read p.sync_fd 8]
      ∧ (hal_portal_write t env (some p) (some buf) n).1 = -EAGAIN
    ∨ (hal_portal_write t env (some p) (some buf) n).2
        = [NocCall.mppa_ioctl_rx_set_match p.sync_fd (u64_not (portal_sync t p.remote)),
            NocCall.mppa_read p.sync_fd 8, NocCall.mppa_pwrite p.portal_fd buf n 0]
      ∧ env [NocCall.mppa_ioctl_rx_set_match p.sync_fd (u64_not (portal_sync t p.remote))]
        ≠ -1
      ∧ env [NocCall.mppa_ioctl_rx_set_match p.sync_fd (u64_not (portal_sync t p.remote)),
            NocCall.mppa_read p.sync_fd 8] ≠ -1
      ∧ (hal_portal_write t env (some p) (some buf) n).1
        = int_of_size_t (size_t_of_ssize_t
            (env [NocCall.mppa_ioctl_rx_set_match p.sync_fd
                (u64_not (portal_sync t p.remote)),
              NocCall.mppa_read p.sync_fd 8, NocCall.mppa_pwrite p.portal_fd buf n 0])) := by
  have hn1 : ¬ n < 1 := by omega
  simp only [hal_portal_write, if_neg hn1, noc, List.nil_append, List.cons_append]
  split_ifs with h1 h2
  · exact Or.inl ⟨rfl, rfl⟩
  · exact Or.inr (Or.inl ⟨rfl, rfl⟩)
  · exact Or.inr (Or.inr ⟨by simp only, h1, h2, by simp only⟩)

theorem testBit_u64_not_two_pow {b : Nat} (hb : b < 64) (j : Nat) :
    (u64_not (2 ^ b)).testBit j = (decide (j < 64) && !decide (b = j)) := by
  have hlt : (2 : Nat) ^ b < 2 ^ 64 := Nat.pow_lt_pow_right (by decide : 1 < 2) hb
  unfold u64_not
  rw [Nat.mod_eq_of_lt hlt, Nat.sub_sub, Nat.add_comm 1,
    Nat.testBit_two_pow_sub_succ hlt, Nat.testBit_two_pow]

/-- Claim C16 on a failing input, the open handle `portal0` with the
descriptors 3 and 4: for every handle `hal_portal_close` returns 0 and
leaves `portal_fd` and `sync_fd` as they were, and a second
`hal_portal_close` on the resulting handle issues the same `mppa_close`
calls again; `hal_portal_unlink` leaves `portal_fd` as it was; and
`hal_portal_read` leaves `sync_fd` as it was after it has closed the
control-sync.  On `portal0` the descriptors are 3 and 4, not -1, after the
first close, and the second close calls `mppa_close(3)` and
`mppa_close(4)`. -/
theorem hal_portal_close_keeps_descriptors :
    (∀ env p, ∃ q, hal_portal_close env (some p) = (0, some q, close_fds env p)
      ∧ q.portal_fd = p.portal_fd ∧ q.sync_fd = p.sync_fd
      ∧ hal_portal_close env (some q) = (0, some q, close_fds env p))
    ∧ (∀ env p, ∃ q, (hal_portal_unlink env (some p)).1 = 0
      ∧ (hal_portal_unlink env (some p)).2.1 = some q ∧ q.portal_fd = p.portal_fd)
    ∧ (∀ env, hal_portal_close env (some portal0)
        = (0, some ⟨3, 4, -1, -1⟩, [NocCall.mppa_close 3, NocCall.mppa_close 4])
      ∧ hal_portal_close env (some ⟨3, 4, -1, -1⟩)
        = (0, some ⟨3, 4, -1, -1⟩, [NocCall.mppa_close 3, NocCall.mppa_close 4])
      ∧ hal_portal_unlink env (some portal0)
        = (0, some ⟨3, -1, -1, -1⟩, [NocCall.mppa_close 3]))
    ∧ hal_portal_read mppa256 env_ok (some portal0) (some 0) 128
      = (128, some portal0,
          [NocCall.mppa_aiocb_ctor 3 0 128, NocCall.mppa_aio_read, NocCall.mppa_write 4 1 8,
            NocCall.mppa_aio_wait, NocCall.mppa_close 4])
    ∧ portal0.sync_fd = 4 := by
  refine ⟨?_, ?_, ?_, by decide, rfl⟩
  · intro env p
    exact ⟨{ p with remote := -1, local_ := -1 }, rfl, rfl, rfl, rfl⟩
  · intro env p
    exact ⟨{ p with sync_fd := -1, remote := -1, local_ := -1 }, rfl, rfl, rfl⟩
  · intro env
    refine ⟨?_, ?_, ?_⟩ <;>
      simp [hal_portal_close, hal_portal_unlink, close_fds, noc, portal0]

/-- Claim C18: (1) the driver calls of `hal_portal_read` are a prefix of
`mppa_aiocb_ctor, mppa_aio_read, mppa_write(sync_fd, portal_sync(local)),
mppa_aio_wait, mppa_close(sync_fd)`, and a call that returns a non-negative
value made all of them in this order: the read is armed before the mask is
written on the control-sync and the wait comes after the write; (2) the
driver calls of `hal_portal_write` are a prefix of
`mppa_ioctl(sync_fd, MPPA_RX_SET_MATCH, ~portal_sync(remote)),
mppa_read(sync_fd), mppa_pwrite(portal_fd, buf, n, 0)`, and `mppa_pwrite` is
called only after the two calls before it returned without error; (3) when
the remote of the writer is the local node of the reader, a node of the
topology, the mask the reader writes is a single bit `b` and `b` is the only
bit below 64 that is clear in the match mask of the writer. -/
theorem portal_rendezvous_order (t : Topology) (hwf : t.wf) (env : Env)
    (reader writer : Portal) (buf n : Nat) (hn : 1 ≤ n) :
    (∃ rest, (hal_portal_read t env (some reader) (some buf) n).2.2 ++ rest
      = [NocCall.mppa_aiocb_ctor reader.portal_fd buf n, NocCall.mppa_aio_read,
          NocCall.mppa_write reader.sync_fd (portal_sync t reader.local_) 8,
          NocCall.mppa_aio_wait, NocCall.mppa_close reader.sync_fd])
    ∧ (0 ≤ (hal_portal_read t env (some reader) (some buf) n).1 →
      (hal_portal_read t env (some reader) (some buf) n).2.2
        = [NocCall.mppa_aiocb_ctor reader.portal_fd buf n, NocCall.mppa_aio_read,
            NocCall.mppa_write reader.sync_fd (portal_sync t reader.local_) 8,
            NocCall.mppa_aio_wait, NocCall.mppa_close reader.sync_fd])
    ∧ (∃ rest, (hal_portal_write t env (some writer) (some buf) n).2 ++ rest
      = [NocCall.mppa_ioctl_rx_set_match writer.sync_fd
            (u64_not (portal_sync t writer.remote)),
          NocCall.mppa_read writer.sync_fd 8, NocCall.mppa_pwrite writer.portal_fd buf n 0])
    ∧ ((∃ fd b m off, NocCall.mppa_pwrite fd b m off
          ∈ (hal_portal_write t env (some writer) (some buf) n).2) →
      (hal_portal_write t env (some writer) (some buf) n).2
        = [NocCall.mppa_ioctl_rx_set_match writer.sync_fd
            (u64_not (portal_sync t writer.remote)),
          NocCall.mppa_read writer.sync_fd 8, NocCall.mppa_pwrite writer.portal_fd buf n 0]
      ∧ env [NocCall.mppa_ioctl_rx_set_match writer.sync_fd
          (u64_not (portal_sync t writer.remote))] ≠ -1
      ∧ env [NocCall.mppa_ioctl_rx_set_match writer.sync_fd
          (u64_not (portal_sync t writer.remote)), NocCall.mppa_read writer.sync_fd 8] ≠ -1)
    ∧ (0 ≤ (hal_portal_write t env (some writer) (some buf) n).1 →
      ∃ fd b m off, NocCall.mppa_pwrite fd b m off
        ∈ (hal_portal_write t env (some writer) (some buf) n).2)
    ∧ (writer.remote = reader.local_ → t.is_node reader.local_ →
      ∃ b, b < 64 ∧ portal_sync t reader.local_ = 2 ^ b
        ∧ ∀ j, j < 64 →
          ((u64_not (portal_sync t writer.remote)).testBit j = false ↔ j = b)) := by
  have hr := hal_portal_read_calls t env reader buf n hn
  have hw := hal_portal_write_calls t env writer buf n hn
  have hE1 : ¬ (0 ≤ -EINVAL) := by decide
  have hE2 : ¬ (0 ≤ -EAGAIN) := by decide
  refine ⟨?_, ?_, ?_, ?_, ?_, ?_⟩
  · rcases hr with h | h | h
    · rw [h.1]
      exact ⟨_, rfl⟩
    · rw [h.1]
      exact ⟨_, rfl⟩
    · rw [h.1]
      exact ⟨[], rfl⟩
  · intro h0
    rcases hr with h | h | h
    · rw [h.2] at h0
      exact absurd h0 hE1
    · rw [h.2] at h0
      exact absurd h0 hE2
    · exact h.1
  · rcases hw with h | h | h
    · rw [h.1]
      exact ⟨_, rfl⟩
    · rw [h.1]
      exact ⟨_, rfl⟩
    · rw [h.1]
      exact ⟨[], rfl⟩
  · rintro ⟨fd, b, m, off, hmem⟩
    rcases hw with h | h | h
    · rw [h.1] at hmem
      simp at hmem
    · rw [h.1] at hmem
      simp at hmem
    · exact ⟨h.1, h.2.1, h.2.2.1⟩
  · intro h0
    rcases hw with h | h | h
    · rw [h.2] at h0
      exact absurd h0 hE1
    · rw [h.2] at h0
      exact absurd h0 hE2
    · rw [h.1]
      exact ⟨writer.portal_fd, buf, n, 0, by simp⟩
  · intro hrem hnode
    obtain ⟨b, hb, hs, _⟩ := portal_sync_bit t hwf hnode
    refine ⟨b, by omega, hs, ?_⟩
    intro j hj
    rw [hrem, hs, testBit_u64_not_two_pow (by omega)]
    simp only [hj, decide_True, Bool.true_and, Bool.not_eq_false', decide_eq_true_eq]
    exact eq_comm

/-- Witness of C18: node 0 of the MPPA-256 reads 128 bytes from its portal
with a driver whose calls all succeed. -/
theorem portal_rendezvous_order_witness :
    (hal_portal_read mppa256 env_ok (some portal0) (some 0) 128).2.2
      = [NocCall.mppa_aiocb_ctor portal0.portal_fd 0 128, NocCall.mppa_aio_read,
          NocCall.mppa_write portal0.sync_fd (portal_sync mppa256 portal0.local_) 8,
          NocCall.mppa_aio_wait, NocCall.mppa_close portal0.sync_fd] :=
  (portal_rendezvous_order mppa256 (by decide) env_ok portal0 portal0 0 128
    (by decide)).2.1 (by decide)

/-- Claim C26 on a failing input: compute cluster 0 of the MPPA-256 calls
`barrier_open(1)` while all three slots are free.  `barrier_alloc` marks
slot 0 used, then the test on `ncclusters` returns `-EINVAL` without
`barrier_free`: the call fails and slot 0 stays marked `BARRIER_USED`.
After three such calls (`ncclusters` 1, 17 and 0) the pool is full and a
valid `barrier_open(16)` fails with `-ENOENT`. -/
theorem barrier_open_einval_keeps_slot :
    barrier_open mppa256 env_ok 0 barriers_init 1
      = (some (-EINVAL), [⟨0, 0, BARRIER_USED⟩, ⟨0, 0, 0⟩, ⟨0, 0, 0⟩], [])
    ∧ (barriers_init.getD 0 default).flags &&& BARRIER_USED = 0
    ∧ (((barrier_open mppa256 env_ok 0 barriers_init 1).2.1).getD 0 default).flags
        &&& BARRIER_USED ≠ 0
    ∧ (barrier_open mppa256 env_ok 0
        (barrier_open mppa256 env_ok 0
          (barrier_open mppa256 env_ok 0
            (barrier_open mppa256 env_ok 0 barriers_init 1).2.1 17).2.1 0).2.1 16).1
      = some (-ENOENT) := by
  decide

theorem sync_tag_comm (hal : Hal) (a b tagged : Int) :
    sync_tag hal a b tagged = sync_tag hal b a tagged := by
  unfold sync_tag
  rw [Bool.or_comm]

/-- Claim C27: let `A` and `B` be distinct nodes, `B` an I/O node or a
compute node and `A` non-negative, and let the portal of the reader be one
that `hal_portal_create` made on `A`.  Then `hal_portal_allow(remote = B)`
on `A` makes exactly one driver call, `mppa_open` of the pathname
`"/mppa/sync/B:t"`; `hal_portal_open(remote = A)` on `B` opens the portal
`"/mppa/portal/A:noctag_portal(A)"` and, when that succeeds, the same
pathname `"/mppa/sync/B:t"`; here `t` is `noctag_portal(A)` when `A` or `B`
is a compute cluster and 127 otherwise. -/
theorem portal_sync_paths_agree (hal : Hal) (env0 env1 env2 : Env) (A B : Int)
    (p0 p q : Portal) (tr0 : List NocCall) (hAB : A ≠ B) (hA : 0 ≤ A)
    (hB : (hal.noc_is_ionode B || hal.noc_is_cnode B) = true)
    (hcreate : hal_portal_create hal env0 A (some p0) A = (0, some p, tr0)) :
    (hal_portal_allow hal env1 A (some p) B).2.2
      = [NocCall.mppa_open (sync_path B (sync_tag hal A B A)) OFlag.O_WRONLY]
    ∧ ((hal_portal_open hal env2 B (some q) A).2.2
        = [NocCall.mppa_open (portal_path A (hal.noctag_portal A)) OFlag.O_WRONLY]
      ∨ (hal_portal_open hal env2 B (some q) A).2.2
        = [NocCall.mppa_open (portal_path A (hal.noctag_portal A)) OFlag.O_WRONLY,
            NocCall.mppa_open (sync_path B (sync_tag hal A B A)) OFlag.O_RDONLY])
    ∧ ((hal_portal_open hal env2 B (some q) A).1 = 0 →
      (hal_portal_open hal env2 B (some q) A).2.2
        = [NocCall.mppa_open (portal_path A (hal.noctag_portal A)) OFlag.O_WRONLY,
            NocCall.mppa_open (sync_path B (sync_tag hal A B A)) OFlag.O_RDONLY])
    ∧ sync_path B (sync_tag hal A B A)
      = "/mppa/sync/" ++ toString B ++ ":" ++ toString (sync_tag hal A B A)
    ∧ ((hal.k1_is_ccluster A = true ∨ hal.k1_is_ccluster B = true) →
      sync_tag hal A B A = hal.noctag_portal A)
    ∧ (hal.k1_is_ccluster A = false → hal.k1_is_ccluster B = false →
      sync_tag hal A B A = 127) := by
  have hE : ¬ (-EAGAIN = (0 : Int)) := by decide
  have hlocal : p.local_ = A := by
    simp only [hal_portal_create, ne_eq, not_true_eq_false, if_false, noc] at hcreate
    split_ifs at hcreate with h1
    · have h2 := congrArg Prod.fst hcreate
      exact absurd h2 hE
    · have h2 := congrArg (fun x => x.2.1) hcreate
      simp only [Option.some.injEq] at h2
      rw [← h2]
  have hBA : ¬ B = A := fun h => hAB h.symm
  have hneg : ¬ A < 0 := by omega
  refine ⟨?_, ?_, ?_, rfl, ?_, ?_⟩
  · simp only [hal_portal_allow, hB, Bool.not_true, Bool.false_eq_true, if_false, if_neg hBA,
      noc, hlocal, sync_tag_comm hal B A A]
    split_ifs <;> rfl
  · simp only [hal_portal_open, if_neg hneg, if_neg hAB, noc]
    split_ifs
    · exact Or.inl rfl
    · exact Or.inr rfl
    · exact Or.inr rfl
  · intro h0
    simp only [hal_portal_open, if_neg hneg, if_neg hAB, noc] at h0 ⊢
    split_ifs at h0 ⊢
    · exact absurd h0 hE
    · rfl
    · rfl
  · intro h
    unfold sync_tag
    rcases h with h | h <;> simp [h]
  · intro h1 h2
    unfold sync_tag
    simp [h1, h2]

/-- Witness of C27: the reader is compute node 1 and the writer compute node
2, with the HAL `hal0` and a driver whose calls succeed. -/
theorem portal_sync_paths_agree_witness :
    (hal_portal_allow hal0 env_ok 1 (some ⟨3, -1, -1, 1⟩) 2).2.2
      = [NocCall.mppa_open (sync_path 2 (sync_tag hal0 1 2 1)) OFlag.O_WRONLY]
    ∧ (hal_portal_open hal0 env_ok 2 (some portal0) 1).2.2
      = [NocCall.mppa_open (portal_path 1 (hal0.noctag_portal 1)) OFlag.O_WRONLY,
          NocCall.mppa_open (sync_path 2 (sync_tag hal0 1 2 1)) OFlag.O_RDONLY] :=
  have h := portal_sync_paths_agree hal0 env_ok env_ok env_ok 1 2 portal0 ⟨3, -1, -1, 1⟩
    portal0 _ (by decide) (by decide) (by decide) rfl
  ⟨h.1, h.2.2.1 (by decide)⟩

end Mppa

namespace NameService

/-! # Properties of the name service -/

theorem name_exists_of_reg {s : State} {name : String}
    (h : ∃ r ∈ s.regs, r.name = name) : name_exists s name = true := by
  obtain ⟨r, hr, hn⟩ := h
  unfold name_exists
  rw [Bool.or_eq_true]
  right
  rw [List.any_eq_true]
  exact ⟨r, hr, by simp [hn]⟩

theorem registered_apply_op (c : Config) {s : State} {name : String} (op : Op)
    (h : ∃ r ∈ s.regs, r.name = name)
    (hop : ∀ caller n, op = Op.unregister caller n →
      ¬ (n = some name ∧ (apply_op c s op).2 = 0)) :
    ∃ r ∈ (apply_op c s op).1.regs, r.name = name := by
  obtain ⟨r, hr, hn⟩ := h
  cases op with
  | link caller node n =>
    simp only [apply_op, nanvix_name_link]
    split_ifs
    · exact ⟨r, hr, hn⟩
    · cases n with
      | none => exact ⟨r, hr, hn⟩
      | some n =>
        simp only
        split_ifs <;> exact ⟨r, hr, hn⟩
  | unlink caller n =>
    simp only [apply_op, nanvix_name_unlink]
    split_ifs
    · exact ⟨r, hr, hn⟩
    · cases n with
      | none => exact ⟨r, hr, hn⟩
      | some n =>
        simp only
        cases s.links.find? (fun l => l.name == n) with
        | none => exact ⟨r, hr, hn⟩
        | some l =>
          simp only
          split_ifs <;> exact ⟨r, hr, hn⟩
  | register caller n port =>
    simp only [apply_op, nanvix_name_register]
    split_ifs
    · exact ⟨r, hr, hn⟩
    · exact ⟨r, hr, hn⟩
    · cases n with
      | none => exact ⟨r, hr, hn⟩
      | some n =>
        simp only
        split_ifs
        · exact ⟨r, hr, hn⟩
        · exact ⟨r, by simp [hr], hn⟩
  | unregister caller n =>
    have hop2 := hop caller n rfl
    simp only [apply_op, nanvix_name_unregister] at hop2 ⊢
    split_ifs at hop2 ⊢
    · exact ⟨r, hr, hn⟩
    · cases n with
      | none => exact ⟨r, hr, hn⟩
      | some n =>
        simp only at hop2 ⊢
        cases hf : s.regs.find? (fun r => r.name == n) with
        | none => exact ⟨r, hr, hn⟩
        | some r2 =>
          rw [hf] at hop2
          simp only at hop2 ⊢
          split_ifs at hop2 ⊢ with hown
          · exact ⟨r, hr, hn⟩
          · have hne : n ≠ name := by
              intro he
              exact hop2 ⟨by rw [he], rfl⟩
            refine ⟨r, ?_, hn⟩
            simp only [List.mem_filter, hr, true_and, Bool.not_eq_true', beq_eq_false_iff_ne,
              ne_eq]
            rw [hn]
            exact fun he => hne he.symm

theorem registered_run_ops (c : Config) {name : String} (ops : List Op) :
    ∀ {s : State}, (∃ r ∈ s.regs, r.name = name) → no_unregister c name s ops = true →
      ∃ r ∈ (run_ops c s ops).regs, r.name = name := by
  induction ops with
  | nil =>
    intro s h _
    exact h
  | cons op ops ih =>
    intro s h hno
    simp only [no_unregister, Bool.and_eq_true] at hno
    have hstep : ∃ r ∈ (apply_op c s op).1.regs, r.name = name := by
      apply registered_apply_op c op h
      intro caller n hop hbad
      subst hop
      have h1 := hno.1
      simp only [Bool.not_eq_true', Bool.and_eq_false_iff] at h1
      rcases h1 with h1 | h1
      · simp [hbad.1] at h1
      · simp [hbad.2] at h1
    exact ih hstep hno.2

theorem register_of_registered (c : Config) {s : State} {name : String} (caller : Int)
    (port : Int) (hv : name_is_valid c (some name) = true)
    (h : ∃ r ∈ s.regs, r.name = name) :
    (nanvix_name_register c s caller (some name) port).1 = s
    ∧ (nanvix_name_register c s caller (some name) port).2 < 0
    ∧ (c.port_is_valid port = true →
      (nanvix_name_register c s caller (some name) port).2 = -EEXIST) := by
  have he := name_exists_of_reg h
  simp only [nanvix_name_register, hv, Bool.not_true, Bool.false_eq_true, if_false, he, if_true]
  by_cases hp : c.port_is_valid port = true
  · simp only [hp, Bool.not_true, Bool.false_eq_true, if_false]
    exact ⟨trivial, by decide, fun _ => trivial⟩
  · simp only [hp, Bool.not_eq_true] at hp ⊢
    simp only [hp, Bool.not_false, if_true]
    exact ⟨trivial, by decide, fun h => absurd h (by simp)⟩

theorem pair_ret_ne {s s1 : State} {e : Int} (he : e ≠ 0) (h : (s, e) = (s1, (0 : Int))) :
    False :=
  he (congrArg Prod.snd h)

theorem registered_of_register {c : Config} {s s1 : State} {name : String} {caller port : Int}
    (h : nanvix_name_register c s caller (some name) port = (s1, 0)) :
    ∃ r ∈ s1.regs, r.name = name := by
  simp only [nanvix_name_register] at h
  split_ifs at h with h1 h2 h3
  · exact (pair_ret_ne (by decide) h).elim
  · exact (pair_ret_ne (by decide) h).elim
  · exact (pair_ret_ne (by decide) h).elim
  · have hs := congrArg Prod.fst h
    simp only at hs
    rw [← hs]
    exact ⟨⟨name, caller, port⟩, by simp, rfl⟩

theorem unregister_twice {c : Config} {s s1 : State} {name : String} {caller : Int}
    (h : nanvix_name_unregister c s caller (some name) = (s1, 0)) (caller2 : Int) :
    nanvix_name_unregister c s1 caller2 (some name) = (s1, -ENOENT) := by
  simp only [nanvix_name_unregister] at h ⊢
  split_ifs at h ⊢ with h1
  · exact (pair_ret_ne (by decide) h).elim
  · cases hf : s.regs.find? (fun r => r.name == name) with
    | none =>
      rw [hf] at h
      exact (pair_ret_ne (by decide) h).elim
    | some r =>
      rw [hf] at h
      simp only at h
      split_ifs at h with hown
      · exact (pair_ret_ne (by decide) h).elim
      · have hs := congrArg Prod.fst h
        simp only at hs
        have hnone : s1.regs.find? (fun r => r.name == name) = none := by
          rw [← hs, List.find?_eq_none]
          intro x hx
          simp only [List.mem_filter] at hx
          simpa using hx.2
        rw [hnone]

theorem valid_of_register {c : Config} {s s1 : State} {name : String} {caller port : Int}
    (h : nanvix_name_register c s caller (some name) port = (s1, 0)) :
    name_is_valid c (some name) = true := by
  simp only [nanvix_name_register] at h
  split_ifs at h with h1
  · exact (pair_ret_ne (by decide) h).elim
  · exact (pair_ret_ne (by decide) h).elim
  · simpa using h1
  · simpa using h1

/-- Claim C20, in the model of the name service that follows the
specification: after `nanvix_name_register(name, p)` has returned 0, and
after any sequence of requests none of which is an
`nanvix_name_unregister(name)` that returns 0, every
`nanvix_name_register(name, q)` by any node leaves the tables unchanged and
returns a negative value, which is `-EEXIST` when the port `q` is
acceptable; and once `nanvix_name_unregister(name)` has returned 0, a second
`nanvix_name_unregister(name)` by any node fails with `-ENOENT`. -/
theorem name_uniqueness (c : Config) (s s1 : State) (a : Int) (name : String) (p : Int)
    (hreg : nanvix_name_register c s a (some name) p = (s1, 0)) (ops : List Op)
    (hno : no_unregister c name s1 ops = true) :
    (∀ b q,
      (nanvix_name_register c (run_ops c s1 ops) b (some name) q).1 = run_ops c s1 ops
      ∧ (nanvix_name_register c (run_ops c s1 ops) b (some name) q).2 < 0
      ∧ (c.port_is_valid q = true →
        (nanvix_name_register c (run_ops c s1 ops) b (some name) q).2 = -EEXIST))
    ∧ (∀ b s2, nanvix_name_unregister c (run_ops c s1 ops) b (some name) = (s2, 0) →
      ∀ b2, nanvix_name_unregister c s2 b2 (some name) = (s2, -ENOENT) ∧ -ENOENT < 0) := by
  have hv := valid_of_register hreg
  have hin := registered_run_ops c ops (registered_of_register hreg) hno
  refine ⟨fun b q => register_of_registered c b q hv hin, ?_⟩
  intro b s2 hun b2
  exact ⟨unregister_twice hun b2, by decide⟩

/-- Witness of C20: node 0 registers `"cool-name"`, then node 1 links another
name and tries to register `"cool-name"` with port 5. -/
theorem name_uniqueness_witness :
    (nanvix_name_register cfg0
      (run_ops cfg0 s_registered [Op.link 1 1 (some "other")]) 1 (some "cool-name") 5).2
      = -EEXIST :=
  ((name_uniqueness cfg0 s0 s_registered 0 "cool-name" 0 (by decide)
    [Op.link 1 1 (some "other")] (by decide)).1 1 5).2.2 (by decide)

end NameService

namespace Runtime

/-! # Properties of the runtime -/

/-- Claim C21: for every level, core and table `initialized`, whatever the
calls outside the file return: a `runtime_setup` that returns a negative
value leaves `initialized` as it was; a `runtime_cleanup` that returns a
negative value leaves `initialized` as it was; and when `runtime_setup` is
followed by a `runtime_cleanup` that returns 0, `initialized[index]` is 0
afterwards.  Both functions return 0 or `-EAGAIN`. -/
theorem runtime_setup_all_or_nothing (env : Env) (index : Nat) (initialized : List Int)
    (level : Int) :
    ((runtime_setup env index initialized level).1 < 0 →
      (runtime_setup env index initialized level).2.1 = initialized)
    ∧ ((runtime_cleanup env index initialized).1 < 0 →
      (runtime_cleanup env index initialized).2.1 = initialized)
    ∧ (∀ env2, index < initialized.length →
      (runtime_cleanup env2 index (runtime_setup env index initialized level).2.1).1 = 0 →
      (runtime_cleanup env2 index
        (runtime_setup env index initialized level).2.1).2.1.getD index 1 = 0)
    ∧ ((runtime_setup env index initialized level).1 = 0
      ∨ (runtime_setup env index initialized level).1 = -EAGAIN)
    ∧ ((runtime_cleanup env index initialized).1 = 0
      ∨ (runtime_cleanup env index initialized).1 = -EAGAIN) := by
  have hE : ¬ (-EAGAIN = (0 : Int)) := by decide
  have h0 : ¬ ((0 : Int) < 0) := by decide
  have hcl : ∀ (e : Env) (l : List Int),
      ((runtime_cleanup e index l).1 < 0 → (runtime_cleanup e index l).2.1 = l)
      ∧ ((runtime_cleanup e index l).1 = 0 →
        (runtime_cleanup e index l).2.1 = l.set index 0)
      ∧ ((runtime_cleanup e index l).1 = 0 ∨ (runtime_cleanup e index l).1 = -EAGAIN) := by
    intro e l
    simp only [runtime_cleanup, call]
    split_ifs
    · exact ⟨fun _ => rfl, fun h => absurd h hE, Or.inr rfl⟩
    · exact ⟨fun _ => rfl, fun h => absurd h hE, Or.inr rfl⟩
    · exact ⟨fun h => absurd h h0, fun _ => rfl, Or.inl rfl⟩
  have hlen : (runtime_setup env index initialized level).2.1.length = initialized.length := by
    simp only [runtime_setup, setup_error, setup_done, call]
    split_ifs <;> simp
  refine ⟨?_, (hcl env initialized).1, ?_, ?_, (hcl env initialized).2.2⟩
  · simp only [runtime_setup, setup_error, setup_done, call]
    split_ifs <;> first | exact fun _ => rfl | exact fun h => absurd h h0
  · intro env2 hi hret
    rw [(hcl env2 _).2.1 hret]
    simp [List.getD_eq_getElem?_getD, List.getElem?_set, hlen, hi]
  · simp only [runtime_setup, setup_error, setup_done, call]
    split_ifs <;> first | exact Or.inl rfl | exact Or.inr rfl

/-- Witness of C21: core 1 is already initialised, `runtime_setup(2)`
fails and the table is unchanged. -/
theorem runtime_setup_all_or_nothing_witness :
    (runtime_setup env_zero 1 [0, 1, 0] 2).2.1 = [0, 1, 0] :=
  (runtime_setup_all_or_nothing env_zero 1 [0, 1, 0] 2).1 (by decide)

/-- Counterexample to C28 as stated: a second `__runtime_setup(1)` sets up
the four services again; and for ring 0 the name client is set up by
`__runtime_setup(0)` but not cleaned up by `__runtime_cleanup`. -/
theorem runtime_setup_twice_sets_up_again :
    __runtime_setup 0 1
      = (0, 1, [Service.__stdsync_setup, Service.__stdmailbox_setup,
          Service.__stdportal_setup, Service.__name_setup])
    ∧ __runtime_setup (__runtime_setup 0 1).2.1 1
      = (0, 1, [Service.__stdsync_setup, Service.__stdmailbox_setup,
          Service.__stdportal_setup, Service.__name_setup])
    ∧ Service.__name_setup ∈ (__runtime_setup 0 0).2.2
    ∧ Service.__name_cleanup ∉ (__runtime_cleanup (__runtime_setup 0 0).2.1).2.2 := by
  decide

/-- Claim C28 (amended): for every ring `>= 1` and every current ring not
above it, `__runtime_setup(ring)` returns 0, sets `current_ring` to `ring`
and sets up sync, mailbox, portal and the name client; the following
`__runtime_cleanup` returns 0 and calls the cleanup of each of them exactly
once, and nothing else; a second `__runtime_setup(ring)` sets up the four
services again; and after `__runtime_cleanup`, `current_ring` is 0 whatever
the ring was. -/
theorem runtime_ring_symmetric (current_ring ring : Int) (h1 : 1 ≤ ring)
    (hc : current_ring ≤ ring) :
    __runtime_setup current_ring ring
      = (0, ring, [Service.__stdsync_setup, Service.__stdmailbox_setup,
          Service.__stdportal_setup, Service.__name_setup])
    ∧ __runtime_cleanup (__runtime_setup current_ring ring).2.1
      = (0, 0, [Service.__stdportal_cleanup, Service.__stdmailbox_cleanup,
          Service.__stdsync_cleanup, Service.__name_cleanup])
    ∧ (∀ sv ∈ (__runtime_setup current_ring ring).2.2, ∃ cl, cleanup_of sv = some cl
      ∧ (__runtime_cleanup (__runtime_setup current_ring ring).2.1).2.2.count cl = 1)
    ∧ (∀ cl ∈ (__runtime_cleanup (__runtime_setup current_ring ring).2.1).2.2,
      ∃ sv ∈ (__runtime_setup current_ring ring).2.2, cleanup_of sv = some cl)
    ∧ __runtime_setup (__runtime_setup current_ring ring).2.1 ring
      = (0, ring, [Service.__stdsync_setup, Service.__stdmailbox_setup,
          Service.__stdportal_setup, Service.__name_setup])
    ∧ (∀ r, (__runtime_cleanup r).2.1 = 0) := by
  have hs : ∀ cur, cur ≤ ring → __runtime_setup cur ring
      = (0, ring, [Service.__stdsync_setup, Service.__stdmailbox_setup,
          Service.__stdportal_setup, Service.__name_setup]) := by
    intro cur hcur
    have ha : ¬ ring < 0 := by omega
    have hb : ¬ ring < cur := by omega
    have hd : ring - cur ≥ 0 := by omega
    simp only [__runtime_setup, if_neg ha, if_neg hb, if_pos hd]
    rfl
  have hcl : __runtime_cleanup ring
      = (0, 0, [Service.__stdportal_cleanup, Service.__stdmailbox_cleanup,
          Service.__stdsync_cleanup, Service.__name_cleanup]) := by
    have ha : ring ≥ 1 := h1
    simp only [__runtime_cleanup, if_pos ha]
    rfl
  rw [hs current_ring hc]
  simp only [hcl, hs ring (le_refl _), true_and]
  refine ⟨?_, ?_, fun r => rfl⟩
  · decide
  · decide

/-- Witness of C28 (amended): ring 2 on a fresh runtime. -/
theorem runtime_ring_symmetric_witness :
    __runtime_cleanup (__runtime_setup 0 2).2.1
      = (0, 0, [Service.__stdportal_cleanup, Service.__stdmailbox_cleanup,
          Service.__stdsync_cleanup, Service.__name_cleanup]) :=
  (runtime_ring_symmetric 0 2 (by decide) (by decide)).2.1

end Runtime

namespace Pm

/-! # Properties of the process tables -/

theorem find_pid_some {pid : Int} {ps : List Proc} {i k : Nat}
    (h : find_pid pid ps i = some k) :
    i ≤ k ∧ (∃ p, ps[k - i]? = some p ∧ p.pid = pid)
      ∧ ∀ j, j < k - i → ∀ p, ps[j]? = some p → p.pid ≠ pid := by
  induction ps generalizing i with
  | nil => simp [find_pid] at h
  | cons a as ih =>
    simp only [find_pid] at h
    split_ifs at h with ha
    · simp only [Option.some.injEq] at h
      subst h
      refine ⟨le_refl _, ⟨a, by simp, ha⟩, ?_⟩
      intro j hj
      omega
    · obtain ⟨h1, ⟨p, hp, hpp⟩, h3⟩ := ih h
      have hk : k - i = (k - (i + 1)) + 1 := by omega
      refine ⟨by omega, ⟨p, ?_, hpp⟩, ?_⟩
      · rw [hk, List.getElem?_cons_succ]
        exact hp
      · intro j hj q hq
        cases j with
        | zero =>
          simp only [List.getElem?_cons_zero, Option.some.injEq] at hq
          rw [← hq]
          exact ha
        | succ j =>
          rw [List.getElem?_cons_succ] at hq
          exact h3 j (by omega) q hq

theorem find_pid_of_first {pid : Int} {ps : List Proc} {i k : Nat}
    (hk : ∃ p, ps[k]? = some p ∧ p.pid = pid)
    (hlt : ∀ j, j < k → ∀ p, ps[j]? = some p → p.pid ≠ pid) :
    find_pid pid ps i = some (i + k) := by
  induction ps generalizing i k with
  | nil =>
    obtain ⟨p, hp, _⟩ := hk
    simp at hp
  | cons a as ih =>
    cases k with
    | zero =>
      obtain ⟨p, hp, hpp⟩ := hk
      simp only [List.getElem?_cons_zero, Option.some.injEq] at hp
      subst hp
      simp [find_pid, hpp]
    | succ k =>
      have ha : a.pid ≠ pid := hlt 0 (by omega) a (by simp)
      simp only [find_pid, if_neg ha]
      rw [ih (i := i + 1) (k := k)]
      · congr 1
        omega
      · obtain ⟨p, hp, hpp⟩ := hk
        exact ⟨p, by simpa using hp, hpp⟩
      · intro j hj p hp
        exact hlt (j + 1) (by omega) p (by simpa using hp)

theorem find_pid_set_group {pid : Int} {ps : List Proc} {k : Nat} (g : Group)
    (h : find_pid pid ps 0 = some k) :
    find_pid pid (ps.set k { ps.getD k default with group := g }) 0 = some k := by
  obtain ⟨_, ⟨p, hp, hpp⟩, hlt⟩ := find_pid_some h
  simp only [Nat.sub_zero] at hp hlt
  have hklt : k < ps.length := by
    by_contra hge
    rw [List.getElem?_eq_none (by omega)] at hp
    exact absurd hp (by simp)
  have := @find_pid_of_first pid (ps.set k { ps.getD k default with group := g }) 0 k ?_ ?_
  · simpa using this
  · refine ⟨{ ps.getD k default with group := g }, ?_, ?_⟩
    · simp [List.getElem?_set, hklt]
    · simp only [List.getD_eq_getElem?_getD, hp, Option.getD_some]
      exact hpp
  · intro j hj q hq
    rw [List.getElem?_set_ne (by omega)] at hq
    exact hlt j hj q hq

theorem scan_groups_new_slot {pid pgid : Int} {gs : List Group} {i k : Nat}
    (h : scan_groups pid pgid gs i = Scan.new_slot k) :
    i ≤ k ∧ (∃ g, gs[k - i]? = some g ∧ g.gid = -1) ∧ ¬ (pgid ≠ 0 ∧ pid ≠ pgid) := by
  induction gs generalizing i with
  | nil => simp [scan_groups] at h
  | cons a as ih =>
    simp only [scan_groups] at h
    split_ifs at h with h1 h2 h3
    · simp only [Scan.new_slot.injEq] at h
      subst h
      exact ⟨le_refl _, ⟨a, by simp, h1⟩, h2⟩
    · obtain ⟨h4, ⟨g, hg, hgg⟩, h5⟩ := ih h
      have hk : k - i = (k - (i + 1)) + 1 := by omega
      refine ⟨by omega, ⟨g, ?_, hgg⟩, h5⟩
      rw [hk, List.getElem?_cons_succ]
      exact hg

theorem scan_groups_found {pid pgid : Int} {gs : List Group} {i : Nat} {g : Group}
    (h : scan_groups pid pgid gs i = Scan.found g) : g ∈ gs ∧ g.gid = pgid := by
  induction gs generalizing i with
  | nil => simp [scan_groups] at h
  | cons a as ih =>
    simp only [scan_groups] at h
    split_ifs at h with h1 h2 h3
    · simp only [Scan.found.injEq] at h
      subst h
      exact ⟨by simp, h3⟩
    · obtain ⟨h4, h5⟩ := ih h
      exact ⟨List.mem_cons_of_mem _ h4, h5⟩

theorem scan_groups_finished {pid pgid : Int} {gs : List Group} {i : Nat}
    (h : scan_groups pid pgid gs i = Scan.finished) : ∀ g ∈ gs, g.gid ≠ -1 := by
  induction gs generalizing i with
  | nil => simp
  | cons a as ih =>
    simp only [scan_groups] at h
    split_ifs at h with h1 h2 h3
    intro g hg
    rcases List.mem_cons.1 hg with hg | hg
    · rw [hg]
      exact h1
    · exact ih h g hg

theorem scan_groups_not_finished {pid pgid : Int} {s : State}
    (hfree : has_free_slot s = true) :
    scan_groups pid pgid s.group_table 0 ≠ Scan.finished := by
  intro h
  have hall := scan_groups_finished h
  simp only [has_free_slot, List.any_eq_true, beq_iff_eq] at hfree
  obtain ⟨g, hg, hgg⟩ := hfree
  exact hall g hg hgg

theorem inv_init : Inv init := by
  constructor
  · intro g hg
    have : g = ⟨1⟩ := by
      have h0 : init.group_table[0]? = some ⟨1⟩ := by decide
      rw [h0] at hg
      exact (Option.some.inj hg).symm
    rw [this]
    decide
  · decide

theorem inv_setpid {s : State} (hinv : Inv s) (pid : Int) : Inv (nanvix_setpid s pid) := by
  unfold nanvix_setpid
  cases hf : find_pid (-1) s.proc_table 0 with
  | none => exact hinv
  | some i =>
    obtain ⟨_, ⟨p, hp, _⟩, _⟩ := find_pid_some hf
    simp only [Nat.sub_zero] at hp
    refine ⟨hinv.slot0, ?_⟩
    intro q hq
    simp only at hq
    rcases List.mem_or_eq_of_mem_set hq with hq | hq
    · exact hinv.groups q hq
    · have hmem : p ∈ s.proc_table := List.getElem?_mem hp
      have := hinv.groups p hmem
      rw [hq]
      simp only [List.getD_eq_getElem?_getD, hp, Option.getD_some]
      exact this

/-- The result of a `nanvix_setpgid` that gets past its guards. -/
theorem setpgid_success {garbage : Group} {s : State} {pid pgid : Int}
    (hinv : Inv s) (hfree : has_free_slot s = true)
    (h0 : (nanvix_setpgid garbage s pid pgid).1 = 0) :
    ∃ i gid gt, find_pid (target_pid s pid) s.proc_table 0 = some i
      ∧ (nanvix_setpgid garbage s pid pgid).2
        = { s with
            group_table := gt
            proc_table := s.proc_table.set i
              { s.proc_table.getD i default with group := ⟨gid⟩ } }
      ∧ ⟨gid⟩ ∈ gt
      ∧ (pgid ≠ 0 → gid = pgid)
      ∧ (∀ g, gt[0]? = some g → g.gid ≠ -1)
      ∧ (∀ g ∈ s.group_table, g.gid ≠ -1 → g ∈ gt) := by
  have hE1 : ¬ (-EINVAL = (0 : Int)) := by decide
  have hE2 : ¬ (-EPERM = (0 : Int)) := by decide
  have hE3 : ¬ (-ESRCH = (0 : Int)) := by decide
  have hnf := @scan_groups_not_finished pid pgid _ hfree
  unfold nanvix_setpgid at h0 ⊢
  by_cases hneg : pgid < 0
  · rw [if_pos hneg] at h0
    exact absurd h0 hE1
  rw [if_neg hneg] at h0 ⊢
  cases hscan : scan_groups pid pgid s.group_table 0 with
  | eperm =>
    rw [hscan] at h0
    exact absurd h0 hE2
  | finished => exact absurd hscan hnf
  | new_slot k =>
    rw [hscan] at h0
    simp only at h0 ⊢
    obtain ⟨_, ⟨g0, hg0, hg0g⟩, hperm⟩ := scan_groups_new_slot hscan
    simp only [Nat.sub_zero] at hg0
    have hk0 : k ≠ 0 := by
      intro hk
      subst hk
      exact hinv.slot0 g0 hg0 hg0g
    have hklt : k < s.group_table.length := by
      by_contra hge
      rw [List.getElem?_eq_none (by omega)] at hg0
      exact absurd hg0 (by simp)
    cases hf : find_pid (if pid = 0 then nanvix_getpid s else pid) s.proc_table 0 with
    | none =>
      rw [hf] at h0
      exact absurd h0 hE3
    | some i =>
      refine ⟨i, (if pid = 0 then nanvix_getpid s else pid),
        s.group_table.set k ⟨if pid = 0 then nanvix_getpid s else pid⟩, hf, ?_, ?_, ?_, ?_, ?_⟩
      · simp only [hk0, ne_eq, not_false_eq_true, if_true]
      · exact List.mem_iff_getElem?.2 ⟨k, by simp [List.getElem?_set, hklt]⟩
      · intro hp
        have hpp : pid = pgid := by
          by_contra hne
          exact hperm ⟨hp, hne⟩
        have hpid : pid ≠ 0 := by
          rw [hpp]
          exact hp
        rw [if_neg hpid, hpp]
      · intro g hg
        rw [List.getElem?_set_ne hk0] at hg
        exact hinv.slot0 g hg
      · intro g hg hgg
        obtain ⟨j, hj⟩ := List.mem_iff_getElem?.1 hg
        have hjk : k ≠ j := by
          intro hjk
          subst hjk
          rw [hg0] at hj
          exact hgg (by rw [← Option.some.inj hj]; exact hg0g)
        exact List.mem_iff_getElem?.2 ⟨j, by rw [List.getElem?_set_ne hjk]; exact hj⟩
  | found g =>
    rw [hscan] at h0
    simp only at h0 ⊢
    obtain ⟨hg, hgg⟩ := scan_groups_found hscan
    cases hf : find_pid (if pid = 0 then nanvix_getpid s else pid) s.proc_table 0 with
    | none =>
      rw [hf] at h0
      exact absurd h0 hE3
    | some i =>
      refine ⟨i, g.gid, s.group_table, hf, ?_, hg, fun _ => hgg, hinv.slot0,
        fun g _ _ => by assumption⟩
      simp only [ne_eq, not_true_eq_false, if_false]

theorem setpgid_ret (garbage : Group) (s : State) (pid pgid : Int) :
    ((nanvix_setpgid garbage s pid pgid).1 = 0
      ∨ (nanvix_setpgid garbage s pid pgid).1 = -EINVAL
      ∨ (nanvix_setpgid garbage s pid pgid).1 = -EPERM
      ∨ (nanvix_setpgid garbage s pid pgid).1 = -ESRCH)
    ∧ ((nanvix_setpgid garbage s pid pgid).1 ≠ 0 →
      (nanvix_setpgid garbage s pid pgid).2 = s) := by
  unfold nanvix_setpgid
  by_cases hneg : pgid < 0
  · rw [if_pos hneg]
    exact ⟨Or.inr (Or.inl rfl), fun _ => rfl⟩
  rw [if_neg hneg]
  cases scan_groups pid pgid s.group_table 0 with
  | eperm => exact ⟨Or.inr (Or.inr (Or.inl rfl)), fun _ => rfl⟩
  | finished =>
    simp only
    cases find_pid (if pid = 0 then nanvix_getpid s else pid) s.proc_table 0 with
    | none => exact ⟨Or.inr (Or.inr (Or.inr rfl)), fun _ => rfl⟩
    | some i => exact ⟨Or.inl rfl, fun h => absurd rfl h⟩
  | new_slot k =>
    simp only
    cases find_pid (if pid = 0 then nanvix_getpid s else pid) s.proc_table 0 with
    | none => exact ⟨Or.inr (Or.inr (Or.inr rfl)), fun _ => rfl⟩
    | some i => exact ⟨Or.inl rfl, fun h => absurd rfl h⟩
  | found g =>
    simp only
    cases find_pid (if pid = 0 then nanvix_getpid s else pid) s.proc_table 0 with
    | none => exact ⟨Or.inr (Or.inr (Or.inr rfl)), fun _ => rfl⟩
    | some i => exact ⟨Or.inl rfl, fun h => absurd rfl h⟩

theorem inv_setpgid {garbage : Group} {s : State} (hinv : Inv s)
    (hfree : has_free_slot s = true) (pid pgid : Int) :
    Inv (nanvix_setpgid garbage s pid pgid).2 := by
  by_cases h0 : (nanvix_setpgid garbage s pid pgid).1 = 0
  · obtain ⟨i, gid, gt, hf, hst, hmem, _, hslot, hkeep⟩ := setpgid_success hinv hfree h0
    rw [hst]
    refine ⟨hslot, ?_⟩
    intro q hq
    simp only at hq ⊢
    rcases List.mem_or_eq_of_mem_set hq with hq | hq
    · rcases hinv.groups q hq with hg | ⟨g, hg, hgg⟩
      · exact Or.inl hg
      · by_cases hm : g.gid = -1
        · exact Or.inl (by rw [← hgg]; exact hm)
        · exact Or.inr ⟨g, hkeep g hg hm, hgg⟩
    · rw [hq]
      exact Or.inr ⟨⟨gid⟩, hmem, rfl⟩
  · rw [(setpgid_ret garbage s pid pgid).2 h0]
    exact hinv

theorem pm_inv_of_reachable {garbage : Group} {s : State} (h : Reachable garbage s) : Inv s := by
  induction h with
  | start => exact inv_init
  | step op _ hfree ih =>
    cases op with
    | setpid pid => exact inv_setpid ih pid
    | setpgid pid pgid => exact inv_setpgid ih hfree pid pgid

set_option maxRecDepth 100000 in
/-- Counterexample to C29 as stated.  Right after `proc_table_init` and
`group_table_init`, `nanvix_setpgid(0, 0)` returns 0 and stores the ID 1 of
the calling process in slot 1 of `group_table`, although slot 0 already
holds the group 1: two allocated entries hold the same group ID.  And once
63 such calls have taken every slot, `nanvix_setpgid(1, 7)` finds neither a
free slot nor the group 7, returns 0 and copies the local variable `group`,
which was never assigned (99 here), to the process: `nanvix_getpgid(1)` is
not 7 and no entry of `group_table` holds that ID. -/
theorem setpgid_duplicates_group :
    (nanvix_setpgid ⟨99⟩ init 0 0).1 = 0
    ∧ (nanvix_setpgid ⟨99⟩ init 0 0).2.group_table.take 3 = [⟨1⟩, ⟨1⟩, ⟨-1⟩]
    ∧ has_free_slot (full ⟨99⟩) = false
    ∧ (nanvix_setpgid ⟨99⟩ (full ⟨99⟩) 1 7).1 = 0
    ∧ nanvix_getpgid (nanvix_setpgid ⟨99⟩ (full ⟨99⟩) 1 7).2 1 = 99
    ∧ (∀ g ∈ (nanvix_setpgid ⟨99⟩ (full ⟨99⟩) 1 7).2.group_table, g.gid ≠ 99) := by
  decide

/-- Claim C29 (amended): in every state reached from the initial tables by
calls of `nanvix_setpid` and `nanvix_setpgid`, each made while
`group_table` has a free slot, and while it still has one: the group ID of
every process entry is -1 or occurs in `group_table`, before and after a
further call; when `nanvix_setpgid(pid, pgid)` returns 0 with `pgid != 0`,
the following `nanvix_getpgid` of the affected process (the calling process
when `pid` is 0) returns `pgid`; `nanvix_setpgid` returns 0, `-EINVAL`,
`-EPERM` or `-ESRCH`, and a call that does not return 0 changes neither
table. -/
theorem group_table_consistent (garbage : Group) (s : State) (hs : Reachable garbage s)
    (hfree : has_free_slot s = true) (pid pgid : Int) :
    (∀ p ∈ s.proc_table, p.group.gid = -1 ∨ ∃ g ∈ s.group_table, g.gid = p.group.gid)
    ∧ (∀ op, ∀ p ∈ (apply_op garbage s op).2.proc_table,
      p.group.gid = -1 ∨ ∃ g ∈ (apply_op garbage s op).2.group_table, g.gid = p.group.gid)
    ∧ ((nanvix_setpgid garbage s pid pgid).1 = 0 → pgid ≠ 0 →
      nanvix_getpgid (nanvix_setpgid garbage s pid pgid).2 (target_pid s pid) = pgid)
    ∧ ((nanvix_setpgid garbage s pid pgid).1 = 0
      ∨ (nanvix_setpgid garbage s pid pgid).1 = -EINVAL
      ∨ (nanvix_setpgid garbage s pid pgid).1 = -EPERM
      ∨ (nanvix_setpgid garbage s pid pgid).1 = -ESRCH)
    ∧ ((nanvix_setpgid garbage s pid pgid).1 ≠ 0 →
      (nanvix_setpgid garbage s pid pgid).2 = s) := by
  have hinv := pm_inv_of_reachable hs
  refine ⟨hinv.groups, ?_, ?_, (setpgid_ret garbage s pid pgid).1,
    (setpgid_ret garbage s pid pgid).2⟩
  · intro op
    exact (pm_inv_of_reachable (Reachable.step op hs hfree)).groups
  · intro h0 hp
    obtain ⟨i, gid, gt, hf, hst, _, hgid, _, _⟩ := setpgid_success hinv hfree h0
    rw [hst]
    simp only [nanvix_getpgid]
    rw [find_pid_set_group ⟨gid⟩ hf]
    obtain ⟨_, ⟨p, hpi, _⟩, _⟩ := find_pid_some hf
    simp only [Nat.sub_zero] at hpi
    have hilt : i < s.proc_table.length := by
      by_contra hge
      rw [List.getElem?_eq_none (by omega)] at hpi
      exact absurd hpi (by simp)
    simp only [List.getD_eq_getElem?_getD, List.getElem?_set, hilt, if_true, Option.getD_some]
    exact hgid hp

/-- Witness of C29 (amended): right after the initialisation, process 1
joins the group 1. -/
theorem group_table_consistent_witness :
    nanvix_getpgid (nanvix_setpgid ⟨99⟩ init 1 1).2 (target_pid init 1) = 1 :=
  (group_table_consistent ⟨99⟩ init Reachable.start (by decide) 1 1).2.2.1
    (by decide) (by decide)

end Pm

namespace Dijkstra

/-! # Properties of the queue of the Dijkstra kernel -/

theorem find_filter_ne (h : Heap) (a b : Nat) :
    (h.filter fun c => c.1 != a).find? (fun c => c.1 == b)
      = if b = a then none else h.find? fun c => c.1 == b := by
  induction h with
  | nil => simp
  | cons c cs ih =>
    by_cases hca : c.1 = a
    · have h1 : (c.1 != a) = false := by simp [hca]
      simp only [List.filter_cons, h1, Bool.false_eq_true, if_false, ih]
      by_cases hba : b = a
      · simp [hba]
      · have hcb : (c.1 == b) = false := by
          rw [hca]
          simp only [beq_eq_false_iff_ne, ne_eq]
          exact fun h => hba h.symm
        simp only [if_neg hba, List.find?_cons, hcb]
    · have h1 : (c.1 != a) = true := by simp [hca]
      simp only [List.filter_cons, h1, if_true, List.find?_cons, ih]
      by_cases hcb : c.1 = b
      · have hba : ¬ b = a := by
          rw [← hcb]
          exact hca
        have h2 : (c.1 == b) = true := by simp [hcb]
        simp only [h2, if_neg hba]
      · have h2 : (c.1 == b) = false := by simp [hcb]
        simp only [h2]

theorem heap_get_put (h : Heap) (a : Nat) (x : Item) (b : Nat) :
    heap_get (heap_put h a x) b = if b = a then some x else heap_get h b := by
  unfold heap_get heap_put
  by_cases hba : b = a
  · have h2 : (a == b) = true := by simp [hba]
    simp only [List.find?_cons, h2, if_pos hba, Option.map_some']
  · have h2 : (a == b) = false := by
      simp only [beq_eq_false_iff_ne, ne_eq]
      exact fun h => hba h.symm
    simp only [List.find?_cons, h2, if_neg hba, find_filter_ne]

theorem heap_get_free (h : Heap) (a b : Nat) :
    heap_get (heap_free h a) b = if b = a then none else heap_get h b := by
  unfold heap_get heap_free
  rw [find_filter_ne]
  split_ifs <;> rfl

theorem heap_get_mem {h : Heap} {a : Nat} {it : Item} (hg : heap_get h a = some it) :
    a ∈ h.map Prod.fst := by
  unfold heap_get at hg
  cases hf : h.find? (fun b => b.1 == a) with
  | none => simp [hf] at hg
  | some c =>
    have hc := List.find?_some hf
    have hm := List.mem_of_find?_eq_some hf
    simp only [beq_iff_eq] at hc
    exact List.mem_map.2 ⟨c, hm, hc⟩

theorem isQueue_live {h : Heap} {hd : Option Nat} {as : List Nat}
    {xs : List (Int × Int × Int)} (hq : IsQueue h hd as xs) :
    ∀ a ∈ as, ∃ it, heap_get h a = some it := by
  induction hq with
  | nil => simp
  | cons hg _ ih =>
    intro b hb
    rcases List.mem_cons.1 hb with hb | hb
    · exact ⟨_, hb ▸ hg⟩
    · exact ih b hb

theorem isQueue_length {h : Heap} {hd : Option Nat} {as : List Nat}
    {xs : List (Int × Int × Int)} (hq : IsQueue h hd as xs) : as.length = xs.length := by
  induction hq with
  | nil => rfl
  | cons _ _ ih => simp [ih]

theorem isQueue_frame {h h2 : Heap} {hd : Option Nat} {as : List Nat}
    {xs : List (Int × Int × Int)} (hq : IsQueue h hd as xs)
    (hsame : ∀ a ∈ as, heap_get h2 a = heap_get h a) : IsQueue h2 hd as xs := by
  induction hq with
  | nil => exact IsQueue.nil
  | cons hg _ ih =>
    refine IsQueue.cons ?_ (ih fun a ha => hsame a (List.mem_cons_of_mem _ ha))
    rw [hsame _ (List.mem_cons_self _ _)]
    exact hg

theorem isQueue_length_le {h : Heap} {hd : Option Nat} {as : List Nat}
    {xs : List (Int × Int × Int)} (hq : IsQueue h hd as xs) (hnd : as.Nodup) :
    as.length ≤ h.length := by
  have hsub : as ⊆ h.map Prod.fst := by
    intro a ha
    obtain ⟨it, hit⟩ := isQueue_live hq a ha
    exact heap_get_mem hit
  have := (List.subperm_of_subset hnd hsub).length_le
  simpa using this

theorem isQueue_head {h : Heap} {hd : Option Nat} {as : List Nat}
    {xs : List (Int × Int × Int)} (hq : IsQueue h hd as xs) : hd = as.head? := by
  cases hq with
  | nil => rfl
  | cons _ _ => rfl

/-- Walking from the head of a queue reaches its last block, and linking a
new block behind it appends one item to the queue. -/
theorem isQueue_snoc {h : Heap} {hd : Option Nat} {as : List Nat}
    {xs : List (Int × Int × Int)} (hq : IsQueue h hd as xs) (new : Nat) (n d p : Int) :
    ∀ (a : Nat) (fuel : Nat), hd = some a → as.Nodup → new ∉ as →
      heap_get h new = some ⟨none, n, d, p⟩ → as.length ≤ fuel →
      ∃ last it, last_item fuel h a = Except.ok last ∧ last ∈ as
        ∧ heap_get h last = some it
        ∧ IsQueue (heap_put h last { it with next := some new }) hd (as ++ [new])
            (xs ++ [(n, d, p)]) := by
  induction hq with
  | nil =>
    intro a fuel hhd
    exact absurd hhd (by simp)
  | @cons b it as2 xs2 hg hrest ih =>
    intro a fuel hhd hnd hnew hgn hfuel
    have hab : a = b := (Option.some.inj hhd).symm
    subst hab
    obtain ⟨fuel2, hf2⟩ : ∃ f, fuel = f + 1 := ⟨fuel - 1, by simp at hfuel; omega⟩
    subst hf2
    have hnd2 : as2.Nodup := (List.nodup_cons.1 hnd).2
    have hanot : a ∉ as2 := (List.nodup_cons.1 hnd).1
    have hnew2 : new ∉ as2 := fun hm => hnew (List.mem_cons_of_mem _ hm)
    have hna : new ≠ a := fun he => hnew (he ▸ List.mem_cons_self _ _)
    cases hnext : it.next with
    | none =>
      rw [hnext] at hrest
      cases hrest
      refine ⟨a, it, ?_, List.mem_cons_self _ _, hg, ?_⟩
      · simp only [last_item, hg, hnext]
      · have h1 : heap_get (heap_put h a { it with next := some new }) a
            = some { it with next := some new } := by
          rw [heap_get_put, if_pos rfl]
        have h2 : heap_get (heap_put h a { it with next := some new }) new
            = some ⟨none, n, d, p⟩ := by
          rw [heap_get_put, if_neg hna, hgn]
        have hq2 : IsQueue (heap_put h a { it with next := some new }) (some new) [new]
            [(n, d, p)] :=
          @IsQueue.cons _ new ⟨none, n, d, p⟩ [] [] h2 IsQueue.nil
        exact @IsQueue.cons _ a { it with next := some new } [new] [(n, d, p)] h1 hq2
    | some c =>
      rw [hnext] at hrest ih
      have hlen : as2.length ≤ fuel2 := by
        simp only [List.length_cons] at hfuel
        omega
      obtain ⟨last, itl, hl1, hl2, hl3, hl4⟩ := ih c fuel2 rfl hnd2 hnew2 hgn hlen
      have hla : last ≠ a := fun he => hanot (he ▸ hl2)
      refine ⟨last, itl, ?_, List.mem_cons_of_mem _ hl2, hl3, ?_⟩
      · simp only [last_item, hg, hnext]
        exact hl1
      · have h1 : heap_get (heap_put h last { itl with next := some new }) a = some it := by
          rw [heap_get_put, if_neg (Ne.symm hla), hg]
        have hl5 : IsQueue (heap_put h last { itl with next := some new }) it.next
            (as2 ++ [new]) (xs2 ++ [(n, d, p)]) := by
          rw [hnext]
          exact hl4
        exact IsQueue.cons h1 hl5

/-- The queue that a state holds: its blocks are pairwise distinct and
`queue_count` is the number of its items. -/
theorem enqueue_spec {malloc : Malloc} (hfresh : Fresh malloc) {s : State} {as : List Nat}
    {xs : List (Int × Int × Int)} (hq : IsQueue s.heap s.head as xs) (hnd : as.Nodup)
    (hcount : s.queue_count = xs.length) (n d p : Int) :
    (malloc s.heap = none ∧ enqueue malloc s n d p = Except.ok (-1, s))
    ∨ ∃ new s2, malloc s.heap = some new ∧ enqueue malloc s n d p = Except.ok (0, s2)
        ∧ IsQueue s2.heap s2.head (as ++ [new]) (xs ++ [(n, d, p)])
        ∧ (as ++ [new]).Nodup
        ∧ s2.queue_count = (xs ++ [(n, d, p)]).length
        ∧ s2.path_nodes = s.path_nodes := by
  cases hm : malloc s.heap with
  | none =>
    left
    simp only [enqueue, hm, and_self]
  | some new =>
    right
    have hfree := hfresh _ _ hm
    have hnew : new ∉ as := by
      intro hmem
      obtain ⟨it, hit⟩ := isQueue_live hq new hmem
      rw [hfree] at hit
      exact absurd hit (by simp)
    have hnd2 : (as ++ [new]).Nodup := by
      rw [List.nodup_append]
      refine ⟨hnd, List.nodup_singleton _, ?_⟩
      intro a ha hb
      rw [List.mem_singleton] at hb
      exact hnew (hb ▸ ha)
    have hgn : heap_get (heap_put s.heap new ⟨none, n, d, p⟩) new = some ⟨none, n, d, p⟩ := by
      rw [heap_get_put, if_pos rfl]
    have hq1 : IsQueue (heap_put s.heap new ⟨none, n, d, p⟩) s.head as xs := by
      apply isQueue_frame hq
      intro a ha
      have : a ≠ new := fun he => hnew (he ▸ ha)
      rw [heap_get_put, if_neg this]
    cases hhd : s.head with
    | none =>
      rw [hhd] at hq
      cases hq
      refine ⟨new, ⟨heap_put s.heap new ⟨none, n, d, p⟩, some new, s.queue_count + 1,
        s.path_nodes⟩, rfl, ?_, ?_, hnd2, ?_, rfl⟩
      · simp only [enqueue, hm, hhd]
      · exact @IsQueue.cons _ new ⟨none, n, d, p⟩ [] [] hgn IsQueue.nil
      · simp only [hcount]
        simp
    | some a =>
      rw [hhd] at hq1
      have hlen : as.length ≤ (heap_put s.heap new ⟨none, n, d, p⟩).length :=
        isQueue_length_le hq1 hnd
      obtain ⟨last, itl, hl1, _, hl3, hl4⟩ :=
        isQueue_snoc hq1 new n d p a _ rfl hnd hnew hgn hlen
      refine ⟨new, ⟨heap_put (heap_put s.heap new ⟨none, n, d, p⟩) last
        { itl with next := some new }, s.head, s.queue_count + 1, s.path_nodes⟩, rfl, ?_, ?_,
        hnd2, ?_, rfl⟩
      · simp only [enqueue, hm, hhd, hl1, hl3]
      · simp only [hhd]
        exact hl4
      · simp only [hcount]
        simp

theorem dequeue_spec {s : State} {as : List Nat} {xs : List (Int × Int × Int)}
    (hq : IsQueue s.heap s.head as xs) (hnd : as.Nodup)
    (hcount : s.queue_count = xs.length) :
    (xs = [] ∧ dequeue s = Except.ok (-1, s, none))
    ∨ ∃ x xs2 a as2 s2, xs = x :: xs2 ∧ as = a :: as2
        ∧ dequeue s = Except.ok (0, s2, some x)
        ∧ IsQueue s2.heap s2.head as2 xs2 ∧ as2.Nodup
        ∧ s2.queue_count = xs2.length ∧ s2.path_nodes = s.path_nodes := by
  cases hhd : s.head with
  | none =>
    left
    rw [hhd] at hq
    cases hq
    exact ⟨rfl, by simp only [dequeue, hhd]⟩
  | some a =>
    right
    rw [hhd] at hq
    cases hq with
    | @cons _ it as2 xs2 hg hrest =>
      have hanot : a ∉ as2 := (List.nodup_cons.1 hnd).1
      refine ⟨_, xs2, a, as2, ⟨heap_free s.heap a, it.next, s.queue_count - 1, s.path_nodes⟩,
        rfl, rfl, ?_, ?_, (List.nodup_cons.1 hnd).2, ?_, rfl⟩
      · simp only [dequeue, hhd, hg]
      · apply isQueue_frame hrest
        intro b hb
        have : b ≠ a := fun he => hanot (he ▸ hb)
        simp only [heap_get_free, if_neg this]
      · simp only [hcount, List.length_cons]
        push_cast
        ring

theorem accepted_cons (x : Int × Int × Int) (xs : List (Int × Int × Int)) (r : Int)
    (rs : List Int) :
    accepted (x :: xs) (r :: rs) = if r = 0 then x :: accepted xs rs else accepted xs rs := by
  unfold accepted
  by_cases hr : r = 0
  · simp [hr]
  · simp [hr]

theorem enqueue_all_spec {malloc : Malloc} (hfresh : Fresh malloc)
    (xs : List (Int × Int × Int)) :
    ∀ {s : State} {as : List Nat} {q : List (Int × Int × Int)},
      IsQueue s.heap s.head as q → as.Nodup → s.queue_count = q.length →
      ∃ s1 rets as1, enqueue_all malloc s xs = Except.ok (s1, rets)
        ∧ rets.length = xs.length ∧ (∀ r ∈ rets, r = 0 ∨ r = -1)
        ∧ IsQueue s1.heap s1.head as1 (q ++ accepted xs rets) ∧ as1.Nodup
        ∧ s1.queue_count = (q ++ accepted xs rets).length
        ∧ s1.path_nodes = s.path_nodes := by
  induction xs with
  | nil =>
    intro s as q hq hnd hc
    exact ⟨s, [], as, rfl, rfl, by simp, by simpa [accepted] using hq, hnd,
      by simpa [accepted] using hc, rfl⟩
  | cons x xs ih =>
    intro s as q hq hnd hc
    rcases enqueue_spec hfresh hq hnd hc x.1 x.2.1 x.2.2 with ⟨_, he⟩ | ⟨new, s2, _, he, hq2, hnd2, hc2, hp2⟩
    · obtain ⟨s1, rets, as1, h1, h2, h3, h4, h5, h6, h7⟩ := ih hq hnd hc
      refine ⟨s1, -1 :: rets, as1, ?_, by simp [h2], ?_, ?_, h5, ?_, h7⟩
      · simp only [enqueue_all, he, h1]
      · intro r hr
        rcases List.mem_cons.1 hr with hr | hr
        · exact Or.inr hr
        · exact h3 r hr
      · rw [accepted_cons, if_neg (by decide)]
        exact h4
      · rw [accepted_cons, if_neg (by decide)]
        exact h6
    · obtain ⟨s1, rets, as1, h1, h2, h3, h4, h5, h6, h7⟩ := ih hq2 hnd2 hc2
      refine ⟨s1, 0 :: rets, as1, ?_, by simp [h2], ?_, ?_, h5, ?_, by rw [h7, hp2]⟩
      · simp only [enqueue_all, he, h1]
      · intro r hr
        rcases List.mem_cons.1 hr with hr | hr
        · exact Or.inl hr
        · exact h3 r hr
      · rw [accepted_cons, if_pos rfl]
        simpa using h4
      · rw [accepted_cons, if_pos rfl]
        simpa using h6

theorem isQueue_nil {h : Heap} {hd : Option Nat} {as : List Nat}
    {xs : List (Int × Int × Int)} (hq : IsQueue h hd as xs) (hx : xs = []) :
    hd = none ∧ as = [] := by
  cases hq with
  | nil => exact ⟨rfl, rfl⟩
  | cons _ _ => exact absurd hx (by simp)

theorem dequeue_n_spec (q : List (Int × Int × Int)) :
    ∀ {s : State} {as : List Nat},
      IsQueue s.heap s.head as q → as.Nodup → s.queue_count = q.length →
      ∃ s2, dequeue_n q.length s = Except.ok (s2, q.map fun x => (0, some x))
        ∧ s2.head = none ∧ s2.queue_count = 0 ∧ s2.path_nodes = s.path_nodes := by
  induction q with
  | nil =>
    intro s as hq hnd hc
    exact ⟨s, rfl, (isQueue_nil hq rfl).1, by simpa using hc, rfl⟩
  | cons x xs ih =>
    intro s as hq hnd hc
    rcases dequeue_spec hq hnd hc with ⟨h0, _⟩ | ⟨y, ys, a, as2, s2, hx, _, hd, hq2, hnd2, hc2, hp2⟩
    · exact absurd h0 (by simp)
    · obtain ⟨rfl, rfl⟩ := List.cons.inj hx
      obtain ⟨s3, h1, h2, h3, h4⟩ := ih hq2 hnd2 hc2
      refine ⟨s3, ?_, h2, h3, by rw [h4, hp2]⟩
      simp only [List.length_cons, dequeue_n, hd, h1, List.map_cons]

theorem accepted_all (xs : List (Int × Int × Int)) :
    ∀ rets : List Int, rets.length = xs.length → (∀ r ∈ rets, r = 0) → accepted xs rets = xs := by
  induction xs with
  | nil =>
    intro rets _ _
    simp [accepted]
  | cons x xs ih =>
    intro rets hl hall
    cases rets with
    | nil => simp at hl
    | cons r rs =>
      have hr : r = 0 := hall r (List.mem_cons_self _ _)
      rw [accepted_cons, if_pos hr, ih rs (by simpa using hl)
        (fun r hr => hall r (List.mem_cons_of_mem _ hr))]

/-- Claim C22: with an allocator that only returns blocks that are not
allocated, every sequence of `enqueue` calls on an empty queue runs without
a fault and each call returns 0 or -1; afterwards the linked list holds
exactly the triples whose call returned 0 (all of them when every call
succeeded), in insertion order, and `queue_count` is their number; as many
`dequeue` calls then return 0 and write these triples in this order, and
leave an empty queue with `queue_count = 0`; and `dequeue` on an empty queue
returns -1, writes nothing and leaves the state, `queue_count` included, as
it is. -/
theorem queue_is_fifo (malloc : Malloc) (hfresh : Fresh malloc) (s0 : State)
    (hhead : s0.head = none) (hcount : s0.queue_count = 0) (xs : List (Int × Int × Int)) :
    (∃ s1 rets, enqueue_all malloc s0 xs = Except.ok (s1, rets)
      ∧ rets.length = xs.length ∧ (∀ r ∈ rets, r = 0 ∨ r = -1)
      ∧ ((∀ r ∈ rets, r = 0) → accepted xs rets = xs)
      ∧ (∃ as, IsQueue s1.heap s1.head as (accepted xs rets))
      ∧ s1.queue_count = (accepted xs rets).length
      ∧ ∃ s2, dequeue_n (accepted xs rets).length s1
          = Except.ok (s2, (accepted xs rets).map fun x => (0, some x))
        ∧ s2.head = none ∧ s2.queue_count = 0)
    ∧ (∀ s : State, s.head = none → dequeue s = Except.ok (-1, s, none)) := by
  constructor
  · have hq0 : IsQueue s0.heap s0.head [] [] := by
      rw [hhead]
      exact IsQueue.nil
    obtain ⟨s1, rets, as1, h1, h2, h3, h4, h5, h6, _⟩ :=
      enqueue_all_spec hfresh xs hq0 List.nodup_nil (by simpa using hcount)
    simp only [List.nil_append] at h4 h6
    obtain ⟨s2, hd1, hd2, hd3, _⟩ := dequeue_n_spec (accepted xs rets) h4 h5 h6
    exact ⟨s1, rets, h1, h2, h3, accepted_all xs rets h2, ⟨as1, h4⟩, h6, s2, hd1, hd2, hd3⟩
  · intro s hs
    simp only [dequeue, hs]

theorem fresh_malloc_bump : Fresh malloc_bump := by
  intro h a ha
  simp only [malloc_bump, Option.some.injEq] at ha
  cases hg : heap_get h a with
  | none => rfl
  | some it =>
    exfalso
    have hmem := heap_get_mem hg
    have hle : ∀ (l : List Nat) (m : Nat), ∀ x ∈ l, x ≤ l.foldl max m := by
      intro l
      induction l with
      | nil => simp
      | cons y ys ih =>
        intro m x hx
        simp only [List.foldl_cons]
        rcases List.mem_cons.1 hx with hx | hx
        · subst hx
          have hmono : ∀ (l : List Nat) (m : Nat), m ≤ l.foldl max m := by
            intro l
            induction l with
            | nil => simp
            | cons z zs ih2 =>
              intro m
              simp only [List.foldl_cons]
              exact le_trans (le_max_left _ _) (ih2 _)
          exact le_trans (le_max_right _ _) (hmono ys _)
        · exact ih _ x hx
    have := hle _ 0 a hmem
    omega

/-- Witness of C22: three triples through the queue with the allocator
`malloc_bump`. -/
theorem queue_is_fifo_witness :
    ∃ s1 rets, enqueue_all malloc_bump s_empty [(1, 2, 3), (4, 5, 6), (7, 8, 9)]
        = Except.ok (s1, rets)
      ∧ rets.length = [((1 : Int), (2 : Int), (3 : Int)), (4, 5, 6), (7, 8, 9)].length
      ∧ (∀ r ∈ rets, r = 0 ∨ r = -1)
      ∧ ((∀ r ∈ rets, r = 0) → accepted [(1, 2, 3), (4, 5, 6), (7, 8, 9)] rets
          = [(1, 2, 3), (4, 5, 6), (7, 8, 9)])
      ∧ (∃ as, IsQueue s1.heap s1.head as (accepted [(1, 2, 3), (4, 5, 6), (7, 8, 9)] rets))
      ∧ s1.queue_count = (accepted [(1, 2, 3), (4, 5, 6), (7, 8, 9)] rets).length
      ∧ ∃ s2, dequeue_n (accepted [(1, 2, 3), (4, 5, 6), (7, 8, 9)] rets).length s1
          = Except.ok (s2, (accepted [(1, 2, 3), (4, 5, 6), (7, 8, 9)] rets).map
              fun x => (0, some x))
        ∧ s2.head = none ∧ s2.queue_count = 0 :=
  (queue_is_fifo malloc_bump fresh_malloc_bump s_empty rfl rfl
    [(1, 2, 3), (4, 5, 6), (7, 8, 9)]).1

/-! ## The routine `nanvix_dijkstra` -/

theorem edge_nonneg {adj : List Int} (hadj : ∀ x, x ∈ adj → 0 ≤ x) (u v : Nat) :
    0 ≤ edge adj u v := by
  unfold edge
  rw [List.getD_eq_getElem?_getD]
  cases h : adj[u * NUM_NODES + v]? with
  | none => simp
  | some x => simpa using hadj x (List.getElem?_mem h)

theorem walk_nonneg {adj : List Int} (hadj : ∀ x, x ∈ adj → 0 ≤ x) {u v : Nat} {c : Int}
    (hw : Walk adj u v c) : 0 ≤ c := by
  induction hw with
  | nil _ => exact le_refl 0
  | snoc _ _ _ ih => exact add_nonneg ih (edge_nonneg hadj _ _)

theorem walk_lt {adj : List Int} {u v : Nat} {c : Int} (hw : Walk adj u v c) :
    v < NUM_NODES := by
  cases hw with
  | nil h => exact h
  | snoc _ h _ => exact h

theorem dist_of_eq {P : List Node} {i : Nat} {pn : Node} (h : P[i]? = some pn) :
    dist_of P i = pn.dist := by
  unfold dist_of
  rw [List.getD_eq_getElem?_getD, h]
  rfl

theorem dist_of_set {P : List Node} {i : Nat} (hi : i < P.length) (x : Node) (v : Nat) :
    dist_of (P.set i x) v = if v = i then x.dist else dist_of P v := by
  unfold dist_of
  rw [List.getD_eq_getElem?_getD, List.getD_eq_getElem?_getD]
  by_cases hv : v = i
  · subst hv
    rw [if_pos rfl, List.getElem?_set_self hi]
    rfl
  · rw [if_neg hv, List.getElem?_set_ne (Ne.symm hv)]

theorem prev_of_set {P : List Node} {i : Nat} (hi : i < P.length) (x : Node) (v : Nat) :
    prev_of (P.set i x) v = if v = i then x.prev else prev_of P v := by
  unfold prev_of
  rw [List.getD_eq_getElem?_getD, List.getD_eq_getElem?_getD]
  by_cases hv : v = i
  · subst hv
    rw [if_pos rfl, List.getElem?_set_self hi]
    rfl
  · rw [if_neg hv, List.getElem?_set_ne (Ne.symm hv)]

theorem sum_map_set (f : Node → Nat) :
    ∀ (P : List Node) (i : Nat) (pn x : Node), P[i]? = some pn →
      ((P.set i x).map f).sum + f pn = (P.map f).sum + f x := by
  intro P
  induction P with
  | nil => intro i pn x h; simp at h
  | cons a P ih =>
    intro i pn x h
    cases i with
    | zero =>
      simp only [List.getElem?_cons_zero, Option.some.injEq] at h
      subst h
      simp only [List.set_cons_zero, List.map_cons, List.sum_cons]
      omega
    | succ i =>
      simp only [List.getElem?_cons_succ] at h
      have := ih i pn x h
      simp only [List.set_cons_succ, List.map_cons, List.sum_cons]
      omega

theorem closer_set {P : List Node} {i : Nat} {pn : Node} (h : P[i]? = some pn) (x : Node)
    (hx : 0 < x.dist) (hold : 0 ≤ pn.dist) (hlt : pn.dist = 0 ∨ x.dist < pn.dist) :
    Closer (P.set i x) P := by
  have hz := sum_map_set (fun n => if n.dist = 0 then 1 else 0) P i pn x h
  have ht := sum_map_set (fun n => n.dist.toNat) P i pn x h
  unfold Closer zeros total
  simp only at hz ht
  have hx0 : ¬ x.dist = 0 := by omega
  rw [if_neg hx0] at hz
  by_cases h0 : pn.dist = 0
  · rw [if_pos h0] at hz
    left
    omega
  · rw [if_neg h0] at hz
    right
    have hlt2 : x.dist < pn.dist := by
      rcases hlt with hlt | hlt
      · exact absurd hlt h0
      · exact hlt
    refine ⟨by omega, ?_⟩
    have : x.dist.toNat < pn.dist.toNat := by omega
    omega

theorem closer_trans {P1 P2 P3 : List Node} (h12 : Closer P2 P1) (h23 : Closer P3 P2) :
    Closer P3 P1 := by
  unfold Closer at *
  omega

theorem relaxed_mono {adj : List Int} {P P2 : List Node} {u : Nat} {l : Int} {i : Nat}
    (hmono : ∀ v, dist_of P v ≠ 0 → dist_of P2 v ≠ 0 ∧ dist_of P2 v ≤ dist_of P v)
    (hr : Relaxed adj P u l i) : Relaxed adj P2 u l i := by
  intro v hv he
  obtain ⟨h1, h2⟩ := hr v hv he
  obtain ⟨h3, h4⟩ := hmono v h1
  exact ⟨h3, le_trans h4 h2⟩

theorem relaxed_succ {adj : List Int} {P : List Node} {u : Nat} {l : Int} {i : Nat}
    (hr : Relaxed adj P u l i)
    (hi : edge adj u i ≠ 0 → dist_of P i ≠ 0 ∧ dist_of P i ≤ l + edge adj u i) :
    Relaxed adj P u l (i + 1) := by
  intro v hv he
  by_cases hvi : v = i
  · subst hvi
    exact hi he
  · exact hr v (by omega) he

theorem int_fits_index {u i : Nat} (hu : u < NUM_NODES) (hi : i < NUM_NODES) :
    int_fits ((u : Int) * NUM_NODES + i) = true := by
  unfold NUM_NODES at *
  unfold int_fits
  simp only [Bool.and_eq_true, decide_eq_true_eq]
  constructor <;> push_cast <;> omega
theorem loop_inv_advance {adj : List Int} {st : Nat} {q : List (Int × Int × Int)} {P : List Node}
    {u : Nat} {d : Int} {i : Nat} (h : LoopInv adj st q P (some (u, d, i)))
    (hi : edge adj u i ≠ 0 → dist_of P i ≠ 0 ∧ dist_of P i ≤ d + edge adj u i) :
    LoopInv adj st q P (some (u, d, i + 1)) := by
  refine ⟨h.len, h.start, h.nonneg, h.sound, h.items, ?_, ?_⟩
  · intro u2 d2 i2 heq
    simp only [Option.some.injEq, Prod.mk.injEq] at heq
    obtain ⟨h1, h2, _⟩ := heq
    subst h1 h2
    exact h.current u d i rfl
  · intro w hw hv
    rcases h.complete w hw hv with hp | hr | ⟨j, hj, hr⟩
    · exact Or.inl hp
    · exact Or.inr (Or.inl hr)
    · simp only [Option.some.injEq, Prod.mk.injEq] at hj
      obtain ⟨h1, h2, h3⟩ := hj
      subst h1 h3
      refine Or.inr (Or.inr ⟨i + 1, ?_, ?_⟩)
      · rw [h2]
      · rw [← h2]
        rw [← h2] at hr
        exact relaxed_succ hr hi

theorem loop_inv_finish {adj : List Int} {st : Nat} {q : List (Int × Int × Int)} {P : List Node}
    {u : Nat} {d : Int} (h : LoopInv adj st q P (some (u, d, NUM_NODES))) :
    LoopInv adj st q P none := by
  refine ⟨h.len, h.start, h.nonneg, h.sound, h.items, ?_, ?_⟩
  · intro u2 d2 i2 heq
    exact absurd heq (by simp)
  · intro w hw hv
    rcases h.complete w hw hv with hp | hr | ⟨j, hj, hr⟩
    · exact Or.inl hp
    · exact Or.inr (Or.inl hr)
    · simp only [Option.some.injEq, Prod.mk.injEq] at hj
      obtain ⟨_, _, h3⟩ := hj
      subst h3
      exact Or.inr (Or.inl hr)

theorem loop_inv_pop {adj : List Int} {st : Nat} {n d p : Int} {rest : List (Int × Int × Int)}
    {P : List Node} (h : LoopInv adj st ((n, d, p) :: rest) P none) :
    ∃ u : Nat, n = (u : Int) ∧ LoopInv adj st rest P (some (u, d, 0)) := by
  obtain ⟨u, hn, hw, hor⟩ := h.items n d p (List.mem_cons_self _ _)
  refine ⟨u, hn, h.len, h.start, h.nonneg, h.sound, ?_, ?_, ?_⟩
  · intro n2 d2 p2 hmem
    exact h.items n2 d2 p2 (List.mem_cons_of_mem _ hmem)
  · intro u2 d2 i2 heq
    simp only [Option.some.injEq, Prod.mk.injEq] at heq
    obtain ⟨h1, h2, _⟩ := heq
    subst h1 h2
    exact ⟨hw, hor⟩
  · intro w hwN hv
    rcases h.complete w hwN hv with ⟨p2, hp⟩ | hr | ⟨j, hj, _⟩
    · rcases List.mem_cons.mp hp with heq | hmem
      · simp only [Prod.mk.injEq] at heq
        obtain ⟨h1, h2, _⟩ := heq
        rw [hn] at h1
        have h1n : w = u := Int.ofNat_inj.mp h1
        subst h1n
        refine Or.inr (Or.inr ⟨0, ?_, ?_⟩)
        · rw [h2]
        · intro v hv0 _
          exact absurd hv0 (Nat.not_lt_zero v)
      · exact Or.inl ⟨p2, hmem⟩
    · exact Or.inr (Or.inl hr)
    · exact absurd hj (by simp)

theorem loop_inv_update {adj : List Int} (hadj : ∀ x, x ∈ adj → 0 ≤ x) {st : Nat}
    {q : List (Int × Int × Int)} {P : List Node} {u : Nat} {d : Int} {i : Nat}
    (h : LoopInv adj st q P (some (u, d, i))) (hi : i < NUM_NODES) (he : edge adj u i ≠ 0)
    (hcond : dist_of P i = 0 ∨ dist_of P i > edge adj u i + d) :
    LoopInv adj st (q ++ [((i : Int), d + edge adj u i, (u : Int))])
      (P.set i ⟨d + edge adj u i, u⟩) (some (u, d, i + 1)) := by
  obtain ⟨hw, hcur⟩ := h.current u d i rfl
  have hd : 0 ≤ d := walk_nonneg hadj hw
  have hepos : 0 < edge adj u i := lt_of_le_of_ne (edge_nonneg hadj u i) (Ne.symm he)
  have hiP : i < P.length := by rw [h.len]; exact hi
  have hdist : ∀ v, dist_of (P.set i ⟨d + edge adj u i, u⟩) v
      = if v = i then d + edge adj u i else dist_of P v := fun v => dist_of_set hiP _ v
  have hmono : ∀ v, dist_of P v ≠ 0 → dist_of (P.set i ⟨d + edge adj u i, u⟩) v ≠ 0
      ∧ dist_of (P.set i ⟨d + edge adj u i, u⟩) v ≤ dist_of P v := by
    intro v hv
    rw [hdist]
    by_cases hvi : v = i
    · subst hvi
      rw [if_pos rfl]
      rcases hcond with h0 | h1
      · exact absurd h0 hv
      · constructor <;> omega
    · rw [if_neg hvi]
      exact ⟨hv, le_refl _⟩
  have hwi : Walk adj st i (d + edge adj u i) := Walk.snoc hw hi he
  refine ⟨?_, h.start, ?_, ?_, ?_, ?_, ?_⟩
  · rw [List.length_set]
    exact h.len
  · intro v hv
    rw [hdist]
    by_cases hvi : v = i
    · rw [if_pos hvi]
      omega
    · rw [if_neg hvi]
      exact h.nonneg v hv
  · intro v hv hvst hne
    rw [hdist] at hne ⊢
    rw [prev_of_set hiP]
    by_cases hvi : v = i
    · subst hvi
      rw [if_pos rfl]
      rw [if_pos rfl]
      exact ⟨hwi, u, d, rfl, hw, he, rfl⟩
    · rw [if_neg hvi] at hne ⊢
      rw [if_neg hvi]
      exact h.sound v hv hvst hne
  · intro n d2 p hmem
    rcases List.mem_append.mp hmem with hold | hnew
    · obtain ⟨w, hn, hww, hor⟩ := h.items n d2 p hold
      refine ⟨w, hn, hww, ?_⟩
      rcases hor with h1 | ⟨h1, h2⟩
      · exact Or.inl h1
      · obtain ⟨h3, h4⟩ := hmono w h1
        exact Or.inr ⟨h3, le_trans h4 h2⟩
    · simp only [List.mem_singleton, Prod.mk.injEq] at hnew
      obtain ⟨h1, h2, _⟩ := hnew
      subst h1 h2
      refine ⟨i, rfl, hwi, Or.inr ?_⟩
      rw [hdist, if_pos rfl]
      exact ⟨by omega, le_refl _⟩
  · intro u2 d2 i2 heq
    simp only [Option.some.injEq, Prod.mk.injEq] at heq
    obtain ⟨h1, h2, _⟩ := heq
    subst h1 h2
    refine ⟨hw, ?_⟩
    rcases hcur with h1 | ⟨h1, h2⟩
    · exact Or.inl h1
    · obtain ⟨h3, h4⟩ := hmono u h1
      exact Or.inr ⟨h3, le_trans h4 h2⟩
  · intro w hwN hv
    by_cases hwi2 : w = i ∧ w ≠ st
    · obtain ⟨h1, h2⟩ := hwi2
      subst h1
      refine Or.inl ⟨u, ?_⟩
      unfold label
      rw [if_neg h2, hdist, if_pos rfl]
      exact List.mem_append_right _ (List.mem_singleton.mpr rfl)
    · have hlab : label st (P.set i ⟨d + edge adj u i, u⟩) w = label st P w := by
        unfold label
        by_cases hst : w = st
        · rw [if_pos hst, if_pos hst]
        · rw [if_neg hst, if_neg hst, hdist]
          have hne : w ≠ i := fun hwi3 => hwi2 ⟨hwi3, hst⟩
          rw [if_neg hne]
      have hvold : w = st ∨ dist_of P w ≠ 0 := by
        rcases hv with h1 | h1
        · exact Or.inl h1
        · by_cases hst : w = st
          · exact Or.inl hst
          · have hne : w ≠ i := fun hwi3 => hwi2 ⟨hwi3, hst⟩
            rw [hdist, if_neg hne] at h1
            exact Or.inr h1
      rw [hlab]
      rcases h.complete w hwN hvold with ⟨p2, hp⟩ | hr | ⟨j, hj, hr⟩
      · exact Or.inl ⟨p2, List.mem_append_left _ hp⟩
      · exact Or.inr (Or.inl (relaxed_mono hmono hr))
      · simp only [Option.some.injEq, Prod.mk.injEq] at hj
        obtain ⟨h1, h2, h3⟩ := hj
        subst h1 h3
        refine Or.inr (Or.inr ⟨i + 1, ?_, ?_⟩)
        · rw [h2]
        · rw [← h2]
          rw [← h2] at hr
          refine relaxed_succ (relaxed_mono hmono hr) ?_
          intro _
          rw [hdist, if_pos rfl]
          exact ⟨by omega, le_refl _⟩
theorem enqueue_good {malloc : Malloc} (hfresh : Fresh malloc) (hm : ∀ h, malloc h ≠ none)
    {s : State} {q : List (Int × Int × Int)} (hg : Good s q) (n d p : Int) :
    ∃ s2, enqueue malloc s n d p = Except.ok (0, s2) ∧ Good s2 (q ++ [(n, d, p)])
      ∧ s2.path_nodes = s.path_nodes := by
  obtain ⟨as, hq, hnd, hcount⟩ := hg
  rcases enqueue_spec hfresh hq hnd hcount n d p with ⟨h1, _⟩ | ⟨new, s2, _, h2, h3, h4, h5, h6⟩
  · exact absurd h1 (hm _)
  · exact ⟨s2, h2, ⟨as ++ [new], h3, h4, h5⟩, h6⟩

theorem relax_one_spec {malloc : Malloc} (hfresh : Fresh malloc) (hm : ∀ h, malloc h ≠ none)
    {adj : List Int} (hlen : adj.length = NUM_NODES * NUM_NODES) (hadj : ∀ x, x ∈ adj → 0 ≤ x)
    {st u : Nat} {n d : Int} (hn : n = (u : Int)) {i : Nat} (hi : i < NUM_NODES) {s : State}
    {q : List (Int × Int × Int)} (hg : Good s q)
    (hinv : LoopInv adj st q s.path_nodes (some (u, d, i))) :
    (relax_one malloc adj n d s i = Except.error Fault.overflow ∧ Overflows adj st) ∨
    ∃ s2 q2, relax_one malloc adj n d s i = Except.ok (Flow.next s2) ∧ Good s2 q2 ∧
      LoopInv adj st q2 s2.path_nodes (some (u, d, i + 1)) ∧
      (Closer s2.path_nodes s.path_nodes ∨ (s2.path_nodes = s.path_nodes ∧ q2 = q)) := by
  subst hn
  obtain ⟨hw, hcur⟩ := hinv.current u d i rfl
  have hu : u < NUM_NODES := walk_lt hw
  have hd : 0 ≤ d := walk_nonneg hadj hw
  have hidx : ((u : Int) * NUM_NODES + i).toNat = u * NUM_NODES + i := by
    have : ((u : Int) * NUM_NODES + i) = ((u * NUM_NODES + i : Nat) : Int) := by push_cast; rfl
    rw [this, Int.toNat_ofNat]
  have hin : ¬ ((u : Int) * NUM_NODES + i < 0 ∨ (u : Int) * NUM_NODES + i ≥ adj.length) := by
    rw [hlen]
    unfold NUM_NODES at *
    push_cast
    omega
  have hcost : adj.getD ((u : Int) * NUM_NODES + i).toNat 0 = edge adj u i := by
    rw [hidx]
    rfl
  unfold relax_one
  rw [int_fits_index hu hi]
  simp only [Bool.not_true, Bool.false_eq_true, if_false]
  rw [if_neg hin]
  simp only [hcost]
  by_cases he : edge adj u i = NONE
  · rw [if_pos he]
    refine Or.inr ⟨s, q, rfl, hg, loop_inv_advance hinv (fun hne => absurd he hne), Or.inr ⟨rfl, rfl⟩⟩
  · rw [if_neg he]
    have hepos : 0 < edge adj u i := lt_of_le_of_ne (edge_nonneg hadj u i) (Ne.symm he)
    have hiP : i < s.path_nodes.length := by rw [hinv.len]; exact hi
    have hget : s.path_nodes[i]? = some (s.path_nodes[i]) := List.getElem?_eq_getElem hiP
    have hdist : dist_of s.path_nodes i = (s.path_nodes[i]).dist := dist_of_eq hget
    rw [hget]
    simp only
    by_cases hfit : int_fits (edge adj u i + d) = true
    · rw [hfit]
      simp only [Bool.not_true, Bool.false_eq_true, if_false]
      by_cases hcond : NONE = (s.path_nodes[i]).dist ∨ (s.path_nodes[i]).dist > edge adj u i + d
      · rw [if_pos hcond]
        have hg1 : Good ⟨s.heap, s.head, s.queue_count,
            s.path_nodes.set i ⟨d + edge adj u i, u⟩⟩ q := hg
        obtain ⟨s2, h1, h2, h3⟩ := enqueue_good hfresh hm hg1 i (d + edge adj u i) u
        rw [h1]
        have hne : ¬ ((0 : Int) = -1) := by decide
        simp only [hne, if_false]
        have hcond2 : dist_of s.path_nodes i = 0 ∨ dist_of s.path_nodes i > edge adj u i + d := by
          rw [hdist]
          rcases hcond with h0 | h0
          · exact Or.inl h0.symm
          · exact Or.inr h0
        refine Or.inr ⟨s2, _, rfl, h2, ?_, Or.inl ?_⟩
        · rw [h3]
          exact loop_inv_update hadj hinv hi he hcond2
        · rw [h3]
          refine closer_set hget _ ?_ ?_ ?_
          · show 0 < d + edge adj u i
            omega
          · rw [← hdist]
            exact hinv.nonneg i hi
          · rcases hcond with h0 | h0
            · exact Or.inl h0.symm
            · right
              show d + edge adj u i < _
              omega
      · rw [if_neg hcond]
        refine Or.inr ⟨s, q, rfl, hg, loop_inv_advance hinv ?_, Or.inr ⟨rfl, rfl⟩⟩
        intro _
        rw [hdist]
        constructor
        · intro h0
          exact hcond (Or.inl h0.symm)
        · have : ¬ (s.path_nodes[i]).dist > edge adj u i + d := fun h0 => hcond (Or.inr h0)
          omega
    · left
      have hfit2 : int_fits (edge adj u i + d) = false := by
        cases hx : int_fits (edge adj u i + d)
        · rfl
        · exact absurd hx hfit
      refine ⟨?_, u, i, d, hw, he, hfit2⟩
      rw [hfit2]
      rfl

theorem relax_from_zero (malloc : Malloc) (adj : List Int) (u d : Int) (i : Nat) (s : State) :
    relax_from malloc adj u d 0 i s = Except.ok (Flow.next s) := rfl

theorem relax_from_succ (malloc : Malloc) (adj : List Int) (u d : Int) (k i : Nat) (s : State) :
    relax_from malloc adj u d (k + 1) i s =
      match relax_one malloc adj u d s i with
      | Except.error e => Except.error e
      | Except.ok (Flow.ret r s1) => Except.ok (Flow.ret r s1)
      | Except.ok (Flow.next s1) => relax_from malloc adj u d k (i + 1) s1 := rfl

theorem relax_from_spec {malloc : Malloc} (hfresh : Fresh malloc) (hm : ∀ h, malloc h ≠ none)
    {adj : List Int} (hlen : adj.length = NUM_NODES * NUM_NODES) (hadj : ∀ x, x ∈ adj → 0 ≤ x)
    {st u : Nat} {n d : Int} (hn : n = (u : Int)) :
    ∀ (k i : Nat) (s : State) (q : List (Int × Int × Int)), i + k = NUM_NODES → Good s q →
      LoopInv adj st q s.path_nodes (some (u, d, i)) →
      (relax_from malloc adj n d k i s = Except.error Fault.overflow ∧ Overflows adj st) ∨
      ∃ s2 q2, relax_from malloc adj n d k i s = Except.ok (Flow.next s2) ∧ Good s2 q2 ∧
        LoopInv adj st q2 s2.path_nodes (some (u, d, NUM_NODES)) ∧
        (Closer s2.path_nodes s.path_nodes ∨ (s2.path_nodes = s.path_nodes ∧ q2 = q)) := by
  intro k
  induction k with
  | zero =>
    intro i s q hik hg hinv
    have hi : i = NUM_NODES := hik
    rw [hi] at hinv
    exact Or.inr ⟨s, q, relax_from_zero _ _ _ _ _ _, hg, hinv, Or.inr ⟨rfl, rfl⟩⟩
  | succ k ih =>
    intro i s q hik hg hinv
    have hi : i < NUM_NODES := by rw [← hik]; omega
    have hik2 : i + 1 + k = NUM_NODES := by rw [← hik]; omega
    rw [relax_from_succ]
    rcases relax_one_spec hfresh hm hlen hadj hn hi hg hinv with
      ⟨h1, hov⟩ | ⟨s1, q1, h1, hg1, hinv1, hp1⟩
    · rw [h1]
      exact Or.inl ⟨rfl, hov⟩
    · rw [h1]
      simp only
      rcases ih (i + 1) s1 q1 hik2 hg1 hinv1 with h2 | ⟨s2, q2, h2, hg2, hinv2, hp2⟩
      · exact Or.inl h2
      · refine Or.inr ⟨s2, q2, h2, hg2, hinv2, ?_⟩
        rcases hp1 with hc1 | ⟨he1, hq1⟩
        · rcases hp2 with hc2 | ⟨he2, _⟩
          · exact Or.inl (closer_trans hc1 hc2)
          · rw [he2]
            exact Or.inl hc1
        · rcases hp2 with hc2 | ⟨he2, hq2⟩
          · rw [← he1]
            exact Or.inl hc2
          · exact Or.inr ⟨he2.trans he1, hq2.trans hq1⟩
theorem work_loop_succ (malloc : Malloc) (adj : List Int) (fuel : Nat) (s : State) :
    work_loop malloc adj (fuel + 1) s =
      if s.queue_count > 0 then
        match dequeue s with
        | Except.error e => Except.error e
        | Except.ok (_, s1, none) => Except.ok (-1, s1)
        | Except.ok (_, s1, some (dequeue_node, dequeue_dist, _)) =>
          match relax_from malloc adj dequeue_node dequeue_dist NUM_NODES 0 s1 with
          | Except.error e => Except.error e
          | Except.ok (Flow.ret r s2) => Except.ok (r, s2)
          | Except.ok (Flow.next s2) => work_loop malloc adj fuel s2
      else Except.ok (0, s) := rfl

theorem work_loop_spec {malloc : Malloc} (hfresh : Fresh malloc) (hm : ∀ h, malloc h ≠ none)
    {adj : List Int} (hlen : adj.length = NUM_NODES * NUM_NODES) (hadj : ∀ x, x ∈ adj → 0 ≤ x)
    {st : Nat} :
    ∀ (Z T L : Nat) (s : State) (q : List (Int × Int × Int)), zeros s.path_nodes = Z →
      total s.path_nodes = T → q.length = L → Good s q → LoopInv adj st q s.path_nodes none →
      ∃ fuel r, (∀ fuel2, fuel ≤ fuel2 → work_loop malloc adj fuel2 s = r) ∧
        ((r = Except.error Fault.overflow ∧ Overflows adj st) ∨
          ∃ s2, r = Except.ok (0, s2) ∧ Good s2 [] ∧ LoopInv adj st [] s2.path_nodes none) := by
  intro Z
  induction Z using Nat.strong_induction_on with
  | _ Z ihZ =>
  intro T
  induction T using Nat.strong_induction_on with
  | _ T ihT =>
  intro L
  induction L using Nat.strong_induction_on with
  | _ L ihL =>
  intro s q hZ hT hL hg hinv
  cases q with
  | nil =>
    have hc : s.queue_count = 0 := by
      obtain ⟨as, _, _, hc⟩ := hg
      simpa using hc
    refine ⟨1, Except.ok (0, s), ?_, Or.inr ⟨s, rfl, hg, hinv⟩⟩
    intro fuel2 hf
    obtain ⟨f, rfl⟩ : ∃ f, fuel2 = f + 1 := ⟨fuel2 - 1, by omega⟩
    rw [work_loop_succ, hc]
    rfl
  | cons x rest =>
    obtain ⟨n, d, p⟩ := x
    have hpos : s.queue_count > 0 := by
      obtain ⟨as, _, _, hc⟩ := hg
      rw [hc]
      simp only [List.length_cons]
      omega
    obtain ⟨as, hq, hnd, hc⟩ := hg
    rcases dequeue_spec hq hnd hc with ⟨h0, _⟩ | ⟨x, xs2, a, as2, s1, hx, _, hdeq, hq1, hnd1, hc1, hp1⟩
    · exact absurd h0 (by simp)
    · simp only [List.cons.injEq] at hx
      obtain ⟨hx1, hx2⟩ := hx
      subst hx1 hx2
      have hg1 : Good s1 rest := ⟨as2, hq1, hnd1, hc1⟩
      obtain ⟨u, hn, hinv0⟩ := loop_inv_pop hinv
      rw [← hp1] at hinv0
      have hstep : ∀ f, work_loop malloc adj (f + 1) s =
          match relax_from malloc adj n d NUM_NODES 0 s1 with
          | Except.error e => Except.error e
          | Except.ok (Flow.ret r s2) => Except.ok (r, s2)
          | Except.ok (Flow.next s2) => work_loop malloc adj f s2 := by
        intro f
        rw [work_loop_succ, if_pos hpos, hdeq]
      rcases relax_from_spec hfresh hm hlen hadj hn NUM_NODES 0 s1 rest (Nat.zero_add _) hg1 hinv0
        with ⟨h1, hov⟩ | ⟨s2, q2, h1, hg2, hinv2, hprog⟩
      · refine ⟨1, Except.error Fault.overflow, ?_, Or.inl ⟨rfl, hov⟩⟩
        intro fuel2 hf
        obtain ⟨f, rfl⟩ : ∃ f, fuel2 = f + 1 := ⟨fuel2 - 1, by omega⟩
        rw [hstep, h1]
      · have hinv3 := loop_inv_finish hinv2
        have hrec : ∃ fuel r, (∀ fuel2, fuel ≤ fuel2 → work_loop malloc adj fuel2 s2 = r) ∧
            ((r = Except.error Fault.overflow ∧ Overflows adj st) ∨
              ∃ s3, r = Except.ok (0, s3) ∧ Good s3 [] ∧ LoopInv adj st [] s3.path_nodes none) := by
          rcases hprog with hcl | ⟨hsame, hq2⟩
          · rw [hp1] at hcl
            rcases hcl with hz | ⟨hz, ht⟩
            · rw [hZ] at hz
              exact ihZ _ hz _ _ s2 q2 rfl rfl rfl hg2 hinv3
            · rw [hT] at ht
              rw [hZ] at hz
              exact ihT _ ht _ s2 q2 hz rfl rfl hg2 hinv3
          · subst hq2
            rw [hp1] at hsame
            have hlt : q2.length < L := by
              rw [← hL]
              simp
            exact ihL _ hlt s2 q2 (by rw [hsame]; exact hZ) (by rw [hsame]; exact hT) rfl hg2 hinv3
        obtain ⟨fuel, r, hrun, hres⟩ := hrec
        refine ⟨fuel + 1, r, ?_, hres⟩
        intro fuel2 hf
        obtain ⟨f, rfl⟩ : ∃ f, fuel2 = f + 1 := ⟨fuel2 - 1, by omega⟩
        rw [hstep, h1]
        exact hrun f (by omega)
theorem dist_of_replicate (k v : Nat) : dist_of (List.replicate k ⟨NONE, NONE⟩) v = 0 := by
  unfold dist_of
  rw [List.getD_eq_getElem?_getD]
  cases h : (List.replicate k (⟨NONE, NONE⟩ : Node))[v]? with
  | none => rfl
  | some x =>
    have hx : x = ⟨NONE, NONE⟩ := List.eq_of_mem_replicate (List.getElem?_mem h)
    rw [hx]
    rfl

theorem dist_of_init (st v : Nat) :
    dist_of ((List.replicate NUM_NODES ⟨NONE, NONE⟩).set st ⟨0, NONE⟩) v = 0 := by
  by_cases hst : st < (List.replicate NUM_NODES (⟨NONE, NONE⟩ : Node)).length
  · rw [dist_of_set hst]
    by_cases hv : v = st
    · rw [if_pos hv]
    · rw [if_neg hv]
      exact dist_of_replicate _ _
  · rw [List.set_eq_of_length_le (Nat.le_of_not_lt hst)]
    exact dist_of_replicate _ _

theorem loop_inv_init (adj : List Int) {st : Nat} (hst : st < NUM_NODES) (p : Int) :
    LoopInv adj st [((st : Int), 0, p)]
      ((List.replicate NUM_NODES ⟨NONE, NONE⟩).set st ⟨0, NONE⟩) none := by
  refine ⟨?_, hst, ?_, ?_, ?_, ?_, ?_⟩
  · rw [List.length_set, List.length_replicate]
  · intro i _
    rw [dist_of_init]
  · intro i _ _ hne
    exact absurd (dist_of_init st i) hne
  · intro n d p2 hmem
    simp only [List.mem_singleton, Prod.mk.injEq] at hmem
    obtain ⟨h1, h2, _⟩ := hmem
    subst h1 h2
    exact ⟨st, rfl, Walk.nil hst, Or.inl rfl⟩
  · intro u d i heq
    exact absurd heq (by simp)
  · intro u _ hv
    rcases hv with h1 | h1
    · subst h1
      refine Or.inl ⟨p, ?_⟩
      unfold label
      rw [if_pos rfl]
      exact List.mem_singleton.mpr rfl
    · exact absurd (dist_of_init st u) h1

theorem loop_inv_final_le {adj : List Int} (hadj : ∀ x, x ∈ adj → 0 ≤ x) {st : Nat} {P : List Node}
    (h : LoopInv adj st [] P none) {v : Nat} {c : Int} (hw : Walk adj st v c) :
    (v = st ∨ dist_of P v ≠ 0) ∧ label st P v ≤ c := by
  induction hw with
  | nil _ =>
    refine ⟨Or.inl rfl, ?_⟩
    unfold label
    rw [if_pos rfl]
  | @snoc v w c hvw hwN he ih =>
    obtain ⟨hvis, hle⟩ := ih
    have hrel : Relaxed adj P v (label st P v) NUM_NODES := by
      rcases h.complete v (walk_lt hvw) hvis with ⟨p, hp⟩ | hr | ⟨j, hj, _⟩
      · exact absurd hp (List.not_mem_nil _)
      · exact hr
      · exact absurd hj (by simp)
    obtain ⟨h1, h2⟩ := hrel w hwN he
    refine ⟨Or.inr h1, ?_⟩
    unfold label
    by_cases hst : w = st
    · rw [if_pos hst]
      exact walk_nonneg hadj (Walk.snoc hvw hwN he)
    · rw [if_neg hst]
      omega

theorem loop_inv_final {adj : List Int} (hadj : ∀ x, x ∈ adj → 0 ≤ x) {st : Nat} {P : List Node}
    (h : LoopInv adj st [] P none) {i : Nat} {c : Int} (hi : i ≠ st) (hw : Walk adj st i c) :
    Walk adj st i (dist_of P i) ∧
    (∀ c2, Walk adj st i c2 → dist_of P i ≤ c2) ∧
    ∃ (u : Nat) (cu : Int), prev_of P i = (u : Int) ∧ Walk adj st u cu ∧ edge adj u i ≠ 0 ∧
      cu + edge adj u i = dist_of P i := by
  have hne : dist_of P i ≠ 0 := by
    rcases (loop_inv_final_le hadj h hw).1 with h1 | h1
    · exact absurd h1 hi
    · exact h1
  obtain ⟨h1, h2⟩ := h.sound i (walk_lt hw) hi hne
  refine ⟨h1, ?_, h2⟩
  intro c2 hw2
  have := (loop_inv_final_le hadj h hw2).2
  unfold label at this
  rw [if_neg hi] at this
  exact this

theorem nanvix_dijkstra_run {malloc : Malloc} (hfresh : Fresh malloc)
    (hm : ∀ h, malloc h ≠ none) (adj : List Int) {s : State} (hhead : s.head = none)
    (hcount : s.queue_count = 0) {node_start node_end : Int}
    (hs : 0 ≤ node_start ∧ node_start < NUM_NODES) (hne : node_start ≠ node_end) :
    ∃ s1, (∀ fuel, nanvix_dijkstra malloc fuel s adj node_start node_end
        = work_loop malloc adj fuel s1) ∧ Good s1 [(node_start, 0, NONE)] ∧
      s1.path_nodes = (List.replicate NUM_NODES ⟨NONE, NONE⟩).set node_start.toNat ⟨0, NONE⟩ := by
  have hg0 : Good ⟨s.heap, s.head, s.queue_count,
      (List.replicate NUM_NODES ⟨NONE, NONE⟩).set node_start.toNat ⟨0, NONE⟩⟩ [] := by
    refine ⟨[], ?_, List.nodup_nil, hcount⟩
    show IsQueue s.heap s.head [] []
    rw [hhead]
    exact IsQueue.nil
  obtain ⟨s1, h1, h2, h3⟩ := enqueue_good hfresh hm hg0 node_start 0 NONE
  refine ⟨s1, ?_, h2, h3⟩
  intro fuel
  have hr : ¬ (node_start < 0 ∨ node_start ≥ NUM_NODES) := by omega
  unfold nanvix_dijkstra
  rw [if_neg hne, if_neg hr, h1]
  rfl
/-- Claim C30: for a 100x100 adjacency matrix with non-negative entries (0 for
no edge), a start node in range, an end node other than the start node, an
allocator that never fails and an empty queue, the work loop of
`nanvix_dijkstra` terminates: with enough iterations allowed the run has one
outcome.  That outcome is a signed overflow only if the cost of some path from
the start node plus an edge does not fit an `int`.  Otherwise the function
returns 0 with an empty queue, and for every node `i` other than the start
node that some path from the start node reaches, `path_nodes[i].dist` is the
cost of a path from the start node to `i`, no path from the start node to `i`
costs less, and `path_nodes[i].prev` is the node before `i` on a path of that
cost. -/
theorem nanvix_dijkstra_shortest (malloc : Malloc) (hfresh : Fresh malloc)
    (hm : ∀ h, malloc h ≠ none) (adj_matrix : List Int)
    (hlen : adj_matrix.length = NUM_NODES * NUM_NODES)
    (hadj : ∀ x, x ∈ adj_matrix → 0 ≤ x) (s : State) (hhead : s.head = none)
    (hcount : s.queue_count = 0) (node_start node_end : Int)
    (hs : 0 ≤ node_start ∧ node_start < NUM_NODES) (hne : node_start ≠ node_end) :
    ∃ fuel r,
      (∀ fuel2, fuel ≤ fuel2 →
        nanvix_dijkstra malloc fuel2 s adj_matrix node_start node_end = r) ∧
      ((r = Except.error Fault.overflow ∧ Overflows adj_matrix node_start.toNat) ∨
        ∃ s2, r = Except.ok (0, s2) ∧ s2.head = none ∧ s2.queue_count = 0 ∧
          ∀ (i : Nat) (c : Int), i ≠ node_start.toNat →
            Walk adj_matrix node_start.toNat i c →
            Walk adj_matrix node_start.toNat i (dist_of s2.path_nodes i) ∧
            (∀ c2, Walk adj_matrix node_start.toNat i c2 → dist_of s2.path_nodes i ≤ c2) ∧
            ∃ (u : Nat) (cu : Int), prev_of s2.path_nodes i = (u : Int) ∧
              Walk adj_matrix node_start.toNat u cu ∧ edge adj_matrix u i ≠ 0 ∧
              cu + edge adj_matrix u i = dist_of s2.path_nodes i) := by
  obtain ⟨s1, hrun, hg1, hp1⟩ := nanvix_dijkstra_run hfresh hm adj_matrix hhead hcount hs hne
  have hst : node_start.toNat < NUM_NODES := by
    unfold NUM_NODES at *
    omega
  have hcast : node_start = (node_start.toNat : Int) := (Int.toNat_of_nonneg hs.1).symm
  have hinv1 : LoopInv adj_matrix node_start.toNat [(node_start, 0, NONE)] s1.path_nodes none := by
    rw [hp1]
    have := loop_inv_init adj_matrix hst NONE
    rw [← hcast] at this
    exact this
  obtain ⟨fuel, r, hloop, hres⟩ :=
    work_loop_spec hfresh hm hlen hadj _ _ _ s1 _ rfl rfl rfl hg1 hinv1
  refine ⟨fuel, r, ?_, ?_⟩
  · intro fuel2 hf
    rw [hrun]
    exact hloop fuel2 hf
  · rcases hres with h1 | ⟨s2, h1, hg2, hinv2⟩
    · exact Or.inl h1
    · obtain ⟨as, hq, _, hc⟩ := hg2
      refine Or.inr ⟨s2, h1, (isQueue_nil hq rfl).1, hc, ?_⟩
      intro i c hi hw
      exact loop_inv_final hadj hinv2 hi hw

theorem malloc_bump_total : ∀ h, malloc_bump h ≠ none := by
  intro h
  unfold malloc_bump
  exact Option.some_ne_none _

theorem adj_one_edge_length : adj_one_edge.length = NUM_NODES * NUM_NODES := by
  unfold adj_one_edge
  rw [List.length_set, List.length_replicate]

theorem adj_one_edge_nonneg : ∀ x, x ∈ adj_one_edge → 0 ≤ x := by
  intro x hx
  unfold adj_one_edge at hx
  rcases List.mem_or_eq_of_mem_set hx with h1 | h1
  · rw [List.eq_of_mem_replicate h1]
  · rw [h1]
    decide

theorem edge_one_edge (u v : Nat) :
    edge adj_one_edge u v = if u * NUM_NODES + v = 1 then 5 else 0 := by
  unfold edge adj_one_edge
  rw [List.getD_eq_getElem?_getD]
  by_cases h : u * NUM_NODES + v = 1
  · rw [if_pos h, h, List.getElem?_set_self]
    · rfl
    · rw [List.length_replicate]
      decide
  · rw [if_neg h, List.getElem?_set_ne (Ne.symm h)]
    cases hx : (List.replicate (NUM_NODES * NUM_NODES) (0 : Int))[u * NUM_NODES + v]? with
    | none => rfl
    | some x =>
      rw [List.eq_of_mem_replicate (List.getElem?_mem hx)]
      rfl

theorem edge_one_edge_ne {u v : Nat} (h : edge adj_one_edge u v ≠ 0) :
    u = 0 ∧ v = 1 ∧ edge adj_one_edge u v = 5 := by
  rw [edge_one_edge] at h ⊢
  by_cases h1 : u * NUM_NODES + v = 1
  · rw [if_pos h1]
    unfold NUM_NODES at h1
    omega
  · rw [if_neg h1] at h
    exact absurd rfl h

theorem walk_one_edge {v : Nat} {c : Int} (hw : Walk adj_one_edge 0 v c) :
    (v = 0 ∧ c = 0) ∨ (v = 1 ∧ c = 5) := by
  induction hw with
  | nil _ => exact Or.inl ⟨rfl, rfl⟩
  | @snoc v w c _ _ he ih =>
    obtain ⟨h1, h2, h3⟩ := edge_one_edge_ne he
    rw [h3]
    rcases ih with ⟨_, h5⟩ | ⟨h4, _⟩
    · right
      rw [h5]
      exact ⟨h2, rfl⟩
    · rw [h1] at h4
      exact absurd h4 (by decide)

theorem one_edge_fits : ¬ Overflows adj_one_edge 0 := by
  rintro ⟨u, v, c, hw, he, hfit⟩
  obtain ⟨h1, _, h3⟩ := edge_one_edge_ne he
  rcases walk_one_edge hw with ⟨_, h5⟩ | ⟨h4, _⟩
  · rw [h3, h5] at hfit
    exact absurd hfit (by decide)
  · rw [h1] at h4
    exact absurd h4 (by decide)

theorem nanvix_dijkstra_shortest_witness :
    ∃ fuel s2,
      (∀ fuel2, fuel ≤ fuel2 →
        nanvix_dijkstra malloc_bump fuel2 s_empty adj_one_edge 0 1 = Except.ok (0, s2)) ∧
      s2.head = none ∧ s2.queue_count = 0 ∧
      dist_of s2.path_nodes 1 = 5 ∧ prev_of s2.path_nodes 1 = 0 := by
  obtain ⟨fuel, r, hrun, hres⟩ :=
    nanvix_dijkstra_shortest malloc_bump fresh_malloc_bump malloc_bump_total adj_one_edge
      adj_one_edge_length adj_one_edge_nonneg s_empty rfl rfl 0 1 ⟨by decide, by decide⟩
      (by decide)
  rcases hres with ⟨_, hov⟩ | ⟨s2, h1, h2, h3, h4⟩
  · exact absurd hov one_edge_fits
  · have hw01 : Walk adj_one_edge 0 1 5 := by
      have h0 : edge adj_one_edge 0 1 ≠ 0 := by
        rw [edge_one_edge]
        decide
      have := Walk.snoc (Walk.nil (by decide)) (by decide) h0
      rw [(edge_one_edge_ne h0).2.2] at this
      exact this
    obtain ⟨h5, _, u, cu, h7, h8, h9, _⟩ := h4 1 5 (by decide) hw01
    refine ⟨fuel, s2, ?_, h2, h3, ?_, ?_⟩
    · intro fuel2 hf
      rw [hrun fuel2 hf, h1]
    · rcases walk_one_edge h5 with ⟨h10, _⟩ | ⟨_, h11⟩
      · exact absurd h10 (by decide)
      · exact h11
    · rw [h7, (edge_one_edge_ne h9).1]
      rfl

end Dijkstra
